import Mathlib

/-!
# Verification of the jsoncodegen core type-inference pipeline

Shallow embedding of the core pipeline of the `jsoncodegen` repository:

* `src/core/src/schema.rs`   — schema inference (`Schema::from`, `FieldTypeAggregator::merge`,
  `merge_obj_fields`, `sort_field_type`, `field_type`, `array`, `object`)
* `src/core/src/type_graph.rs` — graph construction (`GraphBuilder`), reduction (`TypeReducer`)
* `src/core/src/name_registry.rs` — candidate-name resolution and Kuhn matching
* `src/iota/src/lib.rs`      — monotone id allocation (`Iota::next`)

Rust `BTreeMap`s iterated in key order are modelled as key-sorted association
lists (ids are allocated in increasing order and appended, which keeps the list
sorted); `HashMap`s/`HashSet`s that are only used through point lookups are
modelled as association lists as well.  `serde_json::Number` is modelled by the
storage classes serde uses with the default features (u64 / i64 / f64).
Recursion that is unbounded in the source (the name resolver) is modelled with
explicit fuel, with `none` meaning the fuel ran out.
-/

namespace JCG

/-- serde_json `Number` storage (default features): a non-negative integer
literal that fits u64 is stored as `PosInt`, a negative one that fits i64 as
`NegInt`, anything else as an f64 (`Float`).  The float payload is irrelevant
to the pipeline (only the storage class is inspected), so it is not carried. -/
inductive JNumber where
  | posInt (n : Nat)
  | negInt (z : Int)
  | floatN
deriving DecidableEq, Repr

def u64Max : Nat := 2 ^ 64 - 1
def i64Max : Int := 2 ^ 63 - 1
def i64Min : Int := -(2 ^ 63)

/-- How serde_json parses an integer literal with mathematical value `z`:
try u64 for non-negative values, i64 for negative values, fall back to f64. -/
def numberFromInt (z : Int) : JNumber :=
  if 0 ≤ z ∧ z ≤ (u64Max : Int) then .posInt z.toNat
  else if i64Min ≤ z ∧ z < 0 then .negInt z
  else .floatN

/-- `serde_json::Number::is_u64`. -/
def JNumber.isU64 : JNumber → Bool
  | .posInt _ => true
  | _ => false

/-- `serde_json::Number::is_i64`. -/
def JNumber.isI64 : JNumber → Bool
  | .posInt n => decide ((n : Int) ≤ i64Max)
  | .negInt _ => true
  | .floatN => false

/-- `serde_json::Value`.  Objects are association lists; serde's default map is
a `BTreeMap`, so parsed objects have sorted distinct keys, but none of the code
embedded here depends on that (inference sorts everything at the end). -/
inductive Value where
  | vnull
  | vbool (b : Bool)
  | vnum (n : JNumber)
  | vstr (s : String)
  | varr (elems : List Value)
  | vobj (fields : List (String × Value))
deriving Repr

/-- `FieldType` from schema.rs.  `Field { name, ty }` is modelled as a pair. -/
inductive FieldType where
  | unknown
  | null
  | boolean
  | integer
  | float
  | string
  | array (inner : FieldType)
  | object (fields : List (String × FieldType))
  | optional (inner : FieldType)
  | union (members : List FieldType)
deriving Repr

mutual
/-- Decidable equality for `FieldType` (the derive handler does not support
nested inductives on this toolchain). -/
def FieldType.decEq : (a b : FieldType) → Decidable (a = b)
  | .unknown, .unknown => isTrue rfl
  | .unknown, .null => isFalse (fun h => FieldType.noConfusion h)
  | .unknown, .boolean => isFalse (fun h => FieldType.noConfusion h)
  | .unknown, .integer => isFalse (fun h => FieldType.noConfusion h)
  | .unknown, .float => isFalse (fun h => FieldType.noConfusion h)
  | .unknown, .string => isFalse (fun h => FieldType.noConfusion h)
  | .unknown, .array _ => isFalse (fun h => FieldType.noConfusion h)
  | .unknown, .object _ => isFalse (fun h => FieldType.noConfusion h)
  | .unknown, .optional _ => isFalse (fun h => FieldType.noConfusion h)
  | .unknown, .union _ => isFalse (fun h => FieldType.noConfusion h)
  | .null, .unknown => isFalse (fun h => FieldType.noConfusion h)
  | .null, .null => isTrue rfl
  | .null, .boolean => isFalse (fun h => FieldType.noConfusion h)
  | .null, .integer => isFalse (fun h => FieldType.noConfusion h)
  | .null, .float => isFalse (fun h => FieldType.noConfusion h)
  | .null, .string => isFalse (fun h => FieldType.noConfusion h)
  | .null, .array _ => isFalse (fun h => FieldType.noConfusion h)
  | .null, .object _ => isFalse (fun h => FieldType.noConfusion h)
  | .null, .optional _ => isFalse (fun h => FieldType.noConfusion h)
  | .null, .union _ => isFalse (fun h => FieldType.noConfusion h)
  | .boolean, .unknown => isFalse (fun h => FieldType.noConfusion h)
  | .boolean, .null => isFalse (fun h => FieldType.noConfusion h)
  | .boolean, .boolean => isTrue rfl
  | .boolean, .integer => isFalse (fun h => FieldType.noConfusion h)
  | .boolean, .float => isFalse (fun h => FieldType.noConfusion h)
  | .boolean, .string => isFalse (fun h => FieldType.noConfusion h)
  | .boolean, .array _ => isFalse (fun h => FieldType.noConfusion h)
  | .boolean, .object _ => isFalse (fun h => FieldType.noConfusion h)
  | .boolean, .optional _ => isFalse (fun h => FieldType.noConfusion h)
  | .boolean, .union _ => isFalse (fun h => FieldType.noConfusion h)
  | .integer, .unknown => isFalse (fun h => FieldType.noConfusion h)
  | .integer, .null => isFalse (fun h => FieldType.noConfusion h)
  | .integer, .boolean => isFalse (fun h => FieldType.noConfusion h)
  | .integer, .integer => isTrue rfl
  | .integer, .float => isFalse (fun h => FieldType.noConfusion h)
  | .integer, .string => isFalse (fun h => FieldType.noConfusion h)
  | .integer, .array _ => isFalse (fun h => FieldType.noConfusion h)
  | .integer, .object _ => isFalse (fun h => FieldType.noConfusion h)
  | .integer, .optional _ => isFalse (fun h => FieldType.noConfusion h)
  | .integer, .union _ => isFalse (fun h => FieldType.noConfusion h)
  | .float, .unknown => isFalse (fun h => FieldType.noConfusion h)
  | .float, .null => isFalse (fun h => FieldType.noConfusion h)
  | .float, .boolean => isFalse (fun h => FieldType.noConfusion h)
  | .float, .integer => isFalse (fun h => FieldType.noConfusion h)
  | .float, .float => isTrue rfl
  | .float, .string => isFalse (fun h => FieldType.noConfusion h)
  | .float, .array _ => isFalse (fun h => FieldType.noConfusion h)
  | .float, .object _ => isFalse (fun h => FieldType.noConfusion h)
  | .float, .optional _ => isFalse (fun h => FieldType.noConfusion h)
  | .float, .union _ => isFalse (fun h => FieldType.noConfusion h)
  | .string, .unknown => isFalse (fun h => FieldType.noConfusion h)
  | .string, .null => isFalse (fun h => FieldType.noConfusion h)
  | .string, .boolean => isFalse (fun h => FieldType.noConfusion h)
  | .string, .integer => isFalse (fun h => FieldType.noConfusion h)
  | .string, .float => isFalse (fun h => FieldType.noConfusion h)
  | .string, .string => isTrue rfl
  | .string, .array _ => isFalse (fun h => FieldType.noConfusion h)
  | .string, .object _ => isFalse (fun h => FieldType.noConfusion h)
  | .string, .optional _ => isFalse (fun h => FieldType.noConfusion h)
  | .string, .union _ => isFalse (fun h => FieldType.noConfusion h)
  | .array _, .unknown => isFalse (fun h => FieldType.noConfusion h)
  | .array _, .null => isFalse (fun h => FieldType.noConfusion h)
  | .array _, .boolean => isFalse (fun h => FieldType.noConfusion h)
  | .array _, .integer => isFalse (fun h => FieldType.noConfusion h)
  | .array _, .float => isFalse (fun h => FieldType.noConfusion h)
  | .array _, .string => isFalse (fun h => FieldType.noConfusion h)
  | .array a, .array b =>
      match FieldType.decEq a b with
      | isTrue h => isTrue (by rw [h])
      | isFalse h => isFalse (fun hh => h (by injection hh))
  | .array _, .object _ => isFalse (fun h => FieldType.noConfusion h)
  | .array _, .optional _ => isFalse (fun h => FieldType.noConfusion h)
  | .array _, .union _ => isFalse (fun h => FieldType.noConfusion h)
  | .object _, .unknown => isFalse (fun h => FieldType.noConfusion h)
  | .object _, .null => isFalse (fun h => FieldType.noConfusion h)
  | .object _, .boolean => isFalse (fun h => FieldType.noConfusion h)
  | .object _, .integer => isFalse (fun h => FieldType.noConfusion h)
  | .object _, .float => isFalse (fun h => FieldType.noConfusion h)
  | .object _, .string => isFalse (fun h => FieldType.noConfusion h)
  | .object _, .array _ => isFalse (fun h => FieldType.noConfusion h)
  | .object a, .object b =>
      match FieldType.decEqFields a b with
      | isTrue h => isTrue (by rw [h])
      | isFalse h => isFalse (fun hh => h (by injection hh))
  | .object _, .optional _ => isFalse (fun h => FieldType.noConfusion h)
  | .object _, .union _ => isFalse (fun h => FieldType.noConfusion h)
  | .optional _, .unknown => isFalse (fun h => FieldType.noConfusion h)
  | .optional _, .null => isFalse (fun h => FieldType.noConfusion h)
  | .optional _, .boolean => isFalse (fun h => FieldType.noConfusion h)
  | .optional _, .integer => isFalse (fun h => FieldType.noConfusion h)
  | .optional _, .float => isFalse (fun h => FieldType.noConfusion h)
  | .optional _, .string => isFalse (fun h => FieldType.noConfusion h)
  | .optional _, .array _ => isFalse (fun h => FieldType.noConfusion h)
  | .optional _, .object _ => isFalse (fun h => FieldType.noConfusion h)
  | .optional a, .optional b =>
      match FieldType.decEq a b with
      | isTrue h => isTrue (by rw [h])
      | isFalse h => isFalse (fun hh => h (by injection hh))
  | .optional _, .union _ => isFalse (fun h => FieldType.noConfusion h)
  | .union _, .unknown => isFalse (fun h => FieldType.noConfusion h)
  | .union _, .null => isFalse (fun h => FieldType.noConfusion h)
  | .union _, .boolean => isFalse (fun h => FieldType.noConfusion h)
  | .union _, .integer => isFalse (fun h => FieldType.noConfusion h)
  | .union _, .float => isFalse (fun h => FieldType.noConfusion h)
  | .union _, .string => isFalse (fun h => FieldType.noConfusion h)
  | .union _, .array _ => isFalse (fun h => FieldType.noConfusion h)
  | .union _, .object _ => isFalse (fun h => FieldType.noConfusion h)
  | .union _, .optional _ => isFalse (fun h => FieldType.noConfusion h)
  | .union a, .union b =>
      match FieldType.decEqList a b with
      | isTrue h => isTrue (by rw [h])
      | isFalse h => isFalse (fun hh => h (by injection hh))

/-- Decidable equality of field lists. -/
def FieldType.decEqFields : (a b : List (String × FieldType)) → Decidable (a = b)
  | [], [] => isTrue rfl
  | [], _ :: _ => isFalse (fun h => List.noConfusion h)
  | _ :: _, [] => isFalse (fun h => List.noConfusion h)
  | (n, t) :: fs, (m, u) :: gs =>
      match String.decEq n m with
      | isFalse h => isFalse (fun hh => by
          injection hh with h1 h2; exact h (congrArg Prod.fst h1))
      | isTrue h1 =>
        match FieldType.decEq t u with
        | isFalse h => isFalse (fun hh => by
            injection hh with hh1 hh2; exact h (congrArg Prod.snd hh1))
        | isTrue h2 =>
          match FieldType.decEqFields fs gs with
          | isTrue h3 => isTrue (by rw [h1, h2, h3])
          | isFalse h => isFalse (fun hh => by injection hh with hh1 hh2; exact h hh2)

/-- Decidable equality of member lists. -/
def FieldType.decEqList : (a b : List FieldType) → Decidable (a = b)
  | [], [] => isTrue rfl
  | [], _ :: _ => isFalse (fun h => List.noConfusion h)
  | _ :: _, [] => isFalse (fun h => List.noConfusion h)
  | t :: fs, u :: gs =>
      match FieldType.decEq t u with
      | isFalse h => isFalse (fun hh => by injection hh with hh1 hh2; exact h hh1)
      | isTrue h1 =>
        match FieldType.decEqList fs gs with
        | isTrue h2 => isTrue (by rw [h1, h2])
        | isFalse h => isFalse (fun hh => by injection hh with hh1 hh2; exact h hh2)
end

instance : DecidableEq FieldType := FieldType.decEq


/-- Lexicographic comparison of character lists. -/
def charListLe : List Char → List Char → Bool
  | [], _ => true
  | _ :: _, [] => false
  | c :: cs, d :: ds => if c < d then true else if d < c then false else charListLe cs ds

/-- Rust's `str` ordering (lexicographic; on Unicode text UTF-8 byte order
agrees with scalar-value order), as a computable comparison.  Lean's builtin
`String` order is used nowhere because its decision procedure is not
kernel-reducible. -/
def strLe (a b : String) : Bool := charListLe a.data b.data

/-- The by-name field order used for canonical sorting. -/
def nameLe {β : Type} (a b : String × β) : Prop := strLe a.1 b.1 = true

instance {β : Type} : DecidableRel (nameLe (β := β)) := fun a b => by
  unfold nameLe; infer_instance

/-- The complexity ranking used by `sort_field_types` (schema.rs). -/
def sortKey : FieldType → Nat
  | .unknown => 0
  | .null => 1
  | .boolean => 2
  | .integer => 3
  | .float => 4
  | .string => 5
  | .array _ => 6
  | .object _ => 7
  | .optional _ => 8
  | .union _ => 9

mutual
/-- `sort_field_type` (schema.rs): canonicalization.  Rust's `sort_by` is a
stable sort, modelled by the (also stable) `List.insertionSort`.  The source
sorts a list and then recursively sorts the elements in place; here the
elements are sorted first and the stable sort is applied afterwards.  The two
orders agree because the sort keys — field names and `sortKey` — are
untouched by the recursive sorting. -/
def sortFieldType : FieldType → FieldType
  | .object fields => .object ((sortFieldsRec fields).insertionSort nameLe)
  | .union members =>
      .union ((sortFieldTypesRec members).insertionSort (fun a b => sortKey a ≤ sortKey b))
  | .array inner => .array (sortFieldType inner)
  | .optional inner => .optional (sortFieldType inner)
  | t => t

/-- Recursive part of `sort_fields` (the by-name sort is applied by the caller). -/
def sortFieldsRec : List (String × FieldType) → List (String × FieldType)
  | [] => []
  | f :: rest => (f.1, sortFieldType f.2) :: sortFieldsRec rest

/-- Recursive part of `sort_field_types`. -/
def sortFieldTypesRec : List FieldType → List FieldType
  | [] => []
  | t :: rest => sortFieldType t :: sortFieldTypesRec rest
end

/-- Does a field list contain a field of the given name (`Iterator::any`)? -/
def hasName : List (String × FieldType) → String → Bool
  | [], _ => false
  | f :: fs, n => f.1 == n || hasName fs n

/-- First field with the given name (`Iterator::find`). -/
def findByName : List (String × FieldType) → String → Option (String × FieldType)
  | [], _ => none
  | f :: fs, n => if f.1 == n then some f else findByName fs n

/-- The field found by `findByName` is a structural piece of the list
(used for the termination measure of `merge`). -/
theorem sizeOf_snd_lt_of_findByName :
    ∀ {nf : List (String × FieldType)} {n : String} {g : String × FieldType},
      findByName nf n = some g → sizeOf g.2 < sizeOf nf := by
  intro nf
  induction nf with
  | nil => intro n g h; simp [findByName] at h
  | cons f fs ih =>
    intro n g h
    rw [findByName] at h
    split at h
    · cases h
      obtain ⟨n1, t1⟩ := f
      simp
      omega
    · have := ih h
      simp
      omega

/-- The per-field optionalization applied by `merge_obj_fields` to fields
present on only one side: `Null`, `Unknown` and `Optional(_)` pass through,
everything else is wrapped in `Optional`. -/
def optionalizeField (f : String × FieldType) : String × FieldType :=
  match f.2 with
  | .null | .unknown | .optional _ => f
  | t => (f.1, .optional t)

/-- `Union` member insertion used by the `Primitive, Union` arms: push unless
already present. -/
def pushIfAbsent (members : List FieldType) (t : FieldType) : List FieldType :=
  if t ∈ members then members else members ++ [t]

/-- `Union ∪ Union` member merge: push each new member unless present. -/
def unionExtend (members : List FieldType) : List FieldType → List FieldType
  | [] => members
  | t :: rest => unionExtend (pushIfAbsent members t) rest

mutual
/-- `FieldTypeAggregator::merge` (schema.rs), arm for arm in source order. -/
def merge : FieldType → FieldType → FieldType
  | .unknown, .unknown => .unknown
  | .null, .null => .null
  | .boolean, .boolean => .boolean
  | .integer, .integer => .integer
  | .float, .float => .float
  | .string, .string => .string
  -- Unknown adopts the concrete type
  | ty, .unknown | .unknown, ty => ty
  -- Null makes the type optional (unless it already is)
  | .optional ty, .null | .null, .optional ty => .optional ty
  | ty, .null | .null, ty => .optional ty
  -- Primitive, Primitive
  | .boolean, .integer | .integer, .boolean => .union [.boolean, .integer]
  | .boolean, .float | .float, .boolean => .union [.boolean, .float]
  | .boolean, .string | .string, .boolean => .union [.boolean, .string]
  | .integer, .float | .float, .integer => .union [.integer, .float]
  | .integer, .string | .string, .integer => .union [.integer, .string]
  | .float, .string | .string, .float => .union [.float, .string]
  -- Primitive, Array
  | .boolean, .array ty | .array ty, .boolean => .union [.boolean, .array ty]
  | .integer, .array ty | .array ty, .integer => .union [.integer, .array ty]
  | .float, .array ty | .array ty, .float => .union [.float, .array ty]
  | .string, .array ty | .array ty, .string => .union [.string, .array ty]
  -- Primitive, Object
  | .boolean, .object fs | .object fs, .boolean => .union [.boolean, .object fs]
  | .integer, .object fs | .object fs, .integer => .union [.integer, .object fs]
  | .float, .object fs | .object fs, .float => .union [.float, .object fs]
  | .string, .object fs | .object fs, .string => .union [.string, .object fs]
  -- Primitive, Optional
  | .boolean, .optional ty | .optional ty, .boolean => .optional (merge .boolean ty)
  | .integer, .optional ty | .optional ty, .integer => .optional (merge .integer ty)
  | .float, .optional ty | .optional ty, .float => .optional (merge .float ty)
  | .string, .optional ty | .optional ty, .string => .optional (merge .string ty)
  -- Primitive, Union
  | .boolean, .union tys | .union tys, .boolean => .union (pushIfAbsent tys .boolean)
  | .integer, .union tys | .union tys, .integer => .union (pushIfAbsent tys .integer)
  | .float, .union tys | .union tys, .float => .union (pushIfAbsent tys .float)
  | .string, .union tys | .union tys, .string => .union (pushIfAbsent tys .string)
  -- Array, Array
  | .array a, .array b => .array (merge a b)
  -- Object, Object
  | .object ef, .object nf => .object (mergeObjFields ef nf)
  -- Optional, Optional
  | .optional a, .optional b => .optional (merge a b)
  -- Union, Union
  | .union ea, .union nb => .union (unionExtend ea nb)
  -- Array, Object
  | .array aty, .object fs | .object fs, .array aty =>
      .union [.object fs, .array aty]
  -- Non-Primitive, Optional
  | .array aty, .optional oty | .optional oty, .array aty =>
      .optional (merge (.array aty) oty)
  | .object fs, .optional oty | .optional oty, .object fs =>
      .optional (merge (.object fs) oty)
  | .union tys, .optional oty | .optional oty, .union tys =>
      .optional (merge (.union tys) oty)
  -- Non-Primitive, Union: merge into the first member with the same
  -- constructor, else push
  | .array aty, .union tys | .union tys, .array aty =>
      .union (unionMergeArray tys aty)
  | .object fs, .union tys | .union tys, .object fs =>
      .union (unionMergeObject tys fs)
termination_by a b => sizeOf a + sizeOf b
decreasing_by all_goals simp_wf <;> omega

/-- In-place structural merge of an array into a union's first array member
(`Array/Union` arm of `merge`); pushes at the end when no array member exists. -/
def unionMergeArray : List FieldType → FieldType → List FieldType
  | [], aty => [.array aty]
  | .array existing :: rest, aty =>
      if existing = aty then .array existing :: rest
      else .array (merge existing aty) :: rest
  | m :: rest, aty => m :: unionMergeArray rest aty
termination_by ms aty => sizeOf ms + sizeOf aty
decreasing_by all_goals simp_wf <;> omega

/-- In-place structural merge of an object into a union's first object member. -/
def unionMergeObject : List FieldType → List (String × FieldType) → List FieldType
  | [], fs => [.object fs]
  | .object existing :: rest, fs =>
      if fs = existing then .object existing :: rest
      else .object (mergeObjFields existing fs) :: rest
  | m :: rest, fs => m :: unionMergeObject rest fs
termination_by ms fs => sizeOf ms + sizeOf fs
decreasing_by all_goals simp_wf <;> omega

/-- `FieldTypeAggregator::merge_obj_fields`.  The source makes three passes:
optionalize existing fields missing from the new list, optionalize new fields
missing from the existing list, then walk the new list merging each field into
the accumulated list by first-name match (appending unmatched ones).  For
field lists with pairwise-distinct names — the only ones inference produces,
and an invariant stated by the data model — this is exactly: merge each
existing field with its (unique) same-named new field, optionalizing the
unmatched ones, then append the optionalized new-only fields.  That
reformulation is used here because it makes the recursion structural. -/
def mergeObjFields (ef nf : List (String × FieldType)) : List (String × FieldType) :=
  mergeMatched ef nf ++ (nf.filter (fun g => !hasName ef g.1)).map optionalizeField
termination_by sizeOf ef + sizeOf nf + 1
decreasing_by all_goals simp_wf <;> omega

/-- One pass over the existing fields: merge with the first same-named new
field, optionalize when there is none. -/
def mergeMatched : List (String × FieldType) → List (String × FieldType) →
    List (String × FieldType)
  | [], _ => []
  | f :: fs, nf =>
      (match h : findByName nf f.1 with
        | some g => (f.1, merge f.2 g.2)
        | none => optionalizeField f) :: mergeMatched fs nf
termination_by fs nf => sizeOf fs + sizeOf nf
decreasing_by
  all_goals simp_wf
  all_goals try omega
  all_goals
    (obtain ⟨fn, ft⟩ := f
     have hg := sizeOf_snd_lt_of_findByName h
     simp at hg ⊢
     omega)
end

mutual
/-- `field_type` (schema.rs): JSON value to `FieldType`.  Numbers are
`Integer` when serde stores them as u64 or i64, else `Float`. -/
def fieldTypeOf : Value → FieldType
  | .vnull => .null
  | .vbool _ => .boolean
  | .vnum n => if n.isU64 || n.isI64 then .integer else .float
  | .vstr _ => .string
  | .varr elems => .array (aggregate .unknown elems)
  | .vobj fields => .object (objectFields fields)

/-- `array` (schema.rs) together with `FieldTypeAggregator`: start from
`Unknown` and fold `merge` over the element types. -/
def aggregate : FieldType → List Value → FieldType
  | acc, [] => acc
  | acc, v :: rest => aggregate (merge acc (fieldTypeOf v)) rest

/-- `object` (schema.rs): map each key/value pair to a typed field. -/
def objectFields : List (String × Value) → List (String × FieldType)
  | [] => []
  | (k, v) :: rest => (k, fieldTypeOf v) :: objectFields rest
end

/-- `Schema` (schema.rs): top level object or array. -/
inductive Schema where
  | sobject (fields : List (String × FieldType))
  | sarray (ty : FieldType)
deriving DecidableEq, Repr

/-- `sort_fields` (schema.rs): sort by name (stably), recursively sorting the
nested types; see `sortFieldType` for the order of the two steps. -/
def sortFields (fields : List (String × FieldType)) : List (String × FieldType) :=
  (sortFieldsRec fields).insertionSort nameLe

/-- `Schema::from(Value)` (schema.rs): infer, then sort for determinism.  The
source hits `unreachable!("Valid top level Value will always be object or
array")` on any other top-level value, modelled here by `none`. -/
def schemaOfValue : Value → Option Schema
  | .varr elems => some (.sarray (sortFieldType (aggregate .unknown elems)))
  | .vobj fields => some (.sobject (sortFields (objectFields fields)))
  | _ => none

/-- The root `FieldType` of a schema, as consumed by the graph builder
(`GraphBuilder::build` processes the schema's single root field type). -/
def Schema.rootFieldType : Schema → FieldType
  | .sobject fields => .object fields
  | .sarray ty => .array ty

/-! ## Type graph (type_graph.rs) -/

/-- `TypeDef` (type_graph.rs): mirrors `FieldType`, recursive positions hold
`TypeId`s (`usize`, modelled as `Nat`). -/
inductive TypeDef where
  | unknown
  | null
  | boolean
  | integer
  | float
  | string
  | array (id : Nat)
  | object (fields : List (String × Nat))
  | optional (id : Nat)
  | union (ids : List Nat)
deriving DecidableEq, Repr

/-- `TypeGraph`: root id plus the id-sorted nodes map (`BTreeMap` modelled as
a key-sorted association list; ids are allocated increasingly and appended). -/
structure TypeGraph where
  root : Nat
  nodes : List (Nat × TypeDef)
deriving DecidableEq, Repr

/-- `BTreeMap::get` on the nodes list. -/
def lookupNode (nodes : List (Nat × TypeDef)) (i : Nat) : Option TypeDef :=
  (nodes.find? (fun e => e.1 == i)).map (fun e => e.2)

/-- Replace the value stored under an existing key (`BTreeMap::insert` on a
present key keeps the key's position). -/
def updateNode (nodes : List (Nat × TypeDef)) (i : Nat) (td : TypeDef) :
    List (Nat × TypeDef) :=
  nodes.map (fun e => if e.1 == i then (i, td) else e)

/-- The complexity rank used by `canonicalize` (type_graph.rs) for sorting
union members by their referenced `TypeDef`. -/
def defRank : TypeDef → Nat
  | .unknown => 0
  | .null => 1
  | .boolean => 2
  | .integer => 3
  | .float => 4
  | .string => 5
  | .array _ => 6
  | .object _ => 7
  | .optional _ => 8
  | .union _ => 9

/-- Rank of a referenced id; dangling ids sort last (`usize::MAX`). -/
def rankOf (nodes : List (Nat × TypeDef)) (i : Nat) : Nat :=
  match lookupNode nodes i with
  | some d => defRank d
  | none => u64Max

/-- `canonicalize` (type_graph.rs): sort object fields by name and union
members by the rank of the referenced def (both sorts are stable). -/
def canonicalizeDef (td : TypeDef) (nodes : List (Nat × TypeDef)) : TypeDef :=
  match td with
  | .object fields => .object (fields.insertionSort nameLe)
  | .union ids => .union (ids.insertionSort (fun a b => rankOf nodes a ≤ rankOf nodes b))
  | td => td

/-- `GraphBuilder` state: nodes map, `TypeDef → TypeId` cache, `Iota` counter. -/
structure BuildState where
  nodes : List (Nat × TypeDef)
  cache : List (TypeDef × Nat)
  next : Nat
deriving Repr

def BuildState.empty : BuildState := ⟨[], [], 0⟩

/-- `GraphBuilder::intern`: canonicalize, return the cached id or allocate a
fresh one (`Iota::next`), recording the node and the cache entry. -/
def internB (td : TypeDef) (st : BuildState) : Nat × BuildState :=
  let td := canonicalizeDef td st.nodes
  match (st.cache.find? (fun e => e.1 == td)).map (fun e => e.2) with
  | some i => (i, st)
  | none =>
      (st.next,
       { nodes := st.nodes ++ [(st.next, td)],
         cache := st.cache ++ [(td, st.next)],
         next := st.next + 1 })

mutual
/-- `GraphBuilder::process_field_type`: depth-first post-order interning. -/
def processFieldType : FieldType → BuildState → Nat × BuildState
  | .string, st => internB .string st
  | .integer, st => internB .integer st
  | .float, st => internB .float st
  | .boolean, st => internB .boolean st
  | .null, st => internB .null st
  | .unknown, st => internB .unknown st
  | .object fields, st =>
      let (ofs, st') := processFieldList fields st
      internB (.object ofs) st'
  | .union members, st =>
      let (ids, st') := processMembers members st
      internB (.union ids) st'
  | .array inner, st =>
      let (i, st') := processFieldType inner st
      internB (.array i) st'
  | .optional inner, st =>
      let (i, st') := processFieldType inner st
      internB (.optional i) st'
termination_by structural ft _ => ft

/-- `GraphBuilder::process_fields`, field part: children first. -/
def processFieldList :
    List (String × FieldType) → BuildState → List (String × Nat) × BuildState
  | [], st => ([], st)
  | (n, t) :: rest, st =>
      let (i, st') := processFieldType t st
      let (ofs, st'') := processFieldList rest st'
      ((n, i) :: ofs, st'')
termination_by structural fs _ => fs

/-- Union members are processed in order before the union is interned. -/
def processMembers : List FieldType → BuildState → List Nat × BuildState
  | [], st => ([], st)
  | t :: rest, st =>
      let (i, st') := processFieldType t st
      let (ids, st'') := processMembers rest st'
      (i :: ids, st'')
termination_by structural ts _ => ts
end

/-- `GraphBuilder::build` on the schema's root field type. -/
def buildGraph (ft : FieldType) : TypeGraph :=
  let (root, st) := processFieldType ft .empty
  ⟨root, st.nodes⟩

/-! ## Reducer (type_graph.rs, `TypeReducer`) -/

/-- `TypeReducer` state. -/
structure ReduceState where
  nodes : List (Nat × TypeDef)
  cache : List (TypeDef × Nat)
  remaps : List (Nat × Nat)
  next : Nat
deriving Repr

def ReduceState.empty : ReduceState := ⟨[], [], [], 0⟩

/-- `TypeReducer::remap_type_id`: scan the whole remap list in order, rewriting
on every match (so a rewritten id can be rewritten again by a later entry). -/
def remapTypeId (remaps : List (Nat × Nat)) (i : Nat) : Nat :=
  remaps.foldl (fun v e => if v == e.1 then e.2 else v) i

/-- `TypeReducer::remap_type_def`. -/
def remapTypeDef (remaps : List (Nat × Nat)) : TypeDef → TypeDef
  | .object fields => .object (fields.map (fun f => (f.1, remapTypeId remaps f.2)))
  | .union ids => .union (ids.map (remapTypeId remaps))
  | .array i => .array (remapTypeId remaps i)
  | .optional i => .optional (remapTypeId remaps i)
  | td => td

/-- `TypeReducer::intern` (same algorithm as the builder's). -/
def internR (td : TypeDef) (st : ReduceState) : Nat × ReduceState :=
  let td := canonicalizeDef td st.nodes
  match (st.cache.find? (fun e => e.1 == td)).map (fun e => e.2) with
  | some i => (i, st)
  | none =>
      (st.next,
       { st with
         nodes := st.nodes ++ [(st.next, td)],
         cache := st.cache ++ [(td, st.next)],
         next := st.next + 1 })

/-- `TypeReducer::merge_object_field`: rules `T+T`, `Unknown+T`,
`Null+T → Optional(T)` (interned), `Null+Optional(T)`, `Optional(T)+T`;
anything else (or a name mismatch, or a dangling id) fails. -/
def mergeObjectField (st : ReduceState) (t c : String × Nat) :
    Option (String × Nat) × ReduceState :=
  if t.1 ≠ c.1 then (none, st)
  else if t.2 = c.2 then (some t, st)
  else
    match lookupNode st.nodes t.2, lookupNode st.nodes c.2 with
    | some td, some cd =>
      if td = .unknown then (some c, st)
      else if cd = .unknown then (some t, st)
      else if td = .null then
        match cd with
        | .optional _ => (some c, st)
        | _ =>
            let (oid, st') := internR (.optional c.2) st
            ((some (c.1, oid)), st')
      else if cd = .null then
        match td with
        | .optional _ => (some t, st)
        | _ =>
            let (oid, st') := internR (.optional t.2) st
            ((some (t.1, oid)), st')
      else
        match td, cd with
        | .optional ti, _ =>
            if ti = c.2 then (some t, st)
            else match cd with
              | .optional ci => if ci = t.2 then (some c, st) else (none, st)
              | _ => (none, st)
        | _, .optional ci => if ci = t.2 then (some c, st) else (none, st)
        | _, _ => (none, st)
    | _, _ => (none, st)

/-- The zipped pairwise merge, short-circuiting on the first failing pair
(later pairs are not processed, but state changes made so far persist —
mirroring the lazy `map(..).collect::<Option<Vec<_>>>()`). -/
def mergeFieldPairs (st : ReduceState) :
    List ((String × Nat) × (String × Nat)) → Option (List (String × Nat)) × ReduceState
  | [] => (some [], st)
  | (t, c) :: rest =>
      match mergeObjectField st t c with
      | (some f, st') =>
          match mergeFieldPairs st' rest with
          | (some fs, st'') => (some (f :: fs), st'')
          | (none, st'') => (none, st'')
      | (none, st') => (none, st')

/-- `TypeReducer::merge_object_fields`: length check, then pairwise zip. -/
def mergeObjectFieldsR (st : ReduceState) (target candidate : List (String × Nat)) :
    Option (List (String × Nat)) × ReduceState :=
  if target.length ≠ candidate.length then (none, st)
  else mergeFieldPairs st (target.zip candidate)

/-- The object branch of `TypeReducer::reduce_type_def`: walk the snapshot of
existing node ids; merge into the first object that accepts the candidate
(updating it in place), otherwise intern the candidate as a new object. -/
def tryTargets (st : ReduceState) :
    List Nat → List (String × Nat) → Nat × ReduceState
  | [], ofs => internR (.object ofs) st
  | tid :: rest, ofs =>
      match lookupNode st.nodes tid with
      | some (.object tfs) =>
          (match mergeObjectFieldsR st tfs ofs with
           | (some merged, st') =>
               (tid, { st' with nodes := updateNode st'.nodes tid (.object merged) })
           | (none, st') => tryTargets st' rest ofs)
      | _ => tryTargets st rest ofs

/-- `TypeReducer::reduce_type_def`. -/
def reduceTypeDef (st : ReduceState) (td : TypeDef) : Nat × ReduceState :=
  match td with
  | .object ofs => tryTargets st (st.nodes.map (fun e => e.1)) ofs
  | td => internR td st

/-- `TypeReducer::reduce`: process the nodes in id order, remapping and
reducing each and recording the remap, then remap the root. -/
def reduceGraph (g : TypeGraph) : TypeGraph :=
  let st := g.nodes.foldl
    (fun st e =>
      let td := remapTypeDef st.remaps e.2
      let (ri, st') := reduceTypeDef st td
      { st' with remaps := st'.remaps ++ [(e.1, ri)] })
    .empty
  ⟨remapTypeId st.remaps g.root, st.nodes⟩

/-- Spec-modelled criterion (refinement definition, written from the claim's
words, to be compared with `mergeObjectField`): a zipped field pair merges
exactly when the names agree and either the ids are identical, or both ids
resolve and one of the rules applies — Unknown adopts the other side, Null
merges with anything (a non-Optional partner through a fresh Optional, an
Optional partner directly), or one side is Optional of exactly the other's
id. -/
def specPairMerges (nodes : List (Nat × TypeDef)) (t c : String × Nat) : Bool :=
  t.1 == c.1 &&
  (t.2 == c.2 ||
    match lookupNode nodes t.2, lookupNode nodes c.2 with
    | some td, some cd =>
        td == .unknown || cd == .unknown || td == .null || cd == .null ||
        (match td with | .optional ti => ti == c.2 | _ => false) ||
        (match cd with | .optional ci => ci == t.2 | _ => false)
    | _, _ => false)

/-- Spec-modelled whole-object criterion (refinement definition): two objects
merge exactly when they have the same number of fields and every zipped field
pair merges. -/
def specObjectsMerge (nodes : List (Nat × TypeDef))
    (target candidate : List (String × Nat)) : Bool :=
  target.length == candidate.length &&
  (target.zip candidate).all (fun p => specPairMerges nodes p.1 p.2)

/-- `From<Schema> for TypeGraph`: build then reduce.  Composed with schema
inference this is `From<Value> for TypeGraph`; `none` models the top-level
panic of schema inference. -/
def typeGraphOfValue (v : Value) : Option TypeGraph :=
  (schemaOfValue v).map (fun s => reduceGraph (buildGraph s.rootFieldType))

/-! ## Name registry (name_registry.rs) -/

/-- `NameResolver` state: the candidate map (`BTreeMap<TypeId, Vec<&str>>`,
key-sorted) and the visited set. -/
structure NState where
  names : List (Nat × List String)
  visited : List Nat
deriving DecidableEq, Repr

def NState.empty : NState := ⟨[], []⟩

/-- The `push; sort; dedup` performed on a candidate list. -/
def addName (l : List String) (n : String) : List String :=
  ((l ++ [n]).insertionSort (fun a b => strLe a b = true)).dedup

/-- `self.names.entry(id).or_default()` followed by push/sort/dedup, keeping
the key list sorted (`BTreeMap`). -/
def namesUpdate : List (Nat × List String) → Nat → String → List (Nat × List String)
  | [], i, n => [(i, addName [] n)]
  | (k, l) :: rest, i, n =>
      if i = k then (k, addName l n) :: rest
      else if i < k then (i, addName [] n) :: (k, l) :: rest
      else (k, l) :: namesUpdate rest i n

mutual
/-- `NameResolver::resolve_type_id`, with explicit fuel: the source recursion
is unbounded, so every step consumes one fuel unit and `none` means the fuel
ran out (a run of the source that terminates gives the same answer for every
sufficiently large fuel; a divergent run gives `none` for every fuel). -/
def resolveTypeId (g : TypeGraph) : Nat → NState → Nat → Option NState
  | 0, _, _ => none
  | fuel + 1, st, i =>
      if i ∈ st.visited then some st
      else
        let st := { st with visited := st.visited ++ [i] }
        match lookupNode g.nodes i with
        | some (.object ofs) => resolveFieldList g fuel st ofs
        | some (.union ids) => resolveIdList g fuel st ids
        | some (.array j) => resolveTypeId g fuel st j
        | some (.optional j) => resolveTypeId g fuel st j
        | _ => some st

/-- `NameResolver::resolve_object_field`.  An `Object`- or `Union`-typed field
contributes its name to the field's node; an `Array`- or `Optional`-typed
field contributes its name to the node's immediate inner id.  The `Object`
branch recurses into the nested fields without consulting the visited set. -/
def resolveObjectField (g : TypeGraph) : Nat → NState → (String × Nat) → Option NState
  | 0, _, _ => none
  | fuel + 1, st, f =>
      match lookupNode g.nodes f.2 with
      | some (.object nested) =>
          let st := { st with names := namesUpdate st.names f.2 f.1 }
          resolveFieldList g fuel st nested
      | some (.union ids) =>
          let st := { st with names := namesUpdate st.names f.2 f.1 }
          resolveIdList g fuel st ids
      | some (.array j) =>
          let st := { st with names := namesUpdate st.names j f.1 }
          resolveTypeId g fuel st j
      | some (.optional j) =>
          let st := { st with names := namesUpdate st.names j f.1 }
          resolveTypeId g fuel st j
      | _ => some st

/-- Sequential `for` loop over an object's fields. -/
def resolveFieldList (g : TypeGraph) :
    Nat → NState → List (String × Nat) → Option NState
  | _, st, [] => some st
  | 0, _, _ :: _ => none
  | fuel + 1, st, f :: rest =>
      match resolveObjectField g fuel st f with
      | some st' => resolveFieldList g fuel st' rest
      | none => none

/-- Sequential `for` loop over union members. -/
def resolveIdList (g : TypeGraph) : Nat → NState → List Nat → Option NState
  | _, st, [] => some st
  | 0, _, _ :: _ => none
  | fuel + 1, st, i :: rest =>
      match resolveTypeId g fuel st i with
      | some st' => resolveIdList g fuel st' rest
      | none => none
end

/-- `NameResolver::resolve`: walk the graph from the root. -/
def nameResolve (fuel : Nat) (g : TypeGraph) : Option NState :=
  resolveTypeId g fuel .empty g.root

/-- Adjacency construction from `assign_names`: map every candidate name to a
right-side index in first-seen order, recording each id's candidate indices
(`seen_local` dedups within one id's list). -/
def buildAdjacency (entries : List (Nat × List String)) :
    List String × List (List Nat) :=
  let step := fun (acc : List (String × Nat) × List String × List (List Nat))
      (e : Nat × List String) =>
    let (nameToIndex, uniqueNames, adj) := acc
    let row := e.2.foldl
      (fun (racc : List (String × Nat) × List String × List String × List Nat) name =>
        let (n2i, uniq, seenLocal, row) := racc
        if name ∈ seenLocal then racc
        else
          let seenLocal := seenLocal ++ [name]
          match (n2i.find? (fun p => p.1 == name)).map (fun p => p.2) with
          | some idx => (n2i, uniq, seenLocal, row ++ [idx])
          | none =>
              (n2i ++ [(name, uniq.length)], uniq ++ [name], seenLocal,
               row ++ [uniq.length]))
      (nameToIndex, uniqueNames, [], [])
    (row.1, row.2.1, adj ++ [row.2.2.2])
  let res := entries.foldl step ([], [], [])
  (res.2.1, res.2.2)

mutual
/-- `try_assign` (Kuhn's augmenting-path DFS) with fuel; every recursive call
is guarded by marking a previously unvisited name, so fuel quadratic in the
number of names is always enough. -/
def tryAssign (adj : List (List Nat)) :
    Nat → Nat → List Bool → List (Option Nat) →
    Bool × List Bool × List (Option Nat)
  | 0, _, v, m => (false, v, m)
  | fuel + 1, u, v, m => tryRow adj fuel u (adj.getD u []) v m

/-- The loop over one left node's candidate indices. -/
def tryRow (adj : List (List Nat)) :
    Nat → Nat → List Nat → List Bool → List (Option Nat) →
    Bool × List Bool × List (Option Nat)
  | _, _, [], v, m => (false, v, m)
  | 0, _, _ :: _, v, m => (false, v, m)
  | fuel + 1, u, idx :: rest, v, m =>
      if v.getD idx false then tryRow adj fuel u rest v m
      else
        let v' := v.set idx true
        match m.getD idx none with
        | none => (true, v', m.set idx (some u))
        | some holder =>
            match tryAssign adj fuel holder v' m with
            | (true, v'', m'') => (true, v'', m''.set idx (some u))
            | (false, v'', m'') => tryRow adj fuel u rest v'' m''
end

/-- `NameResolver::assign_names`: Kuhn's maximum bipartite matching between
ids (left, in key order) and unique candidate names (right), then read the
assignment off the match array. -/
def assignNames (entries : List (Nat × List String)) : List (Nat × String) :=
  let idsOrder := entries.map (fun e => e.1)
  let (uniqueNames, adj) := buildAdjacency entries
  let nNames := uniqueNames.length
  let matched := (List.range idsOrder.length).foldl
    (fun (m : List (Option Nat)) u =>
      (tryAssign adj ((nNames + 1) * (nNames + 1)) u (List.replicate nNames false) m).2.2)
    (List.replicate nNames none)
  (matched.enum.filterMap
    (fun p => p.2.map (fun leftPos =>
      (idsOrder.getD leftPos 0, uniqueNames.getD p.1 ""))))

/-- `NameRegistry::build` composed over the whole pipeline stage: resolve
candidates (with the given fuel), then run the matching. -/
def nameRegistryBuild (fuel : Nat) (g : TypeGraph) : Option (List (Nat × String)) :=
  (nameResolve fuel g).map (fun st => assignNames st.names)

/-! ## Whole-pipeline runs -/

/-- One full run of the pipeline on a parsed JSON value: schema inference,
graph construction plus reduction (`From<Schema> for TypeGraph`), and name
resolution plus assignment (`NameRegistry::build`), each stage's result
recorded.  `fuel` bounds the recursion of the name resolver; `none` in a
component models a panic or non-termination of that stage. -/
def pipelineRun (fuel : Nat) (v : Value) :
    Option Schema × Option TypeGraph × Option (List (Nat × String)) :=
  (schemaOfValue v, typeGraphOfValue v,
    match typeGraphOfValue v with
    | none => none
    | some g => nameRegistryBuild fuel g)

/-- A second, independently composed run of the same pipeline, written as the
stages are chained in `lib.rs`: infer the schema once, feed its root field
type through build-then-reduce, and hand the reduced graph to the name
registry. -/
def pipelineRunAgain (fuel : Nat) (v : Value) :
    Option Schema × Option TypeGraph × Option (List (Nat × String)) :=
  match schemaOfValue v with
  | none => (none, none, none)
  | some s =>
    let g := reduceGraph (buildGraph s.rootFieldType)
    (some s, some g, (nameResolve fuel g).map (fun st => assignNames st.names))

/-! ## Reachability and direct-object edges -/

/-- The ids held in a node's recursive positions (object field ids, array and
optional inner ids, union member ids). -/
def refsOf : TypeDef → List Nat
  | .object fields => fields.map (fun f => f.2)
  | .array i => [i]
  | .optional i => [i]
  | .union ids => ids
  | _ => []

/-- One traversal step: `j` sits in a recursive position of node `i`. -/
def Edge (g : TypeGraph) (i j : Nat) : Prop :=
  ∃ td, lookupNode g.nodes i = some td ∧ j ∈ refsOf td

/-- Reachability from `i` by traversing recursive positions. -/
def ReachableFrom (g : TypeGraph) (i j : Nat) : Prop :=
  Relation.ReflTransGen (Edge g) i j

/-! ## Concrete inputs used by the claim theorems -/

/-- JSON `[{"a": null}, {"a": {"a": null}}]`. -/
def strandedInput : Value :=
  .varr [.vobj [("a", .vnull)], .vobj [("a", .vobj [("a", .vnull)])]]

/-- The reduced graph the pipeline produces for `strandedInput`: the `Null`
node 0 stays in the nodes map although nothing references it any more. -/
def strandedGraph : TypeGraph :=
  ⟨3, [(0, .null), (1, .object [("a", 2)]), (2, .optional 1), (3, .array 1)]⟩

/-- JSON `{"xs": [1]}`. -/
def xsInput : Value := .vobj [("xs", .varr [.vnum (.posInt 1)])]

/-- The reduced graph for `xsInput`. -/
def xsGraph : TypeGraph :=
  ⟨2, [(0, .integer), (1, .array 0), (2, .object [("xs", 1)])]⟩

/-- JSON
`{"a": {"b": null, "c": null, "d": null},
  "b": {"b": 1, "c": [1], "e": null},
  "c": {"a": {"c": null}, "e": {"d": null}, "f": []},
  "d": {"z": {"a": {"c": null}, "e": {"d": null}, "f": []}},
  "e": {"a": {"z": {"a": {"c": null}, "e": {"d": null}, "f": []}}, "e": null, "f": null}}`.

Reducing this input interacts three quirks: two orphan `Optional` interns from
a failed object merge inflate the reduced id counter by 2; the scan-through
`remap_type_id` then rewrites a field id twice, landing it on the reduced
`Unknown` node; and a later object merge adopts, through the `Unknown` rule,
an object that points straight back — leaving a direct object-object cycle
(nodes 11 ⇄ 12) in the reduced graph. -/
def divergingInput : Value :=
  .vobj [("a", .vobj [("b", .vnull), ("c", .vnull), ("d", .vnull)]),
         ("b", .vobj [("b", .vnum (.posInt 1)), ("c", .varr [.vnum (.posInt 1)]), ("e", .vnull)]),
         ("c", .vobj [("a", .vobj [("c", .vnull)]), ("e", .vobj [("d", .vnull)]), ("f", .varr [])]),
         ("d", .vobj [("z", .vobj [("a", .vobj [("c", .vnull)]), ("e", .vobj [("d", .vnull)]),
                                   ("f", .varr [])])]),
         ("e", .vobj [("a", .vobj [("z", .vobj [("a", .vobj [("c", .vnull)]),
                                                ("e", .vobj [("d", .vnull)]), ("f", .varr [])])]),
                      ("e", .vnull), ("f", .vnull)])]

/-- The reduced graph for `divergingInput`; note the direct object cycle
`11.a → 12` and `12.z → 11`. -/
def divergingGraph : TypeGraph :=
  ⟨14, [(0, .null),
        (1, .object [("b", 0), ("c", 0), ("d", 0)]),
        (2, .integer),
        (3, .array 2),
        (4, .optional 2),
        (5, .optional 3),
        (6, .object [("b", 2), ("c", 3), ("e", 0)]),
        (7, .object [("c", 0)]),
        (8, .object [("d", 0)]),
        (9, .unknown),
        (10, .array 9),
        (11, .object [("a", 12), ("e", 13), ("f", 13)]),
        (12, .object [("z", 11)]),
        (13, .optional 10),
        (14, .object [("a", 1), ("b", 12), ("c", 11), ("d", 12), ("e", 11)])]⟩

/-- The candidate-name list recorded for a node. -/
def namesOf (names : List (Nat × List String)) (i : Nat) : List String :=
  ((names.find? (fun e => e.1 == i)).map (fun e => e.2)).getD []

/-- The schema inferred for `divergingInput` (intermediate value used to stage
the evaluation of the pipeline). -/
def divergingSchema : Schema :=
  .sobject
    [("a", .object [("b", .null), ("c", .null), ("d", .null)]),
     ("b", .object [("b", .integer), ("c", .array .integer), ("e", .null)]),
     ("c", .object [("a", .object [("c", .null)]), ("e", .object [("d", .null)]),
                    ("f", .array .unknown)]),
     ("d", .object [("z", .object [("a", .object [("c", .null)]),
                                   ("e", .object [("d", .null)]), ("f", .array .unknown)])]),
     ("e", .object [("a", .object [("z", .object [("a", .object [("c", .null)]),
                                                  ("e", .object [("d", .null)]),
                                                  ("f", .array .unknown)])]),
                    ("e", .null), ("f", .null)])]

/-- The unreduced graph built for `divergingSchema`. -/
def divergingBuilt : TypeGraph :=
  ⟨12, [(0, .null),
        (1, .object [("b", 0), ("c", 0), ("d", 0)]),
        (2, .integer),
        (3, .array 2),
        (4, .object [("b", 2), ("c", 3), ("e", 0)]),
        (5, .object [("c", 0)]),
        (6, .object [("d", 0)]),
        (7, .unknown),
        (8, .array 7),
        (9, .object [("a", 5), ("e", 6), ("f", 8)]),
        (10, .object [("z", 9)]),
        (11, .object [("a", 10), ("e", 0), ("f", 0)]),
        (12, .object [("a", 1), ("b", 4), ("c", 9), ("d", 10), ("e", 11)])]⟩

/-! ## Predicates used by the claim theorems -/

/-- Names-map inclusion between resolver states. -/
def NamesSub (a b : List (Nat × List String)) : Prop :=
  ∀ k n, n ∈ namesOf a k → n ∈ namesOf b k

/-- The candidate map's keys are strictly increasing (`BTreeMap` model). -/
def KeysSorted (names : List (Nat × List String)) : Prop :=
  List.Pairwise (fun a b => a.1 < b.1) names

/-- Builder-state invariant: every recorded id is below the counter, every
node's references point strictly below the node's own id, and every cached id
is below the counter. -/
def BInv (st : BuildState) : Prop :=
  (∀ e ∈ st.nodes, e.1 < st.next ∧ ∀ j ∈ refsOf e.2, j < e.1) ∧
  (∀ e ∈ st.cache, e.2 < st.next)

/-- Reducer-state bound: every node id and every id referenced inside a node
is below the fresh-id counter. -/
def RInv (st : ReduceState) : Prop :=
  (∀ e ∈ st.nodes, e.1 < st.next ∧ ∀ j ∈ refsOf e.2, j < st.next) ∧
  (∀ e ∈ st.cache, e.2 < st.next)

/-- Reducer-state extension: the counter does not decrease and lookups of
already-allocated ids are unchanged. -/
def StExt (st st' : ReduceState) : Prop :=
  st.next ≤ st'.next ∧ ∀ i < st.next, lookupNode st'.nodes i = lookupNode st.nodes i

/-- No node in the map is a union. -/
def UnionFree (nodes : List (Nat × TypeDef)) : Prop :=
  ∀ e ∈ nodes, ∀ ids, e.2 ≠ TypeDef.union ids

/-- Inner type allowed directly under an `Optional`: not another Optional and
not a bare Null or Unknown (the merging code never produces those there). -/
def optInnerOk : FieldType → Bool
  | .optional _ => false
  | .null => false
  | .unknown => false
  | _ => true

/-- Member shape allowed directly in a `Union`: a primitive, Array or Object
(never a bare Null or Unknown, never a nested Optional or Union). -/
def memberOk : FieldType → Bool
  | .boolean => true
  | .integer => true
  | .float => true
  | .string => true
  | .array _ => true
  | .object _ => true
  | _ => false

mutual
/-- Strengthened structural invariant of inferred field types: every Optional
wraps an `optInnerOk` type and every Union member is `memberOk`, recursively.
It implies the claim's two invariants and is closed under `merge`. -/
def invFT : FieldType → Bool
  | .unknown => true
  | .null => true
  | .boolean => true
  | .integer => true
  | .float => true
  | .string => true
  | .array t => invFT t
  | .optional t => optInnerOk t && invFT t
  | .object fs => invFields fs
  | .union ms => invMembers ms

/-- The invariant over object field lists. -/
def invFields : List (String × FieldType) → Bool
  | [] => true
  | (_, t) :: fs => invFT t && invFields fs

/-- The invariant over union member lists. -/
def invMembers : List FieldType → Bool
  | [] => true
  | m :: ms => memberOk m && invFT m && invMembers ms
end

mutual
/-- The claim's two invariants, verbatim: no Optional whose immediate inner
type is another Optional, and no Union with a bare Null or Unknown direct
member, recursively. -/
def noBadNest : FieldType → Bool
  | .array t => noBadNest t
  | .optional t => (match t with | .optional _ => false | _ => true) && noBadNest t
  | .object fs => noBadFields fs
  | .union ms => noBadMembers ms
  | _ => true

/-- The claim's invariants over object field lists. -/
def noBadFields : List (String × FieldType) → Bool
  | [] => true
  | (_, t) :: fs => noBadNest t && noBadFields fs

/-- The claim's invariants over union member lists. -/
def noBadMembers : List FieldType → Bool
  | [] => true
  | m :: ms =>
      (match m with | .null => false | .unknown => false | _ => true) &&
      noBadNest m && noBadMembers ms
end

/-- The strengthened invariant at the schema root. -/
def schemaInv : Schema → Bool
  | .sobject fs => invFields fs
  | .sarray t => invFT t

/-- The claim's invariants at the schema root. -/
def schemaNoBad : Schema → Bool
  | .sobject fs => noBadFields fs
  | .sarray t => noBadNest t

/-- Pairwise-distinct field names (first component), via `hasName`. -/
def namesNodupB : List (String × FieldType) → Bool
  | [] => true
  | f :: fs => !(hasName fs f.1) && namesNodupB fs

mutual
/-- Union-free, uniquely-named field types: no Union anywhere and every object
has pairwise-distinct field names.  The amended commutativity claim is
restricted to these. -/
def ufWF : FieldType → Bool
  | .union _ => false
  | .array t => ufWF t
  | .optional t => ufWF t
  | .object fs => namesNodupB fs && ufWFFields fs
  | .unknown => true
  | .null => true
  | .boolean => true
  | .integer => true
  | .float => true
  | .string => true

/-- `ufWF` over field lists. -/
def ufWFFields : List (String × FieldType) → Bool
  | [] => true
  | (_, t) :: fs => ufWF t && ufWFFields fs
end

/-! ## Claim theorems -/

/-- Evaluation of schema inference on `divergingInput`. -/
theorem schemaOfValue_divergingInput :
    schemaOfValue divergingInput = some divergingSchema := by
  simp [divergingInput, divergingSchema, schemaOfValue, aggregate, fieldTypeOf, objectFields,
        JNumber.isU64, JNumber.isI64, i64Max,
        merge, mergeObjFields, mergeMatched, findByName, hasName, optionalizeField,
        sortFieldType, sortFieldsRec, sortFieldTypesRec, sortFields, nameLe, strLe, charListLe]

/-- Evaluation of graph construction on `divergingSchema`. -/
theorem buildGraph_divergingSchema :
    buildGraph divergingSchema.rootFieldType = divergingBuilt := by decide

/-- Evaluation of reduction on `divergingBuilt`. -/
theorem reduceGraph_divergingBuilt :
    reduceGraph divergingBuilt = divergingGraph := by decide

/-- C1.  Schema inference is claimed total over parsed JSON, including
top-level primitives; the conversion's non-object/non-array branch is
`unreachable!`, so the code panics (modelled by `none`) on every top-level
primitive: `null`, a boolean, a number and a string. -/
theorem c1_top_level_primitive_panics :
    schemaOfValue .vnull = none ∧
    schemaOfValue (.vbool true) = none ∧
    schemaOfValue (.vnum (.posInt 5)) = none ∧
    schemaOfValue (.vstr "s") = none :=
  ⟨rfl, rfl, rfl, rfl⟩

/-- C2, counterexample.  The integer literal `2^63 = 9223372036854775808`
exceeds `i64::MAX` but serde stores it as a u64, and `field_type` classifies
it as `Integer` — not `Float` as the claim requires. -/
theorem c2_counterexample_u64_only_integer :
    fieldTypeOf (.vnum (numberFromInt 9223372036854775808)) = .integer ∧
    ¬ ((9223372036854775808 : Int) ≤ i64Max) := by
  constructor
  · decide
  · decide

/-- C2, amended.  A number parsed from an integer literal of value `z` is
classified `Integer` exactly when serde can store it as i64 **or** u64, i.e.
when `i64::MIN ≤ z ≤ u64::MAX`; otherwise (including integer literals above
`u64::MAX`) it is classified `Float`. -/
theorem c2_number_classification (z : Int) :
    fieldTypeOf (.vnum (numberFromInt z)) = .integer ↔
      (i64Min ≤ z ∧ z ≤ (u64Max : Int)) := by
  unfold numberFromInt
  split
  · rename_i h
    simp only [fieldTypeOf, JNumber.isU64, Bool.true_or, if_true]
    unfold i64Min u64Max at *
    constructor
    · intro _; omega
    · intro _; trivial
  · split
    · rename_i h1 h2
      simp only [fieldTypeOf, JNumber.isI64, JNumber.isU64, Bool.false_or]
      unfold i64Min u64Max at *
      constructor
      · intro _; omega
      · intro _; trivial
    · rename_i h1 h2
      simp only [fieldTypeOf, JNumber.isU64, JNumber.isI64, Bool.or_self]
      unfold i64Min u64Max at *
      constructor
      · intro h; simp at h
      · intro h; omega

/-- C3.  The claim says every id in the reduced nodes map is reachable from
the root, and in particular that the `Null` node consumed by a Null-plus-T
field merge is not left stranded.  On `[{"a": null}, {"a": {"a": null}}]` the
reducer merges the inner object (field `a : Null`) with the outer one and the
`Null` node 0 stays in the nodes map, unreachable from the root. -/
theorem c3_reducer_strands_null_node :
    typeGraphOfValue strandedInput = some strandedGraph ∧
    lookupNode strandedGraph.nodes 0 = some .null ∧
    ¬ ReachableFrom strandedGraph strandedGraph.root 0 := by
  refine ⟨?_, rfl, ?_⟩
  · simp [typeGraphOfValue, schemaOfValue, aggregate, fieldTypeOf, objectFields, merge,
          mergeObjFields, mergeMatched, findByName, hasName, optionalizeField,
          sortFieldType, sortFieldsRec, sortFieldTypesRec, sortFields, Schema.rootFieldType,
          buildGraph, processFieldType, processFieldList, processMembers, internB,
          BuildState.empty, canonicalizeDef, lookupNode, rankOf, defRank, nameLe, strLe,
          charListLe, reduceGraph, reduceTypeDef, tryTargets, internR, ReduceState.empty,
          remapTypeDef, remapTypeId, updateNode, mergeObjectFieldsR, mergeFieldPairs,
          mergeObjectField, strandedInput, strandedGraph]
  · intro h
    have key : ∀ j, ReachableFrom strandedGraph strandedGraph.root j →
        j ∈ ([3, 1, 2] : List Nat) := by
      intro j hj
      induction hj with
      | refl => simp [strandedGraph]
      | tail _ hedge ih =>
        obtain ⟨td, hl, hr⟩ := hedge
        rcases List.mem_cons.mp ih with rfl | ih2
        · simp [lookupNode, strandedGraph] at hl
          subst hl
          simp [refsOf] at hr
          simp [hr]
        rcases List.mem_cons.mp ih2 with rfl | ih3
        · simp [lookupNode, strandedGraph] at hl
          subst hl
          simp [refsOf] at hr
          simp [hr]
        rcases List.mem_cons.mp ih3 with rfl | ih4
        · simp [lookupNode, strandedGraph] at hl
          subst hl
          simp [refsOf] at hr
          simp [hr]
        · simp at ih4
    have h0 := key 0 h
    simp at h0

/-- C5, helper: once the reduced graph contains the direct object-object
cycle `11.a → 12`, `12.z → 11`, the object branch of
`resolve_object_field` — which recurses into nested object fields without
consulting the visited set — never returns, whatever the fuel. -/
theorem resolveLoop_diverges (fuel : Nat) :
    ∀ st nm, resolveObjectField divergingGraph fuel st (nm, 12) = none ∧
             resolveObjectField divergingGraph fuel st (nm, 11) = none := by
  induction fuel using Nat.strong_induction_on with
  | _ fuel ih =>
    match fuel with
    | 0 => intro st nm; exact ⟨rfl, rfl⟩
    | n + 1 =>
      intro st nm
      constructor
      · show resolveFieldList divergingGraph n
          { st with names := namesUpdate st.names 12 nm } [("z", 11)] = none
        match n with
        | 0 => rfl
        | m + 1 =>
          rw [resolveFieldList, (ih m (by omega) _ "z").2]
      · show resolveFieldList divergingGraph n
          { st with names := namesUpdate st.names 11 nm }
          [("a", 12), ("e", 13), ("f", 13)] = none
        match n with
        | 0 => rfl
        | m + 1 =>
          rw [resolveFieldList, (ih m (by omega) _ "a").1]

/-- C5.  The claim says all core stages — in particular name-candidate
resolution — terminate on every graph the pipeline can produce, including
cyclic ones.  On `divergingInput` the pipeline produces `divergingGraph`,
whose direct object-object cycle (nodes 11 ⇄ 12) is reachable from the root,
and `NameResolver::resolve` recurses forever through the object-field branch:
in the fuel model, it fails to return for every fuel. -/
theorem c5_name_resolution_diverges :
    typeGraphOfValue divergingInput = some divergingGraph ∧
    (∀ fuel, nameResolve fuel divergingGraph = none) := by
  constructor
  · show (schemaOfValue divergingInput).map
        (fun s => reduceGraph (buildGraph s.rootFieldType)) = some divergingGraph
    rw [schemaOfValue_divergingInput]
    show some (reduceGraph (buildGraph divergingSchema.rootFieldType)) = some divergingGraph
    rw [buildGraph_divergingSchema, reduceGraph_divergingBuilt]
  · intro fuel
    match fuel with
    | 0 => rfl
    | n + 1 =>
      show resolveFieldList divergingGraph n
        ⟨[], [14]⟩ [("a", 1), ("b", 12), ("c", 11), ("d", 12), ("e", 11)] = none
      match n with
      | 0 => rfl
      | m + 1 =>
        rw [resolveFieldList]
        cases h : resolveObjectField divergingGraph m ⟨[], [14]⟩ ("a", 1) with
        | none => rfl
        | some st2 =>
          simp only
          match m with
          | 0 => rfl
          | k + 1 =>
            rw [resolveFieldList, (resolveLoop_diverges k st2 "b").1]


theorem NamesSub.rfl {a : List (Nat × List String)} : NamesSub a a := fun _ _ h => h

theorem NamesSub.trans {a b c : List (Nat × List String)}
    (h1 : NamesSub a b) (h2 : NamesSub b c) : NamesSub a c :=
  fun k n h => h2 k n (h1 k n h)

/-- Membership in `addName`. -/
theorem mem_addName {l : List String} {m n : String} :
    m ∈ addName l n ↔ m ∈ l ∨ m = n := by
  simp [addName, List.mem_dedup, (List.perm_insertionSort _ _).mem_iff]



/-- No entry is recorded for a key below every key of the list. -/
theorem namesOf_eq_nil_of_lt {names : List (Nat × List String)} {k : Nat}
    (h : ∀ e ∈ names, k < e.1) : namesOf names k = [] := by
  induction names with
  | nil => rfl
  | cons e rest ih =>
    have hk : ¬ (e.1 == k) = true := by
      have := h e (List.mem_cons_self e rest)
      simp only [beq_iff_eq]
      omega
    simp only [namesOf, List.find?, hk]
    exact ih (fun e he => h e (List.mem_cons_of_mem _ he))

/-- The keys of `namesUpdate names i n` are the old keys plus `i`. -/
theorem namesUpdate_keys {names : List (Nat × List String)} {i : Nat} {n : String} :
    ∀ e ∈ namesUpdate names i n, e.1 = i ∨ e ∈ names := by
  induction names with
  | nil => intro e he; rw [namesUpdate] at he; simp at he; simp [he]
  | cons f rest ih =>
    intro e he
    obtain ⟨k0, l⟩ := f
    rw [namesUpdate] at he
    by_cases h1 : i = k0
    · simp only [if_pos h1] at he
      rcases List.mem_cons.mp he with rfl | h2
      · left; exact h1.symm
      · right; exact List.mem_cons_of_mem _ h2
    · simp only [if_neg h1] at he
      by_cases h2 : i < k0
      · simp only [if_pos h2] at he
        rcases List.mem_cons.mp he with rfl | h3
        · left; rfl
        · right; exact h3
      · simp only [if_neg h2] at he
        rcases List.mem_cons.mp he with rfl | h3
        · right; exact List.mem_cons_self _ _
        · rcases ih e h3 with h4 | h4
          · left; exact h4
          · right; exact List.mem_cons_of_mem _ h4

/-- `namesUpdate` preserves sorted keys. -/
theorem namesUpdate_keysSorted {names : List (Nat × List String)} {i : Nat} {n : String}
    (h : KeysSorted names) : KeysSorted (namesUpdate names i n) := by
  induction names with
  | nil => simp [namesUpdate, KeysSorted]
  | cons f rest ih =>
    obtain ⟨k0, l⟩ := f
    obtain ⟨hhead, htail⟩ := List.pairwise_cons.mp h
    rw [namesUpdate]
    by_cases h1 : i = k0
    · simp only [if_pos h1]
      exact List.pairwise_cons.mpr ⟨hhead, htail⟩
    · simp only [if_neg h1]
      by_cases h2 : i < k0
      · simp only [if_pos h2]
        refine List.pairwise_cons.mpr ⟨?_, List.pairwise_cons.mpr ⟨hhead, htail⟩⟩
        intro b hb
        rcases List.mem_cons.mp hb with rfl | h3
        · exact h2
        · exact lt_trans h2 (hhead b h3)
      · simp only [if_neg h2]
        refine List.pairwise_cons.mpr ⟨?_, ih htail⟩
        intro b hb
        rcases namesUpdate_keys b hb with h3 | h3
        · rw [h3]; omega
        · exact hhead b h3

/-- `namesUpdate` only grows each node's candidate list. -/
theorem namesUpdate_mono {names : List (Nat × List String)} {i : Nat} {n : String}
    (h : KeysSorted names) : NamesSub names (namesUpdate names i n) := by
  induction names with
  | nil => intro k m hm; simp [namesOf] at hm
  | cons f rest ih =>
    obtain ⟨k0, l⟩ := f
    obtain ⟨hhead, htail⟩ := List.pairwise_cons.mp h
    intro k m hm
    rw [namesUpdate]
    by_cases h1 : i = k0
    · simp only [if_pos h1]
      by_cases hk : (k0 == k) = true
      · simp only [namesOf, List.find?, hk] at hm ⊢
        simp only [Option.getD, Option.map] at hm ⊢
        exact mem_addName.mpr (Or.inl hm)
      · simp only [namesOf, List.find?, hk] at hm ⊢
        exact hm
    · simp only [if_neg h1]
      by_cases h2 : i < k0
      · simp only [if_pos h2]
        by_cases hk : (i == k) = true
        · exfalso
          have hk' : i = k := beq_iff_eq.mp hk
          have hnil : namesOf ((k0, l) :: rest) k = [] := by
            apply namesOf_eq_nil_of_lt
            intro e he
            rcases List.mem_cons.mp he with rfl | h3
            · omega
            · have := hhead e h3; omega
          rw [hnil] at hm
          simp at hm
        · simp only [namesOf, List.find?, hk]
          exact hm
      · simp only [if_neg h2]
        by_cases hk : (k0 == k) = true
        · simp only [namesOf, List.find?, hk] at hm ⊢
          exact hm
        · simp only [namesOf, List.find?, hk] at hm ⊢
          exact ih htail k m hm

/-- The inserted name is recorded under the target key. -/
theorem mem_namesUpdate {names : List (Nat × List String)} {i : Nat} {n : String} :
    n ∈ namesOf (namesUpdate names i n) i := by
  induction names with
  | nil => simp [namesUpdate, namesOf, List.find?, mem_addName]
  | cons f rest ih =>
    obtain ⟨k0, l⟩ := f
    rw [namesUpdate]
    by_cases h1 : i = k0
    · subst h1
      simp [namesOf, List.find?, mem_addName]
    · simp only [if_neg h1]
      by_cases h2 : i < k0
      · simp [if_pos h2, namesOf, List.find?, mem_addName]
      · have hk : ¬ (k0 == i) = true := by simp; omega
        simp only [if_neg h2, namesOf, List.find?, hk]
        exact ih

/-- Successful resolver runs keep the candidate map's keys sorted and only
grow candidate lists (combined monotonicity for the four mutual functions). -/
theorem resolver_mono (g : TypeGraph) : ∀ fuel : Nat,
    (∀ st i st', KeysSorted st.names → resolveTypeId g fuel st i = some st' →
      KeysSorted st'.names ∧ NamesSub st.names st'.names) ∧
    (∀ st f st', KeysSorted st.names → resolveObjectField g fuel st f = some st' →
      KeysSorted st'.names ∧ NamesSub st.names st'.names) ∧
    (∀ st fs st', KeysSorted st.names → resolveFieldList g fuel st fs = some st' →
      KeysSorted st'.names ∧ NamesSub st.names st'.names) ∧
    (∀ st ids st', KeysSorted st.names → resolveIdList g fuel st ids = some st' →
      KeysSorted st'.names ∧ NamesSub st.names st'.names) := by
  intro fuel
  induction fuel using Nat.strong_induction_on with
  | _ fuel ih =>
    match fuel with
    | 0 =>
      refine ⟨?_, ?_, ?_, ?_⟩
      · intro st i st' _ h; cases h
      · intro st f st' _ h; cases h
      · intro st fs st' hs h
        cases fs with
        | nil => cases h; exact ⟨hs, NamesSub.rfl⟩
        | cons f rest => cases h
      · intro st ids st' hs h
        cases ids with
        | nil => cases h; exact ⟨hs, NamesSub.rfl⟩
        | cons i rest => cases h
    | n + 1 =>
      have ihn := ih n (by omega)
      refine ⟨?_, ?_, ?_, ?_⟩
      · intro st i st' hs h
        rw [resolveTypeId] at h
        split at h
        · cases h; exact ⟨hs, NamesSub.rfl⟩
        · split at h
          · dsimp only at h
            exact ihn.2.2.1 ⟨st.names, st.visited ++ [i]⟩ _ _ hs h
          · dsimp only at h
            exact ihn.2.2.2 ⟨st.names, st.visited ++ [i]⟩ _ _ hs h
          · dsimp only at h
            exact ihn.1 ⟨st.names, st.visited ++ [i]⟩ _ _ hs h
          · dsimp only at h
            exact ihn.1 ⟨st.names, st.visited ++ [i]⟩ _ _ hs h
          · cases h; exact ⟨hs, NamesSub.rfl⟩
      · intro st f st' hs h
        rw [resolveObjectField] at h
        split at h
        · have hs1 := namesUpdate_keysSorted (i := f.2) (n := f.1) hs
          have hm1 := namesUpdate_mono (i := f.2) (n := f.1) hs
          obtain ⟨h1, h2⟩ := ihn.2.2.1 _ _ _ hs1 h
          exact ⟨h1, hm1.trans h2⟩
        · have hs1 := namesUpdate_keysSorted (i := f.2) (n := f.1) hs
          have hm1 := namesUpdate_mono (i := f.2) (n := f.1) hs
          obtain ⟨h1, h2⟩ := ihn.2.2.2 _ _ _ hs1 h
          exact ⟨h1, hm1.trans h2⟩
        · rename_i j hj
          have hs1 := namesUpdate_keysSorted (i := j) (n := f.1) hs
          have hm1 := namesUpdate_mono (i := j) (n := f.1) hs
          obtain ⟨h1, h2⟩ := ihn.1 _ _ _ hs1 h
          exact ⟨h1, hm1.trans h2⟩
        · rename_i j hj
          have hs1 := namesUpdate_keysSorted (i := j) (n := f.1) hs
          have hm1 := namesUpdate_mono (i := j) (n := f.1) hs
          obtain ⟨h1, h2⟩ := ihn.1 _ _ _ hs1 h
          exact ⟨h1, hm1.trans h2⟩
        · cases h; exact ⟨hs, NamesSub.rfl⟩
      · intro st fs st' hs h
        cases fs with
        | nil => cases h; exact ⟨hs, NamesSub.rfl⟩
        | cons f rest =>
          rw [resolveFieldList] at h
          cases h2 : resolveObjectField g n st f with
          | none => rw [h2] at h; cases h
          | some st1 =>
            rw [h2] at h
            simp only at h
            obtain ⟨ha, hb⟩ := ihn.2.1 _ _ _ hs h2
            obtain ⟨hc, hd⟩ := ihn.2.2.1 _ _ _ ha h
            exact ⟨hc, hb.trans hd⟩
      · intro st ids st' hs h
        cases ids with
        | nil => cases h; exact ⟨hs, NamesSub.rfl⟩
        | cons i rest =>
          rw [resolveIdList] at h
          cases h2 : resolveTypeId g n st i with
          | none => rw [h2] at h; cases h
          | some st1 =>
            rw [h2] at h
            simp only at h
            obtain ⟨ha, hb⟩ := ihn.1 _ _ _ hs h2
            obtain ⟨hc, hd⟩ := ihn.2.2.2 _ _ _ ha h
            exact ⟨hc, hb.trans hd⟩

/-- C4, counterexample.  The claim says only object and union nodes ever
receive assigned names.  For `{"xs": [1]}` the field `xs` has type
`Array(Integer)`; the resolver attributes the name `xs` to the array's inner
node — the primitive `Integer` node 0 — and the registry then assigns the
name `"xs"` to that primitive node. -/
theorem c4_counterexample_integer_node_named :
    typeGraphOfValue xsInput = some xsGraph ∧
    lookupNode xsGraph.nodes 0 = some .integer ∧
    nameRegistryBuild 100 xsGraph = some [(0, "xs")] := by
  refine ⟨?_, rfl, by decide⟩
  show (schemaOfValue xsInput).map
      (fun s => reduceGraph (buildGraph s.rootFieldType)) = some xsGraph
  have h1 : schemaOfValue xsInput = some (.sobject [("xs", .array .integer)]) := by
    simp [xsInput, schemaOfValue, aggregate, fieldTypeOf, objectFields,
          JNumber.isU64, merge, sortFields, sortFieldsRec, sortFieldType,
          sortFieldTypesRec, nameLe, strLe, charListLe]
  rw [h1]
  show some (reduceGraph (buildGraph (Schema.sobject [("xs", .array .integer)]).rootFieldType)) =
    some xsGraph
  decide

/-- C4, amended.  Candidate names are attributed exactly one wrapper level
deep: a field whose type id resolves to an `Object` or `Union` def
contributes the field name to the candidate list of the field's own node,
while a field whose type id resolves to `Array(j)` or `Optional(j)`
contributes the field name to the candidate list of the *immediate* inner id
`j`, whatever kind of node `j` is (so primitives, arrays and optionals can
collect candidates and be assigned names; deeper wrappers are not unwrapped
further). -/
theorem c4_one_level_name_attribution
    (g : TypeGraph) (fuel : Nat) (st : NState) (f : String × Nat) (st' : NState)
    (hs : KeysSorted st.names)
    (h : resolveObjectField g (fuel + 1) st f = some st') :
    (∀ j, lookupNode g.nodes f.2 = some (.array j) → f.1 ∈ namesOf st'.names j) ∧
    (∀ j, lookupNode g.nodes f.2 = some (.optional j) → f.1 ∈ namesOf st'.names j) ∧
    (∀ fs, lookupNode g.nodes f.2 = some (.object fs) → f.1 ∈ namesOf st'.names f.2) ∧
    (∀ ids, lookupNode g.nodes f.2 = some (.union ids) → f.1 ∈ namesOf st'.names f.2) := by
  rw [resolveObjectField] at h
  refine ⟨?_, ?_, ?_, ?_⟩
  · intro j hj
    rw [hj] at h
    have hs1 := namesUpdate_keysSorted (i := j) (n := f.1) hs
    have hmono := ((resolver_mono g fuel).1 _ _ _ hs1 h).2
    exact hmono j f.1 mem_namesUpdate
  · intro j hj
    rw [hj] at h
    have hs1 := namesUpdate_keysSorted (i := j) (n := f.1) hs
    have hmono := ((resolver_mono g fuel).1 _ _ _ hs1 h).2
    exact hmono j f.1 mem_namesUpdate
  · intro fs hj
    rw [hj] at h
    have hs1 := namesUpdate_keysSorted (i := f.2) (n := f.1) hs
    have hmono := ((resolver_mono g fuel).2.2.1 _ _ _ hs1 h).2
    exact hmono f.2 f.1 mem_namesUpdate
  · intro ids hj
    rw [hj] at h
    have hs1 := namesUpdate_keysSorted (i := f.2) (n := f.1) hs
    have hmono := ((resolver_mono g fuel).2.2.2 _ _ _ hs1 h).2
    exact hmono f.2 f.1 mem_namesUpdate

/-- C4, witness for the amended attribution theorem: in `xsGraph`, resolving
the field `("xs", 1)` — whose node 1 is `Array(0)` — records `"xs"` as a
candidate of the primitive inner node 0. -/
theorem c4_one_level_name_attribution_witness :
    "xs" ∈ namesOf (⟨[(0, ["xs"])], [0]⟩ : NState).names 0 :=
  (c4_one_level_name_attribution xsGraph 4 .empty ("xs", 1) ⟨[(0, ["xs"])], [0]⟩
      (by simp [KeysSorted, NState.empty]) (by decide)).1 0 (by decide)

/-- Canonicalization only permutes a def's recursive references. -/
theorem refsOf_canonicalizeDef {td : TypeDef} {nodes : List (Nat × TypeDef)} :
    ∀ j ∈ refsOf (canonicalizeDef td nodes), j ∈ refsOf td := by
  intro j hj
  cases td with
  | object fields =>
    simp only [canonicalizeDef, refsOf, List.mem_map] at hj ⊢
    obtain ⟨f, hf, hj⟩ := hj
    exact ⟨f, (List.perm_insertionSort _ _).mem_iff.mp hf, hj⟩
  | union ids =>
    simp only [canonicalizeDef, refsOf] at hj ⊢
    exact (List.perm_insertionSort _ _).mem_iff.mp hj
  | unknown => exact hj
  | null => exact hj
  | boolean => exact hj
  | integer => exact hj
  | float => exact hj
  | string => exact hj
  | array i => exact hj
  | optional i => exact hj


/-- `intern` preserves the builder invariant; assuming the def's references
are already-allocated ids, the returned id is allocated and the nodes map
only grows. -/
theorem internB_spec (td : TypeDef) {st : BuildState}
    (h : BInv st) (href : ∀ j ∈ refsOf td, j < st.next) :
    BInv (internB td st).2 ∧ (internB td st).1 < (internB td st).2.next ∧
    st.next ≤ (internB td st).2.next ∧ (∀ e ∈ st.nodes, e ∈ (internB td st).2.nodes) := by
  rw [internB]
  cases hc : (st.cache.find? (fun e => e.1 == canonicalizeDef td st.nodes)).map (fun e => e.2) with
  | some i =>
    simp only
    refine ⟨h, ?_, le_refl _, fun e he => he⟩
    obtain ⟨e, he, rfl⟩ := Option.map_eq_some'.mp hc
    exact h.2 e (List.mem_of_find?_eq_some he)
  | none =>
    simp only
    refine ⟨⟨?_, ?_⟩, Nat.lt_succ_self _, Nat.le_succ _, fun e he => List.mem_append_left _ he⟩
    · intro e he
      rcases List.mem_append.mp he with he | he
      · obtain ⟨h1, h2⟩ := h.1 e he
        exact ⟨Nat.lt_succ_of_lt h1, h2⟩
      · simp only [List.mem_singleton] at he
        subst he
        refine ⟨Nat.lt_succ_self _, ?_⟩
        intro j hj
        exact href j (refsOf_canonicalizeDef j hj)
    · intro e he
      rcases List.mem_append.mp he with he | he
      · exact Nat.lt_succ_of_lt (h.2 e he)
      · simp only [List.mem_singleton] at he
        subst he
        exact Nat.lt_succ_self _

mutual
/-- The builder's post-order interning keeps the invariant: every reference
inside a node is a strictly smaller id (children are interned before their
parent, fresh ids increase). -/
theorem processFieldType_spec (ft : FieldType) (st : BuildState) (h : BInv st) :
    BInv (processFieldType ft st).2 ∧
    (processFieldType ft st).1 < (processFieldType ft st).2.next ∧
    st.next ≤ (processFieldType ft st).2.next ∧
    (∀ e ∈ st.nodes, e ∈ (processFieldType ft st).2.nodes) := by
  cases ft with
  | string => exact internB_spec _ h (by simp [refsOf])
  | integer => exact internB_spec _ h (by simp [refsOf])
  | float => exact internB_spec _ h (by simp [refsOf])
  | boolean => exact internB_spec _ h (by simp [refsOf])
  | null => exact internB_spec _ h (by simp [refsOf])
  | unknown => exact internB_spec _ h (by simp [refsOf])
  | object fields =>
    have hl := processFieldList_spec fields st h
    rw [processFieldType]
    obtain ⟨h1, h2, h3, h4, h5⟩ := hl
    have hi := internB_spec (.object (processFieldList fields st).1) h1
      (by
        intro j hj
        simp only [refsOf, List.mem_map] at hj
        obtain ⟨f, hf, rfl⟩ := hj
        exact h2 f hf)
    exact ⟨hi.1, hi.2.1, le_trans h3 hi.2.2.1, fun e he => hi.2.2.2 e (h5 e he)⟩
  | union members =>
    have hl := processMembers_spec members st h
    rw [processFieldType]
    obtain ⟨h1, h2, h3, h4, h5⟩ := hl
    have hi := internB_spec (.union (processMembers members st).1) h1
      (by simpa [refsOf] using h2)
    exact ⟨hi.1, hi.2.1, le_trans h3 hi.2.2.1, fun e he => hi.2.2.2 e (h5 e he)⟩
  | array inner =>
    have hl := processFieldType_spec inner st h
    rw [processFieldType]
    obtain ⟨h1, h2, h3, h4⟩ := hl
    have hi := internB_spec (.array (processFieldType inner st).1) h1
      (by simpa [refsOf] using h2)
    exact ⟨hi.1, hi.2.1, le_trans h3 hi.2.2.1, fun e he => hi.2.2.2 e (h4 e he)⟩
  | optional inner =>
    have hl := processFieldType_spec inner st h
    rw [processFieldType]
    obtain ⟨h1, h2, h3, h4⟩ := hl
    have hi := internB_spec (.optional (processFieldType inner st).1) h1
      (by simpa [refsOf] using h2)
    exact ⟨hi.1, hi.2.1, le_trans h3 hi.2.2.1, fun e he => hi.2.2.2 e (h4 e he)⟩

/-- Field lists: every produced field id is an allocated id. -/
theorem processFieldList_spec (fields : List (String × FieldType)) (st : BuildState)
    (h : BInv st) :
    BInv (processFieldList fields st).2 ∧
    (∀ f ∈ (processFieldList fields st).1, f.2 < (processFieldList fields st).2.next) ∧
    st.next ≤ (processFieldList fields st).2.next ∧ True ∧
    (∀ e ∈ st.nodes, e ∈ (processFieldList fields st).2.nodes) := by
  cases fields with
  | nil =>
    rw [processFieldList]
    exact ⟨h, by simp, le_refl _, trivial, fun e he => he⟩
  | cons f rest =>
    obtain ⟨n, t⟩ := f
    have h1 := processFieldType_spec t st h
    have h2 := processFieldList_spec rest (processFieldType t st).2 h1.1
    rw [processFieldList]
    simp only
    refine ⟨h2.1, ?_, le_trans h1.2.2.1 h2.2.2.1, trivial,
      fun e he => h2.2.2.2.2 e (h1.2.2.2 e he)⟩
    intro g hg
    rcases List.mem_cons.mp hg with rfl | hg
    · have := h1.2.1
      have := h2.2.2.1
      simp only
      omega
    · exact h2.2.1 g hg

/-- Union member lists: every produced id is an allocated id. -/
theorem processMembers_spec (members : List FieldType) (st : BuildState)
    (h : BInv st) :
    BInv (processMembers members st).2 ∧
    (∀ i ∈ (processMembers members st).1, i < (processMembers members st).2.next) ∧
    st.next ≤ (processMembers members st).2.next ∧ True ∧
    (∀ e ∈ st.nodes, e ∈ (processMembers members st).2.nodes) := by
  cases members with
  | nil =>
    rw [processMembers]
    exact ⟨h, by simp, le_refl _, trivial, fun e he => he⟩
  | cons t rest =>
    have h1 := processFieldType_spec t st h
    have h2 := processMembers_spec rest (processFieldType t st).2 h1.1
    rw [processMembers]
    simp only
    refine ⟨h2.1, ?_, le_trans h1.2.2.1 h2.2.2.1, trivial,
      fun e he => h2.2.2.2.2 e (h1.2.2.2 e he)⟩
    intro i hi
    rcases List.mem_cons.mp hi with rfl | hi
    · have := h1.2.1
      have := h2.2.2.1
      omega
    · exact h2.2.1 i hi
end

/-- C10 (implicit): in the TypeGraph produced by the builder, before reduction,
every TypeId referenced inside a node's TypeDef (object field ids, array and
optional inner ids, union member ids) is strictly smaller than the id of the
node containing it, because children are interned before their parent and the
`Iota` counter hands out strictly increasing fresh ids; consequently the
unreduced graph is acyclic. -/
theorem c10_builder_topological_ids (ft : FieldType) :
    (∀ e ∈ (buildGraph ft).nodes, ∀ j ∈ refsOf e.2, j < e.1) ∧
    (∀ i, ¬ Relation.TransGen (Edge (buildGraph ft)) i i) := by
  have hinv : BInv BuildState.empty :=
    ⟨fun e he => by simp [BuildState.empty] at he,
     fun e he => by simp [BuildState.empty] at he⟩
  have hspec := processFieldType_spec ft .empty hinv
  have hnodes : ∀ e ∈ (buildGraph ft).nodes, ∀ j ∈ refsOf e.2, j < e.1 :=
    fun e he => (hspec.1.1 e he).2
  refine ⟨hnodes, fun i hcyc => ?_⟩
  have hedge : ∀ a b, Edge (buildGraph ft) a b → b < a := by
    rintro a b ⟨td, hl, hb⟩
    obtain ⟨e, he, rfl⟩ := Option.map_eq_some'.mp hl
    have ha : e.1 = a := by simpa using List.find?_some he
    have hm := List.mem_of_find?_eq_some he
    have := hnodes e hm b hb
    omega
  have hlt : i < i := by
    have htr : Transitive (fun a b : Nat => b < a) :=
      fun a b c hab hbc => lt_trans hbc hab
    have := Relation.TransGen.mono hedge hcyc
    rwa [Relation.transGen_eq_self htr] at this
  exact absurd hlt (lt_irrefl i)

/-- Witness for C10 at the concrete schema `Array(Integer)`: the array node 1
references the integer node 0, the theorem yields 0 < 1, and node 1 is not on
a cycle. -/
theorem c10_builder_topological_ids_witness :
    (1, TypeDef.array 0) ∈ (buildGraph (.array .integer)).nodes ∧
    (0 : Nat) ∈ refsOf (.array 0) ∧ 0 < 1 ∧
    ¬ Relation.TransGen (Edge (buildGraph (.array .integer))) 1 1 :=
  ⟨by decide, by decide,
   (c10_builder_topological_ids (.array .integer)).1 (1, .array 0) (by decide) 0 (by decide),
   (c10_builder_topological_ids (.array .integer)).2 1⟩

/-- C9: the pipeline is deterministic — on byte-identical parsed inputs (and
the same resolver fuel) two independent runs agree at every stage: the same
inferred Schema, the same reduced TypeGraph (root and id-to-def map), and the
same name assignment. -/
theorem c9_pipeline_deterministic (fuel : Nat) (v w : Value) (h : v = w) :
    pipelineRun fuel v = pipelineRunAgain fuel w := by
  subst h
  unfold pipelineRun pipelineRunAgain typeGraphOfValue nameRegistryBuild
  cases schemaOfValue v <;> rfl

/-- Witness for C9 at the concrete input `{"xs": [1]}`. -/
theorem c9_pipeline_deterministic_witness :
    xsInput = xsInput ∧ pipelineRun 9 xsInput = pipelineRunAgain 9 xsInput :=
  ⟨rfl, c9_pipeline_deterministic 9 xsInput xsInput rfl⟩

/-- Appending a node with a fresh key does not change lookups of smaller ids. -/
theorem lookupNode_append {nodes : List (Nat × TypeDef)} {k i : Nat} (td : TypeDef)
    (hik : i < k) :
    lookupNode (nodes ++ [(k, td)]) i = lookupNode nodes i := by
  induction nodes with
  | nil =>
    simp only [List.nil_append, lookupNode, List.find?]
    rw [show (k == i) = false from by simp; omega]
  | cons e rest ih =>
    simp only [List.cons_append, lookupNode, List.find?] at ih ⊢
    cases e.1 == i with
    | true => rfl
    | false => exact ih

/-- `StExt` is transitive. -/
theorem stExt_trans {a b c : ReduceState} (h1 : StExt a b) (h2 : StExt b c) :
    StExt a c :=
  ⟨le_trans h1.1 h2.1, fun i hi => (h2.2 i (lt_of_lt_of_le hi h1.1)).trans (h1.2 i hi)⟩

/-- `TypeReducer::intern` extends the state, returns an allocated id, and only
appends the canonicalized def under a fresh id. -/
theorem internR_ext (td : TypeDef) {st : ReduceState}
    (h : RInv st) (href : ∀ j ∈ refsOf td, j < st.next) :
    RInv (internR td st).2 ∧ StExt st (internR td st).2 ∧
    (internR td st).1 < (internR td st).2.next ∧
    (∀ e ∈ (internR td st).2.nodes, e ∈ st.nodes ∨ e.2 = canonicalizeDef td st.nodes) := by
  rw [internR]
  cases hc : (st.cache.find? (fun e => e.1 == canonicalizeDef td st.nodes)).map
      (fun e => e.2) with
  | some i =>
    simp only
    refine ⟨h, ⟨le_refl _, fun i _ => rfl⟩, ?_, fun e he => Or.inl he⟩
    obtain ⟨e, he, rfl⟩ := Option.map_eq_some'.mp hc
    exact h.2 e (List.mem_of_find?_eq_some he)
  | none =>
    simp only
    refine ⟨⟨?_, ?_⟩, ⟨Nat.le_succ _, ?_⟩, Nat.lt_succ_self _, ?_⟩
    · intro e he
      rcases List.mem_append.mp he with he | he
      · obtain ⟨h1, h2⟩ := h.1 e he
        exact ⟨Nat.lt_succ_of_lt h1, fun j hj => Nat.lt_succ_of_lt (h2 j hj)⟩
      · simp only [List.mem_singleton] at he
        subst he
        refine ⟨Nat.lt_succ_self _, ?_⟩
        intro j hj
        exact Nat.lt_succ_of_lt (href j (refsOf_canonicalizeDef j hj))
    · intro e he
      rcases List.mem_append.mp he with he | he
      · exact Nat.lt_succ_of_lt (h.2 e he)
      · simp only [List.mem_singleton] at he
        subst he
        exact Nat.lt_succ_self _
    · intro i hi
      exact lookupNode_append _ hi
    · intro e he
      rcases List.mem_append.mp he with he | he
      · exact Or.inl he
      · simp only [List.mem_singleton] at he
        subst he
        exact Or.inr rfl

/-- Canonicalization never turns a non-union def into a union. -/
theorem canonicalizeDef_not_union {td : TypeDef} {nodes : List (Nat × TypeDef)}
    (h : ∀ ids, td ≠ TypeDef.union ids) :
    ∀ ids, canonicalizeDef td nodes ≠ TypeDef.union ids := by
  cases td with
  | union ids => exact absurd rfl (h ids)
  | object fields => intro ids hh; cases hh
  | unknown => exact h
  | null => exact h
  | boolean => exact h
  | integer => exact h
  | float => exact h
  | string => exact h
  | array i => exact h
  | optional i => exact h

/-- Remapping ids never turns a non-union def into a union. -/
theorem remapTypeDef_not_union {remaps : List (Nat × Nat)} {td : TypeDef}
    (h : ∀ ids, td ≠ TypeDef.union ids) :
    ∀ ids, remapTypeDef remaps td ≠ TypeDef.union ids := by
  cases td with
  | union ids => exact absurd rfl (h ids)
  | object fields => intro ids hh; cases hh
  | unknown => exact h
  | null => exact h
  | boolean => exact h
  | integer => exact h
  | float => exact h
  | string => exact h
  | array i => intro ids hh; cases hh
  | optional i => intro ids hh; cases hh

/-- Interning a non-union def keeps the nodes map union-free. -/
theorem internR_UF {td : TypeDef} {st : ReduceState}
    (h : UnionFree st.nodes) (htd : ∀ ids, td ≠ TypeDef.union ids) :
    UnionFree (internR td st).2.nodes := by
  rw [internR]
  cases hc : (st.cache.find? (fun e => e.1 == canonicalizeDef td st.nodes)).map
      (fun e => e.2) with
  | some i => exact h
  | none =>
    intro e he
    rcases List.mem_append.mp he with he | he
    · exact h e he
    · simp only [List.mem_singleton] at he
      subst he
      exact canonicalizeDef_not_union htd

/-- A single field-pair merge keeps the nodes map union-free (it interns at
most a fresh Optional). -/
theorem mergeObjectField_UF {st : ReduceState} {t c : String × Nat}
    (h : UnionFree st.nodes) :
    UnionFree (mergeObjectField st t c).2.nodes := by
  rw [mergeObjectField]
  split
  · exact h
  split
  · exact h
  split
  · rename_i td cd hlt hlc
    split
    · exact h
    split
    · exact h
    split
    · split
      · exact h
      · exact internR_UF h (fun ids hh => by cases hh)
    split
    · split
      · exact h
      · exact internR_UF h (fun ids hh => by cases hh)
    split
    · split
      · exact h
      · split
        · split
          · exact h
          · exact h
        · exact h
    · split
      · exact h
      · exact h
    · exact h
  · exact h

/-- The zipped pairwise merge keeps the nodes map union-free. -/
theorem mergeFieldPairs_UF :
    ∀ (pairs : List ((String × Nat) × (String × Nat))) (st : ReduceState),
      UnionFree st.nodes → UnionFree (mergeFieldPairs st pairs).2.nodes
  | [], _, h => h
  | (t, c) :: rest, st, h => by
    rw [mergeFieldPairs]
    have h1 : UnionFree (mergeObjectField st t c).2.nodes := mergeObjectField_UF h
    cases hm : mergeObjectField st t c with
    | mk o st1 =>
      rw [hm] at h1
      cases o with
      | none => exact h1
      | some f =>
        dsimp only
        have h2 := mergeFieldPairs_UF rest st1 h1
        cases hr : mergeFieldPairs st1 rest with
        | mk os st2 =>
          rw [hr] at h2
          cases os with
          | none => exact h2
          | some fs => exact h2

/-- The whole-object merge keeps the nodes map union-free. -/
theorem mergeObjectFieldsR_UF (st : ReduceState) (a b : List (String × Nat))
    (h : UnionFree st.nodes) :
    UnionFree (mergeObjectFieldsR st a b).2.nodes := by
  rw [mergeObjectFieldsR]
  split
  · exact h
  · exact mergeFieldPairs_UF _ _ h

/-- Membership after an in-place node update. -/
theorem mem_updateNode {nodes : List (Nat × TypeDef)} {i : Nat} {td : TypeDef} :
    ∀ e ∈ updateNode nodes i td, e ∈ nodes ∨ e.2 = td := by
  intro e he
  simp only [updateNode, List.mem_map] at he
  obtain ⟨f, hf, hfe⟩ := he
  by_cases hfi : (f.1 == i) = true
  · rw [if_pos hfi] at hfe
    right
    rw [show e = (i, td) from hfe.symm]
  · rw [if_neg hfi] at hfe
    left
    rw [show e = f from hfe.symm]
    exact hf

/-- The object branch of reduction keeps the nodes map union-free: it only
interns Optionals and objects, and in-place updates write objects. -/
theorem tryTargets_UF :
    ∀ (scan : List Nat) (st : ReduceState) (ofs : List (String × Nat)),
      UnionFree st.nodes → UnionFree (tryTargets st scan ofs).2.nodes
  | [], st, ofs, h => by
    rw [tryTargets]
    exact internR_UF h (fun ids hh => by cases hh)
  | tid :: rest, st, ofs, h => by
    rw [tryTargets]
    cases hl : lookupNode st.nodes tid with
    | none => exact tryTargets_UF rest st ofs h
    | some td =>
      cases td with
      | object tfs =>
        dsimp only
        have h1 := mergeObjectFieldsR_UF st tfs ofs h
        cases hm : mergeObjectFieldsR st tfs ofs with
        | mk o st1 =>
          rw [hm] at h1
          cases o with
          | none => exact tryTargets_UF rest st1 ofs h1
          | some merged =>
            dsimp only
            intro e he
            rcases mem_updateNode e he with he | he
            · exact h1 e he
            · rw [he]
              intro ids hh
              cases hh
      | unknown => exact tryTargets_UF rest st ofs h
      | null => exact tryTargets_UF rest st ofs h
      | boolean => exact tryTargets_UF rest st ofs h
      | integer => exact tryTargets_UF rest st ofs h
      | float => exact tryTargets_UF rest st ofs h
      | string => exact tryTargets_UF rest st ofs h
      | array i => exact tryTargets_UF rest st ofs h
      | optional i => exact tryTargets_UF rest st ofs h
      | union ids => exact tryTargets_UF rest st ofs h

/-- Reducing one non-union def keeps the nodes map union-free. -/
theorem reduceTypeDef_UF {st : ReduceState} {td : TypeDef}
    (h : UnionFree st.nodes) (htd : ∀ ids, td ≠ TypeDef.union ids) :
    UnionFree (reduceTypeDef st td).2.nodes := by
  cases td with
  | object ofs => exact tryTargets_UF _ st ofs h
  | union ids => exact absurd rfl (htd ids)
  | unknown => exact internR_UF h htd
  | null => exact internR_UF h htd
  | boolean => exact internR_UF h htd
  | integer => exact internR_UF h htd
  | float => exact internR_UF h htd
  | string => exact internR_UF h htd
  | array i => exact internR_UF h htd
  | optional i => exact internR_UF h htd

/-- The reduction fold keeps the nodes map union-free when the processed
entries are union-free. -/
theorem reduceFold_UF :
    ∀ (entries : List (Nat × TypeDef)) (st : ReduceState),
      UnionFree st.nodes → (∀ e ∈ entries, ∀ ids, e.2 ≠ TypeDef.union ids) →
      UnionFree ((entries.foldl
        (fun st e =>
          let td := remapTypeDef st.remaps e.2
          let (ri, st') := reduceTypeDef st td
          { st' with remaps := st'.remaps ++ [(e.1, ri)] }) st).nodes)
  | [], _, h, _ => h
  | e :: rest, st, h, hg => by
    rw [List.foldl_cons]
    refine reduceFold_UF rest _ ?_ (fun x hx => hg x (List.mem_cons_of_mem _ hx))
    exact reduceTypeDef_UF h (remapTypeDef_not_union (hg e (List.mem_cons_self _ _)))

/-- The spec criterion's Optional-side test is false for non-Optional defs. -/
theorem specMatchOpt_false {x : TypeDef} {k : Nat} (h : ∀ i, x ≠ TypeDef.optional i) :
    (match x with | TypeDef.optional i => i == k | _ => false) = false := by
  cases x with
  | optional i => exact absurd rfl (h i)
  | unknown => rfl
  | null => rfl
  | boolean => rfl
  | integer => rfl
  | float => rfl
  | string => rfl
  | array i => rfl
  | object fields => rfl
  | union ids => rfl

/-- The spec pair criterion only reads the two field ids, so it is stable
under state extension. -/
theorem specPairMerges_stable {st st' : ReduceState} {t c : String × Nat}
    (hx : StExt st st') (ht : t.2 < st.next) (hc : c.2 < st.next) :
    specPairMerges st'.nodes t c = specPairMerges st.nodes t c := by
  unfold specPairMerges
  rw [hx.2 t.2 ht, hx.2 c.2 hc]

/-- Pointwise-equal predicates give equal `all`. -/
theorem allCongr {α : Type} {l : List α} {p q : α → Bool}
    (h : ∀ a ∈ l, p a = q a) : l.all p = l.all q := by
  induction l with
  | nil => rfl
  | cons a l ih =>
    simp only [List.all_cons]
    rw [h a (List.mem_cons_self _ _), ih (fun x hx => h x (List.mem_cons_of_mem _ hx))]

/-- The spec object criterion is stable under state extension when all field
ids are allocated. -/
theorem specObjectsMerge_stable {st st' : ReduceState} {a b : List (String × Nat)}
    (hx : StExt st st') (ha : ∀ f ∈ a, f.2 < st.next) (hb : ∀ f ∈ b, f.2 < st.next) :
    specObjectsMerge st'.nodes a b = specObjectsMerge st.nodes a b := by
  unfold specObjectsMerge
  congr 1
  refine allCongr ?_
  intro p hp
  obtain ⟨h1, h2⟩ := List.of_mem_zip hp
  exact specPairMerges_stable hx (ha _ h1) (hb _ h2)

/-- A successful lookup is a map entry. -/
theorem lookupNode_mem {nodes : List (Nat × TypeDef)} {i : Nat} {td : TypeDef}
    (h : lookupNode nodes i = some td) : (i, td) ∈ nodes := by
  unfold lookupNode at h
  obtain ⟨e, he, hee⟩ := Option.map_eq_some'.mp h
  have h1 : e.1 = i := by simpa using List.find?_some he
  have h2 := List.mem_of_find?_eq_some he
  cases e with
  | mk a b =>
    simp only at h1 hee
    subst h1
    subst hee
    exact h2

/-- A single field-pair merge succeeds exactly when the spec pair criterion
holds, never disturbs already-allocated nodes, and keeps the state bound. -/
theorem mergeObjectField_spec {st : ReduceState} {t c : String × Nat}
    (h : RInv st) (ht : t.2 < st.next) (hc : c.2 < st.next) :
    ((mergeObjectField st t c).1.isSome = specPairMerges st.nodes t c) ∧
    RInv (mergeObjectField st t c).2 ∧ StExt st (mergeObjectField st t c).2 ∧
    (∀ e ∈ (mergeObjectField st t c).2.nodes,
      e ∈ st.nodes ∨ ∃ j, e.2 = TypeDef.optional j) := by
  rw [mergeObjectField]
  by_cases hn : t.1 = c.1
  · rw [if_neg (by simp [hn])]
    by_cases hi : t.2 = c.2
    · rw [if_pos hi]
      exact ⟨by simp [specPairMerges, beq_iff_eq.mpr hn, beq_iff_eq.mpr hi],
        h, ⟨le_refl _, fun _ _ => rfl⟩, fun e he => Or.inl he⟩
    · rw [if_neg hi]
      cases hlt : lookupNode st.nodes t.2 with
      | none =>
        exact ⟨by simp [specPairMerges, beq_iff_eq.mpr hn, beq_eq_false_iff_ne.mpr hi, hlt],
          h, ⟨le_refl _, fun _ _ => rfl⟩, fun e he => Or.inl he⟩
      | some td =>
        cases hlc : lookupNode st.nodes c.2 with
        | none =>
          exact ⟨by simp [specPairMerges, beq_iff_eq.mpr hn, beq_eq_false_iff_ne.mpr hi,
            hlt, hlc], h, ⟨le_refl _, fun _ _ => rfl⟩, fun e he => Or.inl he⟩
        | some cd =>
          dsimp only
          by_cases hu1 : td = TypeDef.unknown
          · rw [if_pos hu1]
            exact ⟨by simp [specPairMerges, beq_iff_eq.mpr hn, beq_eq_false_iff_ne.mpr hi,
              hlt, hlc, beq_iff_eq.mpr hu1], h, ⟨le_refl _, fun _ _ => rfl⟩, fun e he => Or.inl he⟩
          · rw [if_neg hu1]
            by_cases hu2 : cd = TypeDef.unknown
            · rw [if_pos hu2]
              exact ⟨by simp [specPairMerges, beq_iff_eq.mpr hn, beq_eq_false_iff_ne.mpr hi,
                hlt, hlc, beq_iff_eq.mpr hu2], h, ⟨le_refl _, fun _ _ => rfl⟩, fun e he => Or.inl he⟩
            · rw [if_neg hu2]
              by_cases hn1 : td = TypeDef.null
              · rw [if_pos hn1]
                split
                · exact ⟨by simp [specPairMerges, beq_iff_eq.mpr hn,
                    beq_eq_false_iff_ne.mpr hi, hlt, hlc, beq_iff_eq.mpr hn1],
                    h, ⟨le_refl _, fun _ _ => rfl⟩, fun e he => Or.inl he⟩
                · have hint := internR_ext (TypeDef.optional c.2) h
                    (by intro j hj; simp only [refsOf, List.mem_singleton] at hj; omega)
                  cases hI : internR (TypeDef.optional c.2) st with
                  | mk oid st1 =>
                    rw [hI] at hint
                    dsimp only
                    exact ⟨by simp [specPairMerges, beq_iff_eq.mpr hn,
                      beq_eq_false_iff_ne.mpr hi, hlt, hlc, beq_iff_eq.mpr hn1],
                      hint.1, hint.2.1, fun e he => (hint.2.2.2 e he).imp id (fun hh => ⟨c.2, hh⟩)⟩
              · rw [if_neg hn1]
                by_cases hn2 : cd = TypeDef.null
                · rw [if_pos hn2]
                  split
                  · exact ⟨by simp [specPairMerges, beq_iff_eq.mpr hn,
                      beq_eq_false_iff_ne.mpr hi, hlt, hlc, beq_iff_eq.mpr hn2],
                      h, ⟨le_refl _, fun _ _ => rfl⟩, fun e he => Or.inl he⟩
                  · have hint := internR_ext (TypeDef.optional t.2) h
                      (by intro j hj; simp only [refsOf, List.mem_singleton] at hj; omega)
                    cases hI : internR (TypeDef.optional t.2) st with
                    | mk oid st1 =>
                      rw [hI] at hint
                      dsimp only
                      exact ⟨by simp [specPairMerges, beq_iff_eq.mpr hn,
                        beq_eq_false_iff_ne.mpr hi, hlt, hlc, beq_iff_eq.mpr hn2],
                        hint.1, hint.2.1, fun e he => (hint.2.2.2 e he).imp id (fun hh => ⟨t.2, hh⟩)⟩
                · rw [if_neg hn2]
                  split
                  · rename_i ti
                    by_cases hti : ti = c.2
                    · rw [if_pos hti]
                      exact ⟨by simp [specPairMerges, beq_iff_eq.mpr hn,
                        beq_eq_false_iff_ne.mpr hi, hlt, hlc, beq_iff_eq.mpr hti],
                        h, ⟨le_refl _, fun _ _ => rfl⟩, fun e he => Or.inl he⟩
                    · rw [if_neg hti]
                      split
                      · rename_i ci
                        by_cases hci : ci = t.2
                        · rw [if_pos hci]
                          exact ⟨by simp [specPairMerges, beq_iff_eq.mpr hn,
                            beq_eq_false_iff_ne.mpr hi, hlt, hlc, beq_iff_eq.mpr hci],
                            h, ⟨le_refl _, fun _ _ => rfl⟩, fun e he => Or.inl he⟩
                        · rw [if_neg hci]
                          exact ⟨by simp [specPairMerges, beq_iff_eq.mpr hn,
                            beq_eq_false_iff_ne.mpr hi, hlt, hlc,
                            beq_eq_false_iff_ne.mpr hu1, beq_eq_false_iff_ne.mpr hu2,
                            beq_eq_false_iff_ne.mpr hn1, beq_eq_false_iff_ne.mpr hn2,
                            beq_eq_false_iff_ne.mpr hti, beq_eq_false_iff_ne.mpr hci],
                            h, ⟨le_refl _, fun _ _ => rfl⟩, fun e he => Or.inl he⟩
                      · rename_i hcd
                        have hcd' : ∀ i, cd ≠ TypeDef.optional i := fun i hh => hcd i hh
                        exact ⟨by simp [specPairMerges, beq_iff_eq.mpr hn,
                          beq_eq_false_iff_ne.mpr hi, hlt, hlc,
                          beq_eq_false_iff_ne.mpr hu1, beq_eq_false_iff_ne.mpr hu2,
                          beq_eq_false_iff_ne.mpr hn1, beq_eq_false_iff_ne.mpr hn2,
                          beq_eq_false_iff_ne.mpr hti, specMatchOpt_false hcd'],
                          h, ⟨le_refl _, fun _ _ => rfl⟩, fun e he => Or.inl he⟩
                  · rename_i htd
                    have htd' : ∀ i, td ≠ TypeDef.optional i := fun i hh => htd i hh
                    rename_i ci
                    by_cases hci : ci = t.2
                    · rw [if_pos hci]
                      exact ⟨by simp [specPairMerges, beq_iff_eq.mpr hn,
                        beq_eq_false_iff_ne.mpr hi, hlt, hlc, beq_iff_eq.mpr hci],
                        h, ⟨le_refl _, fun _ _ => rfl⟩, fun e he => Or.inl he⟩
                    · rw [if_neg hci]
                      exact ⟨by simp [specPairMerges, beq_iff_eq.mpr hn,
                        beq_eq_false_iff_ne.mpr hi, hlt, hlc,
                        beq_eq_false_iff_ne.mpr hu1, beq_eq_false_iff_ne.mpr hu2,
                        beq_eq_false_iff_ne.mpr hn1, beq_eq_false_iff_ne.mpr hn2,
                        specMatchOpt_false htd', beq_eq_false_iff_ne.mpr hci],
                        h, ⟨le_refl _, fun _ _ => rfl⟩, fun e he => Or.inl he⟩
                  · rename_i htd hcd
                    have htd' : ∀ i, td ≠ TypeDef.optional i := fun i hh => htd i hh
                    have hcd' : ∀ i, cd ≠ TypeDef.optional i := fun i hh => hcd i hh
                    exact ⟨by simp [specPairMerges, beq_iff_eq.mpr hn,
                      beq_eq_false_iff_ne.mpr hi, hlt, hlc,
                      beq_eq_false_iff_ne.mpr hu1, beq_eq_false_iff_ne.mpr hu2,
                      beq_eq_false_iff_ne.mpr hn1, beq_eq_false_iff_ne.mpr hn2,
                      specMatchOpt_false htd', specMatchOpt_false hcd'],
                      h, ⟨le_refl _, fun _ _ => rfl⟩, fun e he => Or.inl he⟩
  · rw [if_pos hn]
    exact ⟨by simp [specPairMerges, beq_eq_false_iff_ne.mpr hn],
      h, ⟨le_refl _, fun _ _ => rfl⟩, fun e he => Or.inl he⟩

/-- The zipped pairwise merge succeeds exactly when every pair satisfies the
spec criterion (in the starting nodes map), extends the state, and adds only
Optional nodes. -/
theorem mergeFieldPairs_spec :
    ∀ (pairs : List ((String × Nat) × (String × Nat))) (st : ReduceState),
      RInv st → (∀ p ∈ pairs, p.1.2 < st.next ∧ p.2.2 < st.next) →
      ((mergeFieldPairs st pairs).1.isSome
          = pairs.all (fun p => specPairMerges st.nodes p.1 p.2)) ∧
      RInv (mergeFieldPairs st pairs).2 ∧ StExt st (mergeFieldPairs st pairs).2 ∧
      (∀ e ∈ (mergeFieldPairs st pairs).2.nodes,
        e ∈ st.nodes ∨ ∃ j, e.2 = TypeDef.optional j)
  | [], st, h, _ => ⟨rfl, h, ⟨le_refl _, fun _ _ => rfl⟩, fun e he => Or.inl he⟩
  | (t, c) :: rest, st, h, hb => by
    rw [mergeFieldPairs]
    have hp := mergeObjectField_spec h (hb _ (List.mem_cons_self _ _)).1
      (hb _ (List.mem_cons_self _ _)).2
    cases hm : mergeObjectField st t c with
    | mk o st1 =>
      rw [hm] at hp
      cases o with
      | none =>
        refine ⟨?_, hp.2.1, hp.2.2.1, hp.2.2.2⟩
        simp only [List.all_cons]
        rw [show specPairMerges st.nodes t c = false from hp.1.symm]
        rfl
      | some f =>
        dsimp only
        have hrest := mergeFieldPairs_spec rest st1 hp.2.1
          (fun p hp2 => ⟨lt_of_lt_of_le (hb p (List.mem_cons_of_mem _ hp2)).1 hp.2.2.1.1,
            lt_of_lt_of_le (hb p (List.mem_cons_of_mem _ hp2)).2 hp.2.2.1.1⟩)
        have hall : rest.all (fun p => specPairMerges st1.nodes p.1 p.2)
            = rest.all (fun p => specPairMerges st.nodes p.1 p.2) :=
          allCongr (fun p hp2 => specPairMerges_stable hp.2.2.1
            (hb p (List.mem_cons_of_mem _ hp2)).1 (hb p (List.mem_cons_of_mem _ hp2)).2)
        cases hr : mergeFieldPairs st1 rest with
        | mk os st2 =>
          rw [hr] at hrest
          have hnew : ∀ e ∈ st2.nodes, e ∈ st.nodes ∨ ∃ j, e.2 = TypeDef.optional j :=
            fun e he => (hrest.2.2.2 e he).elim
              (fun h1 => hp.2.2.2 e h1) (fun h2 => Or.inr h2)
          cases os with
          | none =>
            dsimp only
            refine ⟨?_, hrest.2.1, stExt_trans hp.2.2.1 hrest.2.2.1, hnew⟩
            simp only [List.all_cons]
            rw [show specPairMerges st.nodes t c = true from hp.1.symm, Bool.true_and,
              ← hall, ← hrest.1]
          | some fs =>
            dsimp only
            refine ⟨?_, hrest.2.1, stExt_trans hp.2.2.1 hrest.2.2.1, hnew⟩
            simp only [List.all_cons]
            rw [show specPairMerges st.nodes t c = true from hp.1.symm, Bool.true_and,
              ← hall, ← hrest.1]
            rfl

/-- The whole-object merge succeeds exactly when the spec object criterion
holds, extends the state, and adds only Optional nodes. -/
theorem mergeObjectFieldsR_spec {st : ReduceState} {a b : List (String × Nat)}
    (h : RInv st) (ha : ∀ f ∈ a, f.2 < st.next) (hb : ∀ f ∈ b, f.2 < st.next) :
    ((mergeObjectFieldsR st a b).1.isSome = specObjectsMerge st.nodes a b) ∧
    RInv (mergeObjectFieldsR st a b).2 ∧ StExt st (mergeObjectFieldsR st a b).2 ∧
    (∀ e ∈ (mergeObjectFieldsR st a b).2.nodes,
      e ∈ st.nodes ∨ ∃ j, e.2 = TypeDef.optional j) := by
  rw [mergeObjectFieldsR, specObjectsMerge]
  by_cases hlen : a.length = b.length
  · rw [if_neg (by simp [hlen])]
    have := mergeFieldPairs_spec (a.zip b) st h
      (fun p hp => ⟨ha _ (List.of_mem_zip hp).1, hb _ (List.of_mem_zip hp).2⟩)
    refine ⟨?_, this.2.1, this.2.2.1, this.2.2.2⟩
    rw [this.1, show (a.length == b.length) = true from beq_iff_eq.mpr hlen, Bool.true_and]
  · rw [if_pos hlen]
    refine ⟨?_, h, ⟨le_refl _, fun _ _ => rfl⟩, fun e he => Or.inl he⟩
    rw [show (a.length == b.length) = false from beq_eq_false_iff_ne.mpr hlen]
    rfl

/-- When the candidate object's spec merge fails against every object node,
the object branch of reduction ends by interning the candidate fresh (in some
extended state). -/
theorem tryTargets_fail :
    ∀ (scan : List Nat) (st : ReduceState) (ofs : List (String × Nat)),
      RInv st → (∀ f ∈ ofs, f.2 < st.next) → (∀ tid ∈ scan, tid < st.next) →
      (∀ tid tfs, lookupNode st.nodes tid = some (TypeDef.object tfs) →
          specObjectsMerge st.nodes tfs ofs = false) →
      ∃ st', tryTargets st scan ofs = internR (TypeDef.object ofs) st'
  | [], st, ofs, _, _, _, _ => ⟨st, by rw [tryTargets]⟩
  | tid :: rest, st, ofs, h, hofs, hscan, hfail => by
    rw [tryTargets]
    cases hl : lookupNode st.nodes tid with
    | none =>
      exact tryTargets_fail rest st ofs h hofs
        (fun x hx => hscan x (List.mem_cons_of_mem _ hx)) hfail
    | some td =>
      cases td with
      | object tfs =>
        dsimp only
        have htfs : ∀ f ∈ tfs, f.2 < st.next := by
          intro f hf
          have hmem := lookupNode_mem hl
          have := (h.1 _ hmem).2 f.2
          exact this (by simp only [refsOf, List.mem_map]; exact ⟨f, hf, rfl⟩)
        have hm := mergeObjectFieldsR_spec h htfs hofs
        have hsf : (mergeObjectFieldsR st tfs ofs).1.isSome = false :=
          hm.1.trans (hfail tid tfs hl)
        cases hmr : mergeObjectFieldsR st tfs ofs with
        | mk o st1 =>
          rw [hmr] at hm hsf
          cases o with
          | some merged => exact absurd hsf (by simp)
          | none =>
            refine tryTargets_fail rest st1 ofs hm.2.1
              (fun f hf => lt_of_lt_of_le (hofs f hf) hm.2.2.1.1)
              (fun x hx => lt_of_lt_of_le (hscan x (List.mem_cons_of_mem _ hx)) hm.2.2.1.1)
              ?_
            intro tid2 tfs2 hl2
            by_cases htid2 : tid2 < st.next
            · rw [hm.2.2.1.2 tid2 htid2] at hl2
              have htfs2 : ∀ f ∈ tfs2, f.2 < st.next := by
                intro f hf
                have hmem := lookupNode_mem hl2
                have := (h.1 _ hmem).2 f.2
                exact this (by simp only [refsOf, List.mem_map]; exact ⟨f, hf, rfl⟩)
              rw [specObjectsMerge_stable hm.2.2.1 htfs2 hofs]
              exact hfail tid2 tfs2 hl2
            · exfalso
              have hmem := lookupNode_mem hl2
              rcases hm.2.2.2 _ hmem with hmem2 | ⟨j, hj⟩
              · exact htid2 (h.1 _ hmem2).1
              · cases hj
      | unknown =>
        exact tryTargets_fail rest st ofs h hofs
          (fun x hx => hscan x (List.mem_cons_of_mem _ hx)) hfail
      | null =>
        exact tryTargets_fail rest st ofs h hofs
          (fun x hx => hscan x (List.mem_cons_of_mem _ hx)) hfail
      | boolean =>
        exact tryTargets_fail rest st ofs h hofs
          (fun x hx => hscan x (List.mem_cons_of_mem _ hx)) hfail
      | integer =>
        exact tryTargets_fail rest st ofs h hofs
          (fun x hx => hscan x (List.mem_cons_of_mem _ hx)) hfail
      | float =>
        exact tryTargets_fail rest st ofs h hofs
          (fun x hx => hscan x (List.mem_cons_of_mem _ hx)) hfail
      | string =>
        exact tryTargets_fail rest st ofs h hofs
          (fun x hx => hscan x (List.mem_cons_of_mem _ hx)) hfail
      | array i =>
        exact tryTargets_fail rest st ofs h hofs
          (fun x hx => hscan x (List.mem_cons_of_mem _ hx)) hfail
      | optional i =>
        exact tryTargets_fail rest st ofs h hofs
          (fun x hx => hscan x (List.mem_cons_of_mem _ hx)) hfail
      | union ids =>
        exact tryTargets_fail rest st ofs h hofs
          (fun x hx => hscan x (List.mem_cons_of_mem _ hx)) hfail

/-- C8: the reducer's object-merge criterion.  (1) A field-name mismatch fails
the pair merge.  (2) An identical TypeId yields that id and leaves the state
alone.  (3) Two field lists merge exactly when they have the same length and
every zipped pair satisfies the spec rules (identical id; Unknown adopts the
other; Null with non-Optional T through a fresh Optional(T); Null with
Optional(T); Optional(T) with T) — any other combination fails.  (4) When the
spec criterion fails against every object node, the candidate object is
interned fresh.  (5) Reduction never creates a Union node. -/
theorem c8_reducer_object_merge_criterion :
    (∀ (st : ReduceState) (t c : String × Nat), t.1 ≠ c.1 →
        (mergeObjectField st t c).1 = none) ∧
    (∀ (st : ReduceState) (t c : String × Nat), t.1 = c.1 → t.2 = c.2 →
        mergeObjectField st t c = (some t, st)) ∧
    (∀ (st : ReduceState) (a b : List (String × Nat)), RInv st →
        (∀ f ∈ a, f.2 < st.next) → (∀ f ∈ b, f.2 < st.next) →
        (mergeObjectFieldsR st a b).1.isSome = specObjectsMerge st.nodes a b) ∧
    (∀ (st : ReduceState) (ofs : List (String × Nat)), RInv st →
        (∀ f ∈ ofs, f.2 < st.next) →
        (∀ tid tfs, lookupNode st.nodes tid = some (TypeDef.object tfs) →
            specObjectsMerge st.nodes tfs ofs = false) →
        ∃ st', reduceTypeDef st (TypeDef.object ofs)
          = internR (TypeDef.object ofs) st') ∧
    (∀ g : TypeGraph, (∀ e ∈ g.nodes, ∀ ids, e.2 ≠ TypeDef.union ids) →
        ∀ e ∈ (reduceGraph g).nodes, ∀ ids, e.2 ≠ TypeDef.union ids) := by
  refine ⟨?_, ?_, ?_, ?_, ?_⟩
  · intro st t c h
    rw [mergeObjectField, if_pos h]
  · intro st t c h1 h2
    rw [mergeObjectField, if_neg (by simp [h1]), if_pos h2]
  · intro st a b h ha hb
    exact (mergeObjectFieldsR_spec h ha hb).1
  · intro st ofs h hofs hfail
    exact tryTargets_fail (st.nodes.map (fun e => e.1)) st ofs h hofs
      (fun tid htid => by
        simp only [List.mem_map] at htid
        obtain ⟨e, he, rfl⟩ := htid
        exact (h.1 e he).1)
      hfail
  · intro g hg e he
    exact reduceFold_UF g.nodes .empty (fun x hx => absurd hx (List.not_mem_nil x)) hg e he

/-- Witness for C8: a name mismatch fails; an identical id merges in place; a
Null field against an Integer field satisfies both the code's merge and the
spec criterion; with no matching object node the candidate is interned
fresh. -/
theorem c8_reducer_object_merge_criterion_witness :
    (mergeObjectField ReduceState.empty ("a", 0) ("b", 0)).1 = none ∧
    mergeObjectField ReduceState.empty ("a", 3) ("a", 3)
      = (some ("a", 3), ReduceState.empty) ∧
    ((mergeObjectFieldsR (⟨[(0, TypeDef.integer), (1, TypeDef.null)], [], [], 2⟩ :
          ReduceState) [("a", 0)] [("a", 1)]).1.isSome
      = specObjectsMerge [(0, TypeDef.integer), (1, TypeDef.null)]
          [("a", 0)] [("a", 1)]) ∧
    (∃ st', reduceTypeDef (⟨[(0, TypeDef.integer)], [(TypeDef.integer, 0)], [], 1⟩ :
          ReduceState) (TypeDef.object [("a", 0)])
      = internR (TypeDef.object [("a", 0)]) st') :=
  ⟨c8_reducer_object_merge_criterion.1 _ _ _ (by decide),
   c8_reducer_object_merge_criterion.2.1 _ _ _ rfl rfl,
   c8_reducer_object_merge_criterion.2.2.1 _ _ _ (by unfold RInv; decide)
     (by decide) (by decide),
   c8_reducer_object_merge_criterion.2.2.2.1 _ _ (by unfold RInv; decide)
     (by decide)
     (by
       intro tid tfs hl
       obtain ⟨e, he, hee⟩ := Option.map_eq_some'.mp hl
       have hm := List.mem_of_find?_eq_some he
       simp only [List.mem_singleton] at hm
       rw [hm] at hee
       cases hee)⟩

/-- The invariant distributes over member-list append. -/
theorem invMembers_append (a b : List FieldType) :
    invMembers (a ++ b) = (invMembers a && invMembers b) := by
  induction a with
  | nil => simp [invMembers]
  | cons m ms ih => simp [invMembers, ih, Bool.and_assoc]

/-- The invariant distributes over field-list append. -/
theorem invFields_append (a b : List (String × FieldType)) :
    invFields (a ++ b) = (invFields a && invFields b) := by
  induction a with
  | nil => simp [invFields]
  | cons f fs ih =>
    obtain ⟨n, t⟩ := f
    simp [invFields, ih, Bool.and_assoc]

/-- Pushing an allowed member keeps the union invariant. -/
theorem pushIfAbsent_inv (ms : List FieldType) (t : FieldType)
    (h : invMembers ms = true) (hm : memberOk t = true) (ht : invFT t = true) :
    invMembers (pushIfAbsent ms t) = true := by
  rw [pushIfAbsent]
  split
  · exact h
  · simp [invMembers_append, invMembers, h, hm, ht]

/-- Extending a union with another union's members keeps the invariant. -/
theorem unionExtend_inv :
    ∀ (nb ms : List FieldType), invMembers ms = true → invMembers nb = true →
      invMembers (unionExtend ms nb) = true
  | [], ms, h1, _ => by rw [unionExtend]; exact h1
  | t :: rest, ms, h1, h2 => by
    rw [unionExtend]
    simp only [invMembers, Bool.and_eq_true] at h2
    exact unionExtend_inv rest _ (pushIfAbsent_inv ms t h1 h2.1.1 h2.1.2) h2.2

/-- Optionalizing a field keeps the invariant. -/
theorem optionalizeField_inv (f : String × FieldType) (h : invFT f.2 = true) :
    invFT (optionalizeField f).2 = true := by
  obtain ⟨n, t⟩ := f
  cases t with
  | null => exact h
  | unknown => exact h
  | optional t => exact h
  | boolean => simp [optionalizeField, invFT, optInnerOk]
  | integer => simp [optionalizeField, invFT, optInnerOk]
  | float => simp [optionalizeField, invFT, optInnerOk]
  | string => simp [optionalizeField, invFT, optInnerOk]
  | array t => simpa [optionalizeField, invFT, optInnerOk] using h
  | object fs => simpa [optionalizeField, invFT, optInnerOk] using h
  | union ms => simpa [optionalizeField, invFT, optInnerOk] using h

/-- A field found by name in an invariant field list is invariant. -/
theorem findByName_inv :
    ∀ (nf : List (String × FieldType)) (n : String) (g : String × FieldType),
      invFields nf = true → findByName nf n = some g → invFT g.2 = true
  | [], _, _, _, hf => by rw [findByName] at hf; cases hf
  | f :: fs, n, g, h, hf => by
    obtain ⟨fn, ft⟩ := f
    rw [findByName] at hf
    simp only [invFields, Bool.and_eq_true] at h
    split at hf
    · cases hf
      exact h.1
    · exact findByName_inv fs n g h.2 hf

/-- Optionalizing the filtered new-only fields keeps the invariant. -/
theorem filterOpt_inv :
    ∀ (nf : List (String × FieldType)) (p : String × FieldType → Bool),
      invFields nf = true → invFields ((nf.filter p).map optionalizeField) = true
  | [], _, _ => rfl
  | f :: fs, p, h => by
    obtain ⟨n, t⟩ := f
    simp only [invFields, Bool.and_eq_true] at h
    rw [List.filter_cons]
    split
    · have ho := optionalizeField_inv (n, t) h.1
      cases t with
      | null => simpa [invFields, filterOpt_inv fs p h.2] using ho
      | unknown => simpa [invFields, filterOpt_inv fs p h.2] using ho
      | optional t => simpa [invFields, filterOpt_inv fs p h.2] using ho
      | boolean => simpa [invFields, filterOpt_inv fs p h.2] using ho
      | integer => simpa [invFields, filterOpt_inv fs p h.2] using ho
      | float => simpa [invFields, filterOpt_inv fs p h.2] using ho
      | string => simpa [invFields, filterOpt_inv fs p h.2] using ho
      | array t => simpa [invFields, filterOpt_inv fs p h.2] using ho
      | object fs2 => simpa [invFields, filterOpt_inv fs p h.2] using ho
      | union ms => simpa [invFields, filterOpt_inv fs p h.2] using ho
    · exact filterOpt_inv fs p h.2

/-- `merge` of two types that may sit directly under an Optional again may sit
directly under an Optional (it is never an Optional, Null or Unknown). -/
theorem merge_shape (a b : FieldType)
    (ha : optInnerOk a = true) (hb : optInnerOk b = true) :
    optInnerOk (merge a b) = true := by
  cases a <;> cases b <;> simp_all [merge, optInnerOk]

mutual
/-- `merge` preserves the strengthened structural invariant. -/
theorem merge_inv : ∀ a b : FieldType,
    invFT a = true → invFT b = true → invFT (merge a b) = true
  | .unknown, .unknown, h1, h2 => by simp [merge, invFT]
  | .null, .null, h1, h2 => by simp [merge, invFT]
  | .boolean, .boolean, h1, h2 => by simp [merge, invFT]
  | .integer, .integer, h1, h2 => by simp [merge, invFT]
  | .float, .float, h1, h2 => by simp [merge, invFT]
  | .string, .string, h1, h2 => by simp [merge, invFT]
  | .null, .unknown, h1, h2 => by simpa [merge] using h1
  | .unknown, .null, h1, h2 => by simpa [merge] using h2
  | .boolean, .unknown, h1, h2 => by simpa [merge] using h1
  | .unknown, .boolean, h1, h2 => by simpa [merge] using h2
  | .integer, .unknown, h1, h2 => by simpa [merge] using h1
  | .unknown, .integer, h1, h2 => by simpa [merge] using h2
  | .float, .unknown, h1, h2 => by simpa [merge] using h1
  | .unknown, .float, h1, h2 => by simpa [merge] using h2
  | .string, .unknown, h1, h2 => by simpa [merge] using h1
  | .unknown, .string, h1, h2 => by simpa [merge] using h2
  | .array t, .unknown, h1, h2 => by simpa [merge] using h1
  | .unknown, .array t, h1, h2 => by simpa [merge] using h2
  | .object fs, .unknown, h1, h2 => by simpa [merge] using h1
  | .unknown, .object fs, h1, h2 => by simpa [merge] using h2
  | .optional t, .unknown, h1, h2 => by simpa [merge] using h1
  | .unknown, .optional t, h1, h2 => by simpa [merge] using h2
  | .union ms, .unknown, h1, h2 => by simpa [merge] using h1
  | .unknown, .union ms, h1, h2 => by simpa [merge] using h2
  | .optional t, .null, h1, h2 => by simpa [merge] using h1
  | .null, .optional t, h1, h2 => by simpa [merge] using h2
  | .boolean, .null, h1, h2 => by simp [merge, invFT, optInnerOk]
  | .null, .boolean, h1, h2 => by simp [merge, invFT, optInnerOk]
  | .integer, .null, h1, h2 => by simp [merge, invFT, optInnerOk]
  | .null, .integer, h1, h2 => by simp [merge, invFT, optInnerOk]
  | .float, .null, h1, h2 => by simp [merge, invFT, optInnerOk]
  | .null, .float, h1, h2 => by simp [merge, invFT, optInnerOk]
  | .string, .null, h1, h2 => by simp [merge, invFT, optInnerOk]
  | .null, .string, h1, h2 => by simp [merge, invFT, optInnerOk]
  | .array t, .null, h1, h2 => by
    have hx : invFT t = true := by simpa [invFT] using h1
    simp [merge, invFT, optInnerOk, hx]
  | .null, .array t, h1, h2 => by
    have hx : invFT t = true := by simpa [invFT] using h2
    simp [merge, invFT, optInnerOk, hx]
  | .object fs, .null, h1, h2 => by
    have hx : invFields fs = true := by simpa [invFT] using h1
    simp [merge, invFT, optInnerOk, hx]
  | .null, .object fs, h1, h2 => by
    have hx : invFields fs = true := by simpa [invFT] using h2
    simp [merge, invFT, optInnerOk, hx]
  | .union ms, .null, h1, h2 => by
    have hx : invMembers ms = true := by simpa [invFT] using h1
    simp [merge, invFT, optInnerOk, hx]
  | .null, .union ms, h1, h2 => by
    have hx : invMembers ms = true := by simpa [invFT] using h2
    simp [merge, invFT, optInnerOk, hx]
  | .boolean, .integer, h1, h2 => by simp [merge, invFT, invMembers, memberOk]
  | .boolean, .float, h1, h2 => by simp [merge, invFT, invMembers, memberOk]
  | .boolean, .string, h1, h2 => by simp [merge, invFT, invMembers, memberOk]
  | .integer, .boolean, h1, h2 => by simp [merge, invFT, invMembers, memberOk]
  | .integer, .float, h1, h2 => by simp [merge, invFT, invMembers, memberOk]
  | .integer, .string, h1, h2 => by simp [merge, invFT, invMembers, memberOk]
  | .float, .boolean, h1, h2 => by simp [merge, invFT, invMembers, memberOk]
  | .float, .integer, h1, h2 => by simp [merge, invFT, invMembers, memberOk]
  | .float, .string, h1, h2 => by simp [merge, invFT, invMembers, memberOk]
  | .string, .boolean, h1, h2 => by simp [merge, invFT, invMembers, memberOk]
  | .string, .integer, h1, h2 => by simp [merge, invFT, invMembers, memberOk]
  | .string, .float, h1, h2 => by simp [merge, invFT, invMembers, memberOk]
  | .boolean, .array t, h1, h2 => by
    have hx : invFT t = true := by simpa [invFT] using h2
    simp [merge, invFT, invMembers, memberOk, hx]
  | .array t, .boolean, h1, h2 => by
    have hx : invFT t = true := by simpa [invFT] using h1
    simp [merge, invFT, invMembers, memberOk, hx]
  | .integer, .array t, h1, h2 => by
    have hx : invFT t = true := by simpa [invFT] using h2
    simp [merge, invFT, invMembers, memberOk, hx]
  | .array t, .integer, h1, h2 => by
    have hx : invFT t = true := by simpa [invFT] using h1
    simp [merge, invFT, invMembers, memberOk, hx]
  | .float, .array t, h1, h2 => by
    have hx : invFT t = true := by simpa [invFT] using h2
    simp [merge, invFT, invMembers, memberOk, hx]
  | .array t, .float, h1, h2 => by
    have hx : invFT t = true := by simpa [invFT] using h1
    simp [merge, invFT, invMembers, memberOk, hx]
  | .string, .array t, h1, h2 => by
    have hx : invFT t = true := by simpa [invFT] using h2
    simp [merge, invFT, invMembers, memberOk, hx]
  | .array t, .string, h1, h2 => by
    have hx : invFT t = true := by simpa [invFT] using h1
    simp [merge, invFT, invMembers, memberOk, hx]
  | .boolean, .object fs, h1, h2 => by
    have hx : invFields fs = true := by simpa [invFT] using h2
    simp [merge, invFT, invMembers, memberOk, hx]
  | .object fs, .boolean, h1, h2 => by
    have hx : invFields fs = true := by simpa [invFT] using h1
    simp [merge, invFT, invMembers, memberOk, hx]
  | .integer, .object fs, h1, h2 => by
    have hx : invFields fs = true := by simpa [invFT] using h2
    simp [merge, invFT, invMembers, memberOk, hx]
  | .object fs, .integer, h1, h2 => by
    have hx : invFields fs = true := by simpa [invFT] using h1
    simp [merge, invFT, invMembers, memberOk, hx]
  | .float, .object fs, h1, h2 => by
    have hx : invFields fs = true := by simpa [invFT] using h2
    simp [merge, invFT, invMembers, memberOk, hx]
  | .object fs, .float, h1, h2 => by
    have hx : invFields fs = true := by simpa [invFT] using h1
    simp [merge, invFT, invMembers, memberOk, hx]
  | .string, .object fs, h1, h2 => by
    have hx : invFields fs = true := by simpa [invFT] using h2
    simp [merge, invFT, invMembers, memberOk, hx]
  | .object fs, .string, h1, h2 => by
    have hx : invFields fs = true := by simpa [invFT] using h1
    simp [merge, invFT, invMembers, memberOk, hx]
  | .boolean, .optional t, h1, h2 => by
    have hx : optInnerOk t = true ∧ invFT t = true := by
      simpa [invFT, Bool.and_eq_true] using h2
    have hs := merge_shape .boolean t (by simp [optInnerOk]) hx.1
    have hr := merge_inv .boolean t (by simp [invFT]) hx.2
    simp [merge, invFT, hs, hr]
  | .optional t, .boolean, h1, h2 => by
    have hx : optInnerOk t = true ∧ invFT t = true := by
      simpa [invFT, Bool.and_eq_true] using h1
    have hs := merge_shape .boolean t (by simp [optInnerOk]) hx.1
    have hr := merge_inv .boolean t (by simp [invFT]) hx.2
    simp [merge, invFT, hs, hr]
  | .integer, .optional t, h1, h2 => by
    have hx : optInnerOk t = true ∧ invFT t = true := by
      simpa [invFT, Bool.and_eq_true] using h2
    have hs := merge_shape .integer t (by simp [optInnerOk]) hx.1
    have hr := merge_inv .integer t (by simp [invFT]) hx.2
    simp [merge, invFT, hs, hr]
  | .optional t, .integer, h1, h2 => by
    have hx : optInnerOk t = true ∧ invFT t = true := by
      simpa [invFT, Bool.and_eq_true] using h1
    have hs := merge_shape .integer t (by simp [optInnerOk]) hx.1
    have hr := merge_inv .integer t (by simp [invFT]) hx.2
    simp [merge, invFT, hs, hr]
  | .float, .optional t, h1, h2 => by
    have hx : optInnerOk t = true ∧ invFT t = true := by
      simpa [invFT, Bool.and_eq_true] using h2
    have hs := merge_shape .float t (by simp [optInnerOk]) hx.1
    have hr := merge_inv .float t (by simp [invFT]) hx.2
    simp [merge, invFT, hs, hr]
  | .optional t, .float, h1, h2 => by
    have hx : optInnerOk t = true ∧ invFT t = true := by
      simpa [invFT, Bool.and_eq_true] using h1
    have hs := merge_shape .float t (by simp [optInnerOk]) hx.1
    have hr := merge_inv .float t (by simp [invFT]) hx.2
    simp [merge, invFT, hs, hr]
  | .string, .optional t, h1, h2 => by
    have hx : optInnerOk t = true ∧ invFT t = true := by
      simpa [invFT, Bool.and_eq_true] using h2
    have hs := merge_shape .string t (by simp [optInnerOk]) hx.1
    have hr := merge_inv .string t (by simp [invFT]) hx.2
    simp [merge, invFT, hs, hr]
  | .optional t, .string, h1, h2 => by
    have hx : optInnerOk t = true ∧ invFT t = true := by
      simpa [invFT, Bool.and_eq_true] using h1
    have hs := merge_shape .string t (by simp [optInnerOk]) hx.1
    have hr := merge_inv .string t (by simp [invFT]) hx.2
    simp [merge, invFT, hs, hr]
  | .boolean, .union ms, h1, h2 => by
    have hx : invMembers ms = true := by simpa [invFT] using h2
    have hp := pushIfAbsent_inv ms .boolean hx (by simp [memberOk]) (by simp [invFT])
    simp [merge, invFT, hp]
  | .union ms, .boolean, h1, h2 => by
    have hx : invMembers ms = true := by simpa [invFT] using h1
    have hp := pushIfAbsent_inv ms .boolean hx (by simp [memberOk]) (by simp [invFT])
    simp [merge, invFT, hp]
  | .integer, .union ms, h1, h2 => by
    have hx : invMembers ms = true := by simpa [invFT] using h2
    have hp := pushIfAbsent_inv ms .integer hx (by simp [memberOk]) (by simp [invFT])
    simp [merge, invFT, hp]
  | .union ms, .integer, h1, h2 => by
    have hx : invMembers ms = true := by simpa [invFT] using h1
    have hp := pushIfAbsent_inv ms .integer hx (by simp [memberOk]) (by simp [invFT])
    simp [merge, invFT, hp]
  | .float, .union ms, h1, h2 => by
    have hx : invMembers ms = true := by simpa [invFT] using h2
    have hp := pushIfAbsent_inv ms .float hx (by simp [memberOk]) (by simp [invFT])
    simp [merge, invFT, hp]
  | .union ms, .float, h1, h2 => by
    have hx : invMembers ms = true := by simpa [invFT] using h1
    have hp := pushIfAbsent_inv ms .float hx (by simp [memberOk]) (by simp [invFT])
    simp [merge, invFT, hp]
  | .string, .union ms, h1, h2 => by
    have hx : invMembers ms = true := by simpa [invFT] using h2
    have hp := pushIfAbsent_inv ms .string hx (by simp [memberOk]) (by simp [invFT])
    simp [merge, invFT, hp]
  | .union ms, .string, h1, h2 => by
    have hx : invMembers ms = true := by simpa [invFT] using h1
    have hp := pushIfAbsent_inv ms .string hx (by simp [memberOk]) (by simp [invFT])
    simp [merge, invFT, hp]
  | .array a, .array b, h1, h2 => by
    have := merge_inv a b (by simpa [invFT] using h1) (by simpa [invFT] using h2)
    simp [merge, invFT, this]
  | .object ef, .object nf, h1, h2 => by
    have := mergeObjFields_inv ef nf (by simpa [invFT] using h1) (by simpa [invFT] using h2)
    simp [merge, invFT, this]
  | .optional a, .optional b, h1, h2 => by
    have hx : optInnerOk a = true ∧ invFT a = true := by
      simpa [invFT, Bool.and_eq_true] using h1
    have hy : optInnerOk b = true ∧ invFT b = true := by
      simpa [invFT, Bool.and_eq_true] using h2
    have hs := merge_shape a b hx.1 hy.1
    have hr := merge_inv a b hx.2 hy.2
    simp [merge, invFT, hs, hr]
  | .union ea, .union nb, h1, h2 => by
    have := unionExtend_inv nb ea (by simpa [invFT] using h1) (by simpa [invFT] using h2)
    simp [merge, invFT, this]
  | .array t, .object fs, h1, h2 => by
    have hx : invFT t = true := by simpa [invFT] using h1
    have hy : invFields fs = true := by simpa [invFT] using h2
    simp [merge, invFT, invMembers, memberOk, hx, hy]
  | .object fs, .array t, h1, h2 => by
    have hx : invFT t = true := by simpa [invFT] using h2
    have hy : invFields fs = true := by simpa [invFT] using h1
    simp [merge, invFT, invMembers, memberOk, hx, hy]
  | .array t, .optional o, h1, h2 => by
    have hx : invFT t = true := by simpa [invFT] using h1
    have hy : optInnerOk o = true ∧ invFT o = true := by
      simpa [invFT, Bool.and_eq_true] using h2
    have hs := merge_shape (.array t) o (by simp [optInnerOk]) hy.1
    have hr := merge_inv (.array t) o (by simpa [invFT] using hx) hy.2
    simp [merge, invFT, hs, hr]
  | .optional o, .array t, h1, h2 => by
    have hx : invFT t = true := by simpa [invFT] using h2
    have hy : optInnerOk o = true ∧ invFT o = true := by
      simpa [invFT, Bool.and_eq_true] using h1
    have hs := merge_shape (.array t) o (by simp [optInnerOk]) hy.1
    have hr := merge_inv (.array t) o (by simpa [invFT] using hx) hy.2
    simp [merge, invFT, hs, hr]
  | .object fs, .optional o, h1, h2 => by
    have hx : invFields fs = true := by simpa [invFT] using h1
    have hy : optInnerOk o = true ∧ invFT o = true := by
      simpa [invFT, Bool.and_eq_true] using h2
    have hs := merge_shape (.object fs) o (by simp [optInnerOk]) hy.1
    have hr := merge_inv (.object fs) o (by simpa [invFT] using hx) hy.2
    simp [merge, invFT, hs, hr]
  | .optional o, .object fs, h1, h2 => by
    have hx : invFields fs = true := by simpa [invFT] using h2
    have hy : optInnerOk o = true ∧ invFT o = true := by
      simpa [invFT, Bool.and_eq_true] using h1
    have hs := merge_shape (.object fs) o (by simp [optInnerOk]) hy.1
    have hr := merge_inv (.object fs) o (by simpa [invFT] using hx) hy.2
    simp [merge, invFT, hs, hr]
  | .union ms, .optional o, h1, h2 => by
    have hx : invMembers ms = true := by simpa [invFT] using h1
    have hy : optInnerOk o = true ∧ invFT o = true := by
      simpa [invFT, Bool.and_eq_true] using h2
    have hs := merge_shape (.union ms) o (by simp [optInnerOk]) hy.1
    have hr := merge_inv (.union ms) o (by simpa [invFT] using hx) hy.2
    simp [merge, invFT, hs, hr]
  | .optional o, .union ms, h1, h2 => by
    have hx : invMembers ms = true := by simpa [invFT] using h2
    have hy : optInnerOk o = true ∧ invFT o = true := by
      simpa [invFT, Bool.and_eq_true] using h1
    have hs := merge_shape (.union ms) o (by simp [optInnerOk]) hy.1
    have hr := merge_inv (.union ms) o (by simpa [invFT] using hx) hy.2
    simp [merge, invFT, hs, hr]
  | .array t, .union ms, h1, h2 => by
    have hx : invFT t = true := by simpa [invFT] using h1
    have hy : invMembers ms = true := by simpa [invFT] using h2
    have := unionMergeArray_inv ms t hy hx
    simp [merge, invFT, this]
  | .union ms, .array t, h1, h2 => by
    have hx : invFT t = true := by simpa [invFT] using h2
    have hy : invMembers ms = true := by simpa [invFT] using h1
    have := unionMergeArray_inv ms t hy hx
    simp [merge, invFT, this]
  | .object fs, .union ms, h1, h2 => by
    have hx : invFields fs = true := by simpa [invFT] using h1
    have hy : invMembers ms = true := by simpa [invFT] using h2
    have := unionMergeObject_inv ms fs hy hx
    simp [merge, invFT, this]
  | .union ms, .object fs, h1, h2 => by
    have hx : invFields fs = true := by simpa [invFT] using h2
    have hy : invMembers ms = true := by simpa [invFT] using h1
    have := unionMergeObject_inv ms fs hy hx
    simp [merge, invFT, this]
termination_by a b h1 h2 => sizeOf a + sizeOf b
decreasing_by all_goals simp_wf <;> omega

/-- Merging an array into a union's members preserves the invariant. -/
theorem unionMergeArray_inv : ∀ (ms : List FieldType) (t : FieldType),
    invMembers ms = true → invFT t = true →
    invMembers (unionMergeArray ms t) = true
  | [], t, _, h2 => by simp [unionMergeArray, invMembers, memberOk, invFT, h2]
  | .array existing :: rest, t, h1, h2 => by
    simp only [invMembers, Bool.and_eq_true] at h1
    have hx : invFT existing = true := by simpa [invFT] using h1.1.2
    rw [unionMergeArray]
    split
    · simp [invMembers, memberOk, invFT, hx, h1.2]
    · have hrec : invFT (merge existing t) = true := merge_inv existing t hx h2
      simp [invMembers, memberOk, invFT, hrec, h1.2]
  | .unknown :: rest, t, h1, h2 => by simp [invMembers, memberOk] at h1
  | .null :: rest, t, h1, h2 => by simp [invMembers, memberOk] at h1
  | .optional x :: rest, t, h1, h2 => by simp [invMembers, memberOk] at h1
  | .union ms2 :: rest, t, h1, h2 => by simp [invMembers, memberOk] at h1
  | .boolean :: rest, t, h1, h2 => by
    simp only [invMembers, Bool.and_eq_true] at h1
    have := unionMergeArray_inv rest t h1.2 h2
    simp [unionMergeArray, invMembers, memberOk, invFT, this]
  | .integer :: rest, t, h1, h2 => by
    simp only [invMembers, Bool.and_eq_true] at h1
    have := unionMergeArray_inv rest t h1.2 h2
    simp [unionMergeArray, invMembers, memberOk, invFT, this]
  | .float :: rest, t, h1, h2 => by
    simp only [invMembers, Bool.and_eq_true] at h1
    have := unionMergeArray_inv rest t h1.2 h2
    simp [unionMergeArray, invMembers, memberOk, invFT, this]
  | .string :: rest, t, h1, h2 => by
    simp only [invMembers, Bool.and_eq_true] at h1
    have := unionMergeArray_inv rest t h1.2 h2
    simp [unionMergeArray, invMembers, memberOk, invFT, this]
  | .object fs :: rest, t, h1, h2 => by
    simp only [invMembers, Bool.and_eq_true] at h1
    have hx : invFields fs = true := by simpa [invFT] using h1.1.2
    have := unionMergeArray_inv rest t h1.2 h2
    simp [unionMergeArray, invMembers, memberOk, invFT, hx, this]
termination_by ms t h1 h2 => sizeOf ms + sizeOf t
decreasing_by all_goals simp_wf <;> omega

/-- Merging an object into a union's members preserves the invariant. -/
theorem unionMergeObject_inv : ∀ (ms : List FieldType) (fs : List (String × FieldType)),
    invMembers ms = true → invFields fs = true →
    invMembers (unionMergeObject ms fs) = true
  | [], fs, _, h2 => by simp [unionMergeObject, invMembers, memberOk, invFT, h2]
  | .object existing :: rest, fs, h1, h2 => by
    simp only [invMembers, Bool.and_eq_true] at h1
    have hx : invFields existing = true := by simpa [invFT] using h1.1.2
    rw [unionMergeObject]
    split
    · simp [invMembers, memberOk, invFT, hx, h1.2]
    · have hrec : invFields (mergeObjFields existing fs) = true :=
        mergeObjFields_inv existing fs hx h2
      simp [invMembers, memberOk, invFT, hrec, h1.2]
  | .unknown :: rest, fs, h1, h2 => by simp [invMembers, memberOk] at h1
  | .null :: rest, fs, h1, h2 => by simp [invMembers, memberOk] at h1
  | .optional x :: rest, fs, h1, h2 => by simp [invMembers, memberOk] at h1
  | .union ms2 :: rest, fs, h1, h2 => by simp [invMembers, memberOk] at h1
  | .boolean :: rest, fs, h1, h2 => by
    simp only [invMembers, Bool.and_eq_true] at h1
    have := unionMergeObject_inv rest fs h1.2 h2
    simp [unionMergeObject, invMembers, memberOk, invFT, this]
  | .integer :: rest, fs, h1, h2 => by
    simp only [invMembers, Bool.and_eq_true] at h1
    have := unionMergeObject_inv rest fs h1.2 h2
    simp [unionMergeObject, invMembers, memberOk, invFT, this]
  | .float :: rest, fs, h1, h2 => by
    simp only [invMembers, Bool.and_eq_true] at h1
    have := unionMergeObject_inv rest fs h1.2 h2
    simp [unionMergeObject, invMembers, memberOk, invFT, this]
  | .string :: rest, fs, h1, h2 => by
    simp only [invMembers, Bool.and_eq_true] at h1
    have := unionMergeObject_inv rest fs h1.2 h2
    simp [unionMergeObject, invMembers, memberOk, invFT, this]
  | .array x :: rest, fs, h1, h2 => by
    simp only [invMembers, Bool.and_eq_true] at h1
    have hx : invFT x = true := by simpa [invFT] using h1.1.2
    have := unionMergeObject_inv rest fs h1.2 h2
    simp [unionMergeObject, invMembers, memberOk, invFT, hx, this]
termination_by ms fs h1 h2 => sizeOf ms + sizeOf fs
decreasing_by all_goals simp_wf <;> omega

/-- `merge_obj_fields` preserves the invariant. -/
theorem mergeObjFields_inv : ∀ (ef nf : List (String × FieldType)),
    invFields ef = true → invFields nf = true →
    invFields (mergeObjFields ef nf) = true
  | ef, nf, h1, h2 => by
    rw [mergeObjFields, invFields_append]
    simp only [Bool.and_eq_true]
    exact ⟨mergeMatched_inv ef nf h1 h2, filterOpt_inv nf _ h2⟩
termination_by ef nf h1 h2 => sizeOf ef + sizeOf nf + 1
decreasing_by all_goals simp_wf <;> omega

/-- The matched pass of `merge_obj_fields` preserves the invariant. -/
theorem mergeMatched_inv : ∀ (ef nf : List (String × FieldType)),
    invFields ef = true → invFields nf = true →
    invFields (mergeMatched ef nf) = true
  | [], nf, _, _ => by simp [mergeMatched, invFields]
  | (fn, ft) :: fs, nf, h1, h2 => by
    simp only [invFields, Bool.and_eq_true] at h1
    rw [mergeMatched]
    cases hf : findByName nf fn with
    | some g =>
      simp only [invFields, Bool.and_eq_true]
      exact ⟨merge_inv ft g.2 h1.1 (findByName_inv nf fn g h2 hf),
        mergeMatched_inv fs nf h1.2 h2⟩
    | none =>
      simp only [invFields, Bool.and_eq_true]
      refine ⟨?_, mergeMatched_inv fs nf h1.2 h2⟩
      exact optionalizeField_inv (fn, ft) h1.1
termination_by ef nf h1 h2 => sizeOf ef + sizeOf nf
decreasing_by
  all_goals simp_wf
  all_goals try omega
  all_goals
    (have hg := sizeOf_snd_lt_of_findByName hf
     simp at hg ⊢
     omega)
end

/-- Membership characterization of the union-member invariant. -/
theorem invMembers_iff : ∀ ms : List FieldType,
    (invMembers ms = true ↔ ∀ m ∈ ms, memberOk m = true ∧ invFT m = true) := by
  intro ms
  induction ms with
  | nil => simp [invMembers]
  | cons m rest ih => simp [invMembers, ih, List.forall_mem_cons, and_assoc]

/-- Membership characterization of the field-list invariant. -/
theorem invFields_iff : ∀ fs : List (String × FieldType),
    (invFields fs = true ↔ ∀ f ∈ fs, invFT f.2 = true) := by
  intro fs
  induction fs with
  | nil => simp [invFields]
  | cons f rest ih =>
    obtain ⟨n, t⟩ := f
    simp [invFields, ih, List.forall_mem_cons]

/-- The union-member invariant transports along permutations. -/
theorem invMembers_of_perm {l l' : List FieldType} (hp : l.Perm l')
    (h : invMembers l = true) : invMembers l' = true := by
  refine (invMembers_iff l').mpr ?_
  intro m hm
  exact (invMembers_iff l).mp h m (hp.mem_iff.mpr hm)

/-- The field-list invariant transports along permutations. -/
theorem invFields_of_perm {l l' : List (String × FieldType)} (hp : l.Perm l')
    (h : invFields l = true) : invFields l' = true := by
  refine (invFields_iff l').mpr ?_
  intro f hf
  exact (invFields_iff l).mp h f (hp.mem_iff.mpr hf)

/-- Canonical sorting keeps the head constructor, so union-membership shape is
unchanged. -/
theorem memberOk_sortFieldType : ∀ t : FieldType,
    memberOk (sortFieldType t) = memberOk t := by
  intro t
  cases t <;> simp [sortFieldType, memberOk]

/-- Canonical sorting keeps the head constructor, so Optional-inner shape is
unchanged. -/
theorem optInnerOk_sortFieldType : ∀ t : FieldType,
    optInnerOk (sortFieldType t) = optInnerOk t := by
  intro t
  cases t <;> simp [sortFieldType, optInnerOk]

mutual
/-- Canonicalization (`sort_field_type`) preserves the invariant. -/
theorem sortFieldType_inv : ∀ t : FieldType, invFT t = true → invFT (sortFieldType t) = true
  | .unknown, h => by simpa [sortFieldType] using h
  | .null, h => by simpa [sortFieldType] using h
  | .boolean, h => by simpa [sortFieldType] using h
  | .integer, h => by simpa [sortFieldType] using h
  | .float, h => by simpa [sortFieldType] using h
  | .string, h => by simpa [sortFieldType] using h
  | .array inner, h => by
    have := sortFieldType_inv inner (by simpa [invFT] using h)
    simp [sortFieldType, invFT, this]
  | .optional inner, h => by
    have h' : optInnerOk inner = true ∧ invFT inner = true := by
      simpa [invFT, Bool.and_eq_true] using h
    have hr := sortFieldType_inv inner h'.2
    simp [sortFieldType, invFT, optInnerOk_sortFieldType, h'.1, hr]
  | .object fields, h => by
    have h' : invFields fields = true := by simpa [invFT] using h
    have h1 := sortFieldsRec_inv fields h'
    have h2 := invFields_of_perm (List.perm_insertionSort nameLe (sortFieldsRec fields)).symm h1
    simpa [sortFieldType, invFT] using h2
  | .union members, h => by
    have h' : invMembers members = true := by simpa [invFT] using h
    have h1 := sortFieldTypesRec_inv members h'
    have h2 := invMembers_of_perm
      (List.perm_insertionSort (fun a b => sortKey a ≤ sortKey b) (sortFieldTypesRec members)).symm h1
    simpa [sortFieldType, invFT] using h2

/-- The recursive pass of field sorting preserves the invariant. -/
theorem sortFieldsRec_inv : ∀ fs : List (String × FieldType),
    invFields fs = true → invFields (sortFieldsRec fs) = true
  | [], h => by simpa [sortFieldsRec] using h
  | (n, t) :: rest, h => by
    simp only [invFields, Bool.and_eq_true] at h
    simp only [sortFieldsRec, invFields, Bool.and_eq_true]
    exact ⟨sortFieldType_inv t h.1, sortFieldsRec_inv rest h.2⟩

/-- The recursive pass of member sorting preserves the invariant. -/
theorem sortFieldTypesRec_inv : ∀ ms : List FieldType,
    invMembers ms = true → invMembers (sortFieldTypesRec ms) = true
  | [], h => by simpa [sortFieldTypesRec] using h
  | m :: rest, h => by
    simp only [invMembers, Bool.and_eq_true] at h
    simp only [sortFieldTypesRec, invMembers, Bool.and_eq_true]
    exact ⟨⟨by rw [memberOk_sortFieldType]; exact h.1.1, sortFieldType_inv m h.1.2⟩,
      sortFieldTypesRec_inv rest h.2⟩
end

mutual
/-- Every inferred field type satisfies the invariant. -/
theorem fieldTypeOf_inv : ∀ v : Value, invFT (fieldTypeOf v) = true
  | .vnull => by simp [fieldTypeOf, invFT]
  | .vbool b => by simp [fieldTypeOf, invFT]
  | .vnum n => by
    simp only [fieldTypeOf]
    split <;> simp [invFT]
  | .vstr s => by simp [fieldTypeOf, invFT]
  | .varr elems => by
    have := aggregate_inv .unknown elems (by simp [invFT])
    simp [fieldTypeOf, invFT, this]
  | .vobj fields => by
    have := objectFields_inv fields
    simp [fieldTypeOf, invFT, this]

/-- Folding `merge` over element types preserves the invariant. -/
theorem aggregate_inv : ∀ (acc : FieldType) (vs : List Value),
    invFT acc = true → invFT (aggregate acc vs) = true
  | acc, [], h => by simpa [aggregate] using h
  | acc, v :: rest, h => by
    rw [aggregate]
    exact aggregate_inv _ rest (merge_inv acc (fieldTypeOf v) h (fieldTypeOf_inv v))

/-- Inferred object field lists satisfy the invariant. -/
theorem objectFields_inv : ∀ fields : List (String × Value),
    invFields (objectFields fields) = true
  | [] => by simp [objectFields, invFields]
  | (k, v) :: rest => by
    rw [objectFields]
    simp only [invFields, Bool.and_eq_true]
    exact ⟨fieldTypeOf_inv v, objectFields_inv rest⟩
end

mutual
/-- The strengthened invariant implies the claim's two invariants. -/
theorem invFT_noBad : ∀ t : FieldType, invFT t = true → noBadNest t = true
  | .unknown, _ => by simp [noBadNest]
  | .null, _ => by simp [noBadNest]
  | .boolean, _ => by simp [noBadNest]
  | .integer, _ => by simp [noBadNest]
  | .float, _ => by simp [noBadNest]
  | .string, _ => by simp [noBadNest]
  | .array t, h => by
    have := invFT_noBad t (by simpa [invFT] using h)
    simp [noBadNest, this]
  | .object fs, h => by
    have := invFields_noBad fs (by simpa [invFT] using h)
    simp [noBadNest, this]
  | .union ms, h => by
    have := invMembers_noBad ms (by simpa [invFT] using h)
    simp [noBadNest, this]
  | .optional t, h => by
    have h' : optInnerOk t = true ∧ invFT t = true := by
      simpa [invFT, Bool.and_eq_true] using h
    have hr := invFT_noBad t h'.2
    cases t with
    | optional x => simp [optInnerOk] at h'
    | null => simp [optInnerOk] at h'
    | unknown => simp [optInnerOk] at h'
    | boolean => simp [noBadNest, hr]
    | integer => simp [noBadNest, hr]
    | float => simp [noBadNest, hr]
    | string => simp [noBadNest, hr]
    | array x => simpa [noBadNest] using hr
    | object fs => simpa [noBadNest] using hr
    | union ms => simpa [noBadNest] using hr

/-- The field-list invariant implies the claim's invariants on fields. -/
theorem invFields_noBad : ∀ fs : List (String × FieldType),
    invFields fs = true → noBadFields fs = true
  | [], _ => by simp [noBadFields]
  | (n, t) :: rest, h => by
    simp only [invFields, Bool.and_eq_true] at h
    simp only [noBadFields, Bool.and_eq_true]
    exact ⟨invFT_noBad t h.1, invFields_noBad rest h.2⟩

/-- The member invariant implies the claim's invariants on union members. -/
theorem invMembers_noBad : ∀ ms : List FieldType,
    invMembers ms = true → noBadMembers ms = true
  | [], _ => by simp [noBadMembers]
  | m :: rest, h => by
    simp only [invMembers, Bool.and_eq_true] at h
    have hr := invFT_noBad m h.1.2
    have hrec := invMembers_noBad rest h.2
    cases m with
    | null => simp [memberOk] at h
    | unknown => simp [memberOk] at h
    | boolean => simp [noBadMembers, hr, hrec]
    | integer => simp [noBadMembers, hr, hrec]
    | float => simp [noBadMembers, hr, hrec]
    | string => simp [noBadMembers, hr, hrec]
    | array x => simp [noBadMembers, hr, hrec]
    | object fs => simp [noBadMembers, hr, hrec]
    | optional x => simp [noBadMembers, hr, hrec]
    | union ms2 => simp [noBadMembers, hr, hrec]
end

/-- C7: schema structural invariants.  For every JSON input the inferred
canonical Schema contains no Optional whose immediate inner type is another
Optional and no Union with a bare Null or Unknown direct member; the merge
operation preserves the (strengthened) invariant `invFT`, which implies the
claim's two invariants at every merge site. -/
theorem c7_schema_structural_invariants :
    (∀ (v : Value) (s : Schema), schemaOfValue v = some s → schemaNoBad s = true) ∧
    (∀ t : FieldType, invFT t = true → noBadNest t = true) ∧
    (∀ a b : FieldType, invFT a = true → invFT b = true → invFT (merge a b) = true) := by
  refine ⟨?_, invFT_noBad, merge_inv⟩
  intro v s h
  cases v with
  | vnull => simp [schemaOfValue] at h
  | vbool b => simp [schemaOfValue] at h
  | vnum n => simp [schemaOfValue] at h
  | vstr sx => simp [schemaOfValue] at h
  | varr elems =>
    simp only [schemaOfValue, Option.some_inj] at h
    subst h
    have h1 := sortFieldType_inv _ (aggregate_inv .unknown elems (by simp [invFT]))
    have h2 := invFT_noBad _ h1
    simpa [schemaNoBad] using h2
  | vobj fields =>
    simp only [schemaOfValue, Option.some_inj] at h
    subst h
    have h1 := sortFieldsRec_inv _ (objectFields_inv fields)
    have h2 := invFields_of_perm
      (List.perm_insertionSort nameLe (sortFieldsRec (objectFields fields))).symm h1
    have h3 := invFields_noBad _ h2
    simpa [schemaNoBad, sortFields] using h3

/-- Witness for C7 at `[null, true]`: the inferred schema is
`Array(Optional(Boolean))`, which satisfies the claim's invariants; the
`Null + Boolean` merge site produces an invariant type. -/
theorem c7_schema_structural_invariants_witness :
    schemaOfValue (.varr [.vnull, .vbool true])
      = some (.sarray (.optional .boolean)) ∧
    schemaNoBad (.sarray (.optional .boolean)) = true ∧
    noBadNest (.optional .boolean) = true ∧
    invFT (merge .null .boolean) = true :=
  ⟨by simp [schemaOfValue, aggregate, fieldTypeOf, merge, sortFieldType],
   c7_schema_structural_invariants.1 (.varr [.vnull, .vbool true]) _
     (by simp [schemaOfValue, aggregate, fieldTypeOf, merge, sortFieldType]),
   c7_schema_structural_invariants.2.1 (.optional .boolean)
     (by simp [invFT, optInnerOk]),
   c7_schema_structural_invariants.2.2 .null .boolean
     (by simp [invFT]) (by simp [invFT])⟩

/-- Lexicographic character order is total. -/
theorem charListLe_total : ∀ a b : List Char,
    charListLe a b = true ∨ charListLe b a = true
  | [], _ => Or.inl (by rw [charListLe])
  | _ :: _, [] => Or.inr (by rw [charListLe])
  | c :: cs, d :: ds => by
    rcases lt_trichotomy c d with h | h | h
    · left
      rw [charListLe, if_pos h]
    · subst h
      rcases charListLe_total cs ds with h2 | h2
      · left
        rw [charListLe, if_neg (lt_irrefl c), if_neg (lt_irrefl c)]
        exact h2
      · right
        rw [charListLe, if_neg (lt_irrefl c), if_neg (lt_irrefl c)]
        exact h2
    · right
      rw [charListLe, if_pos h]

/-- Lexicographic character order is transitive. -/
theorem charListLe_trans : ∀ a b c : List Char,
    charListLe a b = true → charListLe b c = true → charListLe a c = true
  | [], _, _, _, _ => by rw [charListLe]
  | x :: xs, [], _, h1, _ => by rw [charListLe] at h1; cases h1
  | x :: xs, y :: ys, [], _, h2 => by rw [charListLe] at h2; cases h2
  | x :: xs, y :: ys, z :: zs, h1, h2 => by
    rw [charListLe] at h1 h2 ⊢
    rcases lt_trichotomy x y with hxy | hxy | hxy
    · rcases lt_trichotomy y z with hyz | hyz | hyz
      · rw [if_pos (lt_trans hxy hyz)]
      · subst hyz
        rw [if_pos hxy]
      · rw [if_pos hyz, if_neg (not_lt_of_lt hyz)] at h2
        cases h2
    · subst hxy
      rcases lt_trichotomy x z with hyz | hyz | hyz
      · rw [if_pos hyz]
      · subst hyz
        rw [if_neg (lt_irrefl x), if_neg (lt_irrefl x)] at h1 h2 ⊢
        exact charListLe_trans xs ys zs h1 h2
      · rw [if_pos hyz, if_neg (not_lt_of_lt hyz)] at h2
        cases h2
    · rw [if_pos hxy, if_neg (not_lt_of_lt hxy)] at h1
      cases h1

/-- Lexicographic character order is antisymmetric. -/
theorem charListLe_antisymm : ∀ a b : List Char,
    charListLe a b = true → charListLe b a = true → a = b
  | [], [], _, _ => rfl
  | [], _ :: _, _, h2 => by rw [charListLe] at h2; cases h2
  | _ :: _, [], h1, _ => by rw [charListLe] at h1; cases h1
  | x :: xs, y :: ys, h1, h2 => by
    rw [charListLe] at h1 h2
    rcases lt_trichotomy x y with hxy | hxy | hxy
    · rw [if_pos hxy, if_neg (not_lt_of_lt hxy)] at h2
      cases h2
    · subst hxy
      rw [if_neg (lt_irrefl x), if_neg (lt_irrefl x)] at h1 h2
      rw [charListLe_antisymm xs ys h1 h2]
    · rw [if_pos hxy, if_neg (not_lt_of_lt hxy)] at h1
      cases h1

/-- String order totality. -/
theorem strLe_total (a b : String) : strLe a b = true ∨ strLe b a = true :=
  charListLe_total a.data b.data

/-- String order transitivity. -/
theorem strLe_trans {a b c : String} (h1 : strLe a b = true) (h2 : strLe b c = true) :
    strLe a c = true :=
  charListLe_trans a.data b.data c.data h1 h2

/-- String order antisymmetry. -/
theorem strLe_antisymm {a b : String} (h1 : strLe a b = true) (h2 : strLe b a = true) :
    a = b := by
  cases a with
  | mk da =>
    cases b with
    | mk db =>
      rw [charListLe_antisymm da db h1 h2]

instance {β : Type} : IsTotal (String × β) nameLe :=
  ⟨fun a b => strLe_total a.1 b.1⟩

instance {β : Type} : IsTrans (String × β) nameLe :=
  ⟨fun _ _ _ h1 h2 => strLe_trans h1 h2⟩

/-- A found field carries the searched name. -/
theorem findByName_name_eq : ∀ {l : List (String × FieldType)} {n : String}
    {f : String × FieldType}, findByName l n = some f → f.1 = n
  | [], n, f, h => by rw [findByName] at h; cases h
  | g :: gs, n, f, h => by
    rw [findByName] at h
    split at h
    · cases h
      rename_i hg
      simpa using hg
    · exact findByName_name_eq h

/-- A found field is a member. -/
theorem findByName_mem : ∀ {l : List (String × FieldType)} {n : String}
    {f : String × FieldType}, findByName l n = some f → f ∈ l
  | [], n, f, h => by rw [findByName] at h; cases h
  | g :: gs, n, f, h => by
    rw [findByName] at h
    split at h
    · cases h
      exact List.mem_cons_self _ _
    · exact List.mem_cons_of_mem _ (findByName_mem h)

/-- `hasName` is exactly definedness of `findByName`. -/
theorem hasName_eq_isSome : ∀ (l : List (String × FieldType)) (n : String),
    hasName l n = (findByName l n).isSome
  | [], n => by rw [hasName, findByName]; rfl
  | f :: fs, n => by
    rw [hasName, findByName]
    by_cases h : (f.1 == n) = true
    · rw [if_pos h, h]
      rfl
    · rw [if_neg h]
      rw [show (f.1 == n) = false from by simpa using h]
      rw [Bool.false_or]
      exact hasName_eq_isSome fs n

/-- `optionalizeField` keeps the field name. -/
theorem optionalizeField_name (f : String × FieldType) :
    (optionalizeField f).1 = f.1 := by
  obtain ⟨n, t⟩ := f
  cases t <;> rfl

/-- `findByName` over an append. -/
theorem findByName_append : ∀ (l1 l2 : List (String × FieldType)) (n : String),
    findByName (l1 ++ l2) n
      = match findByName l1 n with
        | some f => some f
        | none => findByName l2 n
  | [], l2, n => by simp [findByName]
  | f :: fs, l2, n => by
    rw [List.cons_append, findByName, findByName]
    by_cases h : (f.1 == n) = true
    · rw [if_pos h, if_pos h]
    · rw [if_neg h, if_neg h]
      exact findByName_append fs l2 n

/-- `findByName` over the recursive canonicalization pass. -/
theorem findByName_sortFieldsRec : ∀ (l : List (String × FieldType)) (n : String),
    findByName (sortFieldsRec l) n
      = (findByName l n).map (fun f => (f.1, sortFieldType f.2))
  | [], n => by simp [sortFieldsRec, findByName]
  | f :: fs, n => by
    rw [sortFieldsRec, findByName, findByName]
    by_cases h : (f.1 == n) = true
    · rw [if_pos h, if_pos h]
      rfl
    · rw [if_neg h, if_neg h]
      exact findByName_sortFieldsRec fs n

/-- `mergeMatched` keeps exactly the existing names, in order. -/
theorem mergeMatched_names : ∀ (ef nf : List (String × FieldType)),
    (mergeMatched ef nf).map (fun f => f.1) = ef.map (fun f => f.1)
  | [], nf => by rw [mergeMatched]
  | (fn, ft) :: fs, nf => by
    rw [mergeMatched]
    cases hf : findByName nf fn with
    | some g => simp [mergeMatched_names fs nf]
    | none => simp [optionalizeField_name, mergeMatched_names fs nf]

/-- `findByName` over `mergeMatched`. -/
theorem findByName_mergeMatched : ∀ (ef nf : List (String × FieldType)) (n : String),
    findByName (mergeMatched ef nf) n
      = match findByName ef n with
        | some f =>
            some (match findByName nf f.1 with
                  | some g => (f.1, merge f.2 g.2)
                  | none => optionalizeField f)
        | none => none
  | [], nf, n => by simp [mergeMatched, findByName]
  | (fn, ft) :: fs, nf, n => by
    rw [mergeMatched, findByName, findByName]
    cases hf : findByName nf fn with
    | some g =>
      dsimp only
      by_cases h : (fn == n) = true
      · rw [if_pos h, if_pos h]
        dsimp only
        rw [hf]
      · rw [if_neg h, if_neg h]
        exact findByName_mergeMatched fs nf n
    | none =>
      dsimp only
      by_cases h : (fn == n) = true
      · rw [if_pos (by rw [optionalizeField_name]; exact h), if_pos h]
        dsimp only
        rw [hf]
      · rw [if_neg (by rw [optionalizeField_name]; simpa using h), if_neg h]
        exact findByName_mergeMatched fs nf n

/-- `findByName` over the optionalized new-only fields, when the name is not
an existing one. -/
theorem findByName_filterOpt : ∀ (nf ef : List (String × FieldType)) (n : String),
    hasName ef n = false →
    findByName ((nf.filter (fun g => !hasName ef g.1)).map optionalizeField) n
      = (findByName nf n).map optionalizeField
  | [], ef, n, _ => by simp [findByName]
  | g :: gs, ef, n, h => by
    rw [List.filter_cons, findByName]
    by_cases hgn : (g.1 == n) = true
    · have hg : g.1 = n := by simpa using hgn
      rw [if_pos (by rw [hg, h]; rfl)]
      rw [List.map_cons, findByName,
        if_pos (by rw [optionalizeField_name]; exact hgn), if_pos hgn]
      rfl
    · rw [if_neg hgn]
      by_cases hkeep : (!hasName ef g.1) = true
      · rw [if_pos hkeep, List.map_cons, findByName,
          if_neg (by rw [optionalizeField_name]; simpa using hgn)]
        exact findByName_filterOpt gs ef n h
      · rw [if_neg hkeep]
        exact findByName_filterOpt gs ef n h

/-- `findByName` over the whole object-field merge: common names merge, names
on a single side are optionalized. -/
theorem findByName_mergeObjFields (ef nf : List (String × FieldType)) (n : String) :
    findByName (mergeObjFields ef nf) n
      = match findByName ef n, findByName nf n with
        | some f, some g => some (f.1, merge f.2 g.2)
        | some f, none => some (optionalizeField f)
        | none, some g => some (optionalizeField g)
        | none, none => none := by
  rw [mergeObjFields, findByName_append, findByName_mergeMatched]
  cases hf : findByName ef n with
  | some f =>
    dsimp only
    rw [findByName_name_eq hf]
    cases hg : findByName nf n with
    | some g =>
      dsimp only
      rw [findByName_name_eq hf]
    | none => dsimp only
  | none =>
    dsimp only
    have hn : hasName ef n = false := by
      rw [hasName_eq_isSome, hf]
      rfl
    rw [findByName_filterOpt nf ef n hn]
    cases hg : findByName nf n with
    | some g =>
      dsimp only
      rfl
    | none =>
      dsimp only
      rfl

/-- `hasName` over an append. -/
theorem hasName_append : ∀ (a b : List (String × FieldType)) (n : String),
    hasName (a ++ b) n = (hasName a n || hasName b n)
  | [], b, n => by rw [hasName]; rfl
  | f :: fs, b, n => by
    rw [List.cons_append, hasName, hasName, hasName_append fs b n, Bool.or_assoc]

/-- Membership gives `hasName`. -/
theorem hasName_of_mem : ∀ (l : List (String × FieldType)) (f : String × FieldType),
    f ∈ l → hasName l f.1 = true
  | [], f, h => absurd h (List.not_mem_nil f)
  | g :: gs, f, h => by
    rw [hasName]
    rcases List.mem_cons.mp h with h | h
    · subst h
      simp
    · rw [hasName_of_mem gs f h, Bool.or_true]

/-- A successful search splits the list at the first hit. -/
theorem findByName_split : ∀ {l : List (String × FieldType)} {n : String}
    {f : String × FieldType}, findByName l n = some f →
    ∃ pre post, l = pre ++ f :: post ∧ ∀ x ∈ pre, (x.1 == n) = false
  | [], n, f, h => by rw [findByName] at h; cases h
  | g :: gs, n, f, h => by
    rw [findByName] at h
    by_cases hg : (g.1 == n) = true
    · rw [if_pos hg] at h
      cases h
      exact ⟨[], gs, rfl, by simp⟩
    · rw [if_neg hg] at h
      obtain ⟨pre, post, heq, hpre⟩ := findByName_split h
      refine ⟨g :: pre, post, by rw [heq]; rfl, ?_⟩
      intro x hx
      rcases List.mem_cons.mp hx with hx | hx
      · subst hx
        simpa using hg
      · exact hpre x hx

/-- Removing a middle entry whose name is not searched leaves the search
unchanged. -/
theorem findByName_erase_mid : ∀ (pre : List (String × FieldType))
    (f : String × FieldType) (post : List (String × FieldType)) (m : String),
    (f.1 == m) = false →
    findByName (pre ++ f :: post) m = findByName (pre ++ post) m
  | [], f, post, m, h => by
    rw [List.nil_append, List.nil_append, findByName, if_neg (by simp [h])]
  | g :: pre, f, post, m, h => by
    rw [List.cons_append, List.cons_append, findByName, findByName]
    by_cases hg : (g.1 == m) = true
    · rw [if_pos hg, if_pos hg]
    · rw [if_neg hg, if_neg hg]
      exact findByName_erase_mid pre f post m h

/-- Dropping the middle entry of a name-nodup list: its name disappears,
nodup survives. -/
theorem nodup_middle : ∀ (pre : List (String × FieldType))
    (f : String × FieldType) (post : List (String × FieldType)),
    namesNodupB (pre ++ f :: post) = true →
    hasName (pre ++ post) f.1 = false ∧ namesNodupB (pre ++ post) = true
  | [], f, post, h => by
    rw [List.nil_append] at h
    rw [namesNodupB] at h
    simp only [Bool.and_eq_true, Bool.not_eq_true'] at h
    exact ⟨h.1, h.2⟩
  | g :: pre, f, post, h => by
    rw [List.cons_append, namesNodupB, hasName_append, hasName] at h
    simp only [Bool.and_eq_true, Bool.not_eq_true', Bool.or_eq_false_iff] at h
    obtain ⟨⟨hg1, hg2, hg3⟩, h2⟩ := h
    obtain ⟨hmid1, hmid2⟩ := nodup_middle pre f post h2
    constructor
    · rw [List.cons_append, hasName]
      rw [show (g.1 == f.1) = false from ?gne, Bool.false_or]
      · exact hmid1
      case gne =>
        cases hx : (g.1 == f.1) with
        | false => rfl
        | true =>
          have : g.1 = f.1 := by simpa using hx
          rw [show (f.1 == g.1) = true from by simp [this]] at hg2
          cases hg2
    · rw [List.cons_append, namesNodupB, hasName_append]
      simp only [Bool.and_eq_true, Bool.not_eq_true', Bool.or_eq_false_iff]
      exact ⟨⟨hg1, hg3⟩, hmid2⟩

/-- Two name-nodup lists with identical lookups are permutations. -/
theorem perm_of_findByName_eq : ∀ (l1 l2 : List (String × FieldType)),
    namesNodupB l1 = true → namesNodupB l2 = true →
    (∀ n, findByName l1 n = findByName l2 n) → l1.Perm l2
  | [], l2, _, _, h => by
    cases l2 with
    | nil => exact List.Perm.refl _
    | cons g gs =>
      exfalso
      have hx := h g.1
      rw [findByName, findByName, if_pos (by simp)] at hx
      cases hx
  | f :: t1, l2, h1, h2, h => by
    have hf2 : findByName l2 f.1 = some f := by
      rw [← h f.1, findByName, if_pos (by simp)]
    obtain ⟨pre, post, heq, hpre⟩ := findByName_split hf2
    subst heq
    obtain ⟨hmid1, hmid2⟩ := nodup_middle pre f post h2
    rw [namesNodupB] at h1
    simp only [Bool.and_eq_true, Bool.not_eq_true'] at h1
    refine List.Perm.trans (List.Perm.cons f
      (perm_of_findByName_eq t1 (pre ++ post) h1.2 hmid2 ?_)) List.perm_middle.symm
    intro n
    by_cases hn : (f.1 == n) = true
    · have hfn : f.1 = n := by simpa using hn
      subst hfn
      have e1 : findByName t1 f.1 = none := by
        rw [hasName_eq_isSome] at h1
        cases he : findByName t1 f.1 with
        | none => rfl
        | some g => rw [he] at h1; cases h1.1
      have e2 : findByName (pre ++ post) f.1 = none := by
        rw [hasName_eq_isSome] at hmid1
        cases he : findByName (pre ++ post) f.1 with
        | none => rfl
        | some g => rw [he] at hmid1; cases hmid1
      rw [e1, e2]
    · have e1 : findByName t1 n = findByName (f :: t1) n := by
        rw [findByName, if_neg hn]
      have e2 : findByName (pre ++ post) n
          = findByName (pre ++ f :: post) n :=
        (findByName_erase_mid pre f post n (by simpa using hn)).symm
      rw [e1, e2, h n]

/-- Two sorted permutations with pairwise-distinct names are equal. -/
theorem eq_of_perm_sorted_uniqNames : ∀ (l1 l2 : List (String × FieldType)),
    l1.Perm l2 → l1.Sorted nameLe → l2.Sorted nameLe →
    namesNodupB l1 = true → l1 = l2
  | [], l2, hp, _, _, _ => hp.nil_eq
  | a :: t1, l2, hp, hs1, hs2, hn1 => by
    cases l2 with
    | nil => exact absurd hp.symm.nil_eq (by simp)
    | cons b t2 =>
      rw [namesNodupB] at hn1
      simp only [Bool.and_eq_true, Bool.not_eq_true'] at hn1
      by_cases hab : a = b
      · subst hab
        rw [eq_of_perm_sorted_uniqNames t1 t2 hp.cons_inv
          (List.sorted_cons.mp hs1).2 (List.sorted_cons.mp hs2).2 hn1.2]
      · exfalso
        have hmem_a : a ∈ b :: t2 := hp.subset (List.mem_cons_self _ _)
        have hmem_b : b ∈ a :: t1 := hp.symm.subset (List.mem_cons_self _ _)
        have ha2 : a ∈ t2 := by
          rcases List.mem_cons.mp hmem_a with hx | hx
          · exact absurd hx hab
          · exact hx
        have hb1 : b ∈ t1 := by
          rcases List.mem_cons.mp hmem_b with hx | hx
          · exact absurd hx.symm hab
          · exact hx
        have hle1 : nameLe a b := (List.sorted_cons.mp hs1).1 b hb1
        have hle2 : nameLe b a := (List.sorted_cons.mp hs2).1 a ha2
        have hname : a.1 = b.1 := strLe_antisymm hle1 hle2
        have hb : hasName t1 b.1 = true := hasName_of_mem t1 b hb1
        rw [← hname] at hb
        rw [hb] at hn1
        cases hn1.1

/-- `hasName` as existence of a member with that name. -/
theorem hasName_iff : ∀ (l : List (String × FieldType)) (n : String),
    (hasName l n = true ↔ ∃ f ∈ l, f.1 = n)
  | [], n => by simp [hasName]
  | f :: fs, n => by
    rw [hasName]
    simp only [Bool.or_eq_true, hasName_iff fs n, List.mem_cons]
    constructor
    · rintro (h | ⟨g, hg, hgn⟩)
      · exact ⟨f, Or.inl rfl, by simpa using h⟩
      · exact ⟨g, Or.inr hg, hgn⟩
    · rintro ⟨g, hg | hg, hgn⟩
      · subst hg
        exact Or.inl (by simpa using hgn)
      · exact Or.inr ⟨g, hg, hgn⟩

/-- `hasName` transports along permutations. -/
theorem hasName_of_perm {l1 l2 : List (String × FieldType)} (hp : l1.Perm l2)
    (n : String) : hasName l1 n = hasName l2 n := by
  cases h1 : hasName l1 n with
  | true =>
    obtain ⟨f, hf, hfn⟩ := (hasName_iff l1 n).mp h1
    exact ((hasName_iff l2 n).mpr ⟨f, hp.subset hf, hfn⟩).symm
  | false =>
    cases h2 : hasName l2 n with
    | false => rfl
    | true =>
      obtain ⟨f, hf, hfn⟩ := (hasName_iff l2 n).mp h2
      rw [(hasName_iff l1 n).mpr ⟨f, hp.symm.subset hf, hfn⟩] at h1
      cases h1

/-- Name-nodup transports along permutations. -/
theorem namesNodupB_of_perm : ∀ {l1 l2 : List (String × FieldType)},
    l1.Perm l2 → namesNodupB l1 = true → namesNodupB l2 = true := by
  intro l1 l2 hp
  induction hp with
  | nil => exact id
  | cons x hp2 ih =>
    intro h
    rw [namesNodupB] at h ⊢
    simp only [Bool.and_eq_true, Bool.not_eq_true'] at h ⊢
    exact ⟨by rw [← hasName_of_perm hp2]; exact h.1, ih h.2⟩
  | swap x y l =>
    intro h
    rw [namesNodupB, namesNodupB, hasName] at h
    rw [namesNodupB, namesNodupB, hasName]
    simp only [Bool.and_eq_true, Bool.not_eq_true', Bool.or_eq_false_iff] at h ⊢
    obtain ⟨⟨hyx, hx⟩, hy, hl⟩ := h
    refine ⟨⟨?_, hy⟩, hx, hl⟩
    cases hxy : (y.1 == x.1) with
    | false => rfl
    | true =>
      have : y.1 = x.1 := by simpa using hxy
      rw [show (x.1 == y.1) = true from by simp [this]] at hyx
      cases hyx
  | trans hp1 hp2 ih1 ih2 => exact fun h => ih2 (ih1 h)

/-- `hasName` over the matched pass. -/
theorem hasName_mergeMatched (ef nf : List (String × FieldType)) (m : String) :
    hasName (mergeMatched ef nf) m = hasName ef m := by
  rw [hasName_eq_isSome, hasName_eq_isSome, findByName_mergeMatched]
  cases findByName ef m <;> rfl

/-- The matched pass keeps name-nodup. -/
theorem namesNodupB_mergeMatched : ∀ (ef nf : List (String × FieldType)),
    namesNodupB (mergeMatched ef nf) = namesNodupB ef
  | [], nf => by rw [mergeMatched]
  | (fn, ft) :: fs, nf => by
    rw [mergeMatched, namesNodupB, namesNodupB]
    cases hf : findByName nf fn with
    | some g =>
      dsimp only
      rw [hasName_mergeMatched, namesNodupB_mergeMatched fs nf]
    | none =>
      dsimp only
      rw [optionalizeField_name, hasName_mergeMatched, namesNodupB_mergeMatched fs nf]

/-- Names of the optionalized filtered fields come from the original list. -/
theorem hasName_filterOpt_le :
    ∀ (gs : List (String × FieldType)) (p : String × FieldType → Bool) (n : String),
      hasName ((gs.filter p).map optionalizeField) n = true → hasName gs n = true
  | [], p, n, h => by simpa [hasName] using h
  | g :: rest, p, n, h => by
    rw [List.filter_cons] at h
    rw [hasName, Bool.or_eq_true]
    by_cases hp : p g = true
    · rw [if_pos hp, List.map_cons, hasName, Bool.or_eq_true, optionalizeField_name] at h
      rcases h with h | h
      · exact Or.inl h
      · exact Or.inr (hasName_filterOpt_le rest p n h)
    · rw [if_neg hp] at h
      exact Or.inr (hasName_filterOpt_le rest p n h)

/-- The optionalized filtered fields keep name-nodup. -/
theorem namesNodupB_filterOpt :
    ∀ (nf : List (String × FieldType)) (p : String × FieldType → Bool),
      namesNodupB nf = true → namesNodupB ((nf.filter p).map optionalizeField) = true
  | [], p, _ => rfl
  | g :: rest, p, h => by
    rw [namesNodupB] at h
    simp only [Bool.and_eq_true, Bool.not_eq_true'] at h
    rw [List.filter_cons]
    by_cases hp : p g = true
    · rw [if_pos hp, List.map_cons, namesNodupB]
      simp only [Bool.and_eq_true, Bool.not_eq_true', optionalizeField_name]
      refine ⟨?_, namesNodupB_filterOpt rest p h.2⟩
      cases hx : hasName ((rest.filter p).map optionalizeField) g.1 with
      | false => rfl
      | true =>
        rw [hasName_filterOpt_le rest p g.1 hx] at h
        cases h.1
    · rw [if_neg hp]
      exact namesNodupB_filterOpt rest p h.2

/-- A name present among the existing fields never occurs among the
optionalized new-only fields. -/
theorem hasName_filterOpt_false :
    ∀ (nf ef : List (String × FieldType)) (n : String), hasName ef n = true →
      hasName ((nf.filter (fun g => !hasName ef g.1)).map optionalizeField) n = false
  | [], ef, n, _ => rfl
  | g :: rest, ef, n, h => by
    rw [List.filter_cons]
    by_cases hp : (!hasName ef g.1) = true
    · rw [if_pos hp, List.map_cons, hasName, optionalizeField_name]
      rw [hasName_filterOpt_false rest ef n h, Bool.or_false]
      cases hx : (g.1 == n) with
      | false => rfl
      | true =>
        have : g.1 = n := by simpa using hx
        rw [this, h] at hp
        cases hp
    · rw [if_neg hp]
      exact hasName_filterOpt_false rest ef n h

/-- Name-nodup for appended lists with disjoint names. -/
theorem namesNodupB_append_of :
    ∀ (a b : List (String × FieldType)), namesNodupB a = true → namesNodupB b = true →
      (∀ f ∈ a, hasName b f.1 = false) → namesNodupB (a ++ b) = true
  | [], b, _, hb, _ => hb
  | f :: fs, b, ha, hb, hd => by
    rw [namesNodupB] at ha
    simp only [Bool.and_eq_true, Bool.not_eq_true'] at ha
    rw [List.cons_append, namesNodupB, hasName_append, ha.1,
      hd f (List.mem_cons_self _ _), Bool.or_false]
    simp only [Bool.and_eq_true]
    exact ⟨rfl, namesNodupB_append_of fs b ha.2 hb
      (fun g hg => hd g (List.mem_cons_of_mem _ hg))⟩

/-- The whole object-field merge keeps name-nodup. -/
theorem namesNodupB_mergeObjFields (ef nf : List (String × FieldType))
    (h1 : namesNodupB ef = true) (h2 : namesNodupB nf = true) :
    namesNodupB (mergeObjFields ef nf) = true := by
  rw [mergeObjFields]
  refine namesNodupB_append_of _ _ (by rw [namesNodupB_mergeMatched]; exact h1)
    (namesNodupB_filterOpt nf _ h2) ?_
  intro f hf
  have hn : hasName (mergeMatched ef nf) f.1 = true := hasName_of_mem _ f hf
  rw [hasName_mergeMatched] at hn
  exact hasName_filterOpt_false nf ef f.1 hn

/-- The recursive canonicalization pass keeps names and name-nodup. -/
theorem hasName_sortFieldsRec (l : List (String × FieldType)) (n : String) :
    hasName (sortFieldsRec l) n = hasName l n := by
  rw [hasName_eq_isSome, hasName_eq_isSome, findByName_sortFieldsRec]
  cases findByName l n <;> rfl

/-- Name-nodup survives the recursive canonicalization pass. -/
theorem namesNodupB_sortFieldsRec : ∀ l : List (String × FieldType),
    namesNodupB (sortFieldsRec l) = namesNodupB l
  | [] => rfl
  | f :: fs => by
    rw [sortFieldsRec, namesNodupB, namesNodupB]
    dsimp only
    rw [hasName_sortFieldsRec, namesNodupB_sortFieldsRec fs]

/-- A field found by name in a `ufWF` field list is `ufWF`. -/
theorem findByName_ufWF : ∀ (nf : List (String × FieldType)) (n : String)
    (g : String × FieldType), ufWFFields nf = true → findByName nf n = some g →
    ufWF g.2 = true
  | [], _, _, _, hf => by rw [findByName] at hf; cases hf
  | (fn, ft) :: fs, n, g, h, hf => by
    rw [findByName] at hf
    rw [ufWFFields] at h
    simp only [Bool.and_eq_true] at h
    split at hf
    · cases hf
      exact h.1
    · exact findByName_ufWF fs n g h.2 hf

mutual
/-- `merge` is commutative up to canonicalization on union-free,
uniquely-named field types. -/
theorem mergeComm : ∀ a b : FieldType, ufWF a = true → ufWF b = true →
    sortFieldType (merge a b) = sortFieldType (merge b a)
  | .union ms, b, h1, h2 => by rw [ufWF] at h1; cases h1
  | a, .union ms, h1, h2 => by rw [ufWF] at h2; cases h2
  | .unknown, .unknown, _, _ => by simp [merge]
  | .unknown, .null, _, _ => by simp [merge]
  | .unknown, .boolean, _, _ => by simp [merge]
  | .unknown, .integer, _, _ => by simp [merge]
  | .unknown, .float, _, _ => by simp [merge]
  | .unknown, .string, _, _ => by simp [merge]
  | .unknown, .array b, _, _ => by simp [merge]
  | .unknown, .object b, _, _ => by simp [merge]
  | .unknown, .optional b, _, _ => by simp [merge]
  | .null, .unknown, _, _ => by simp [merge]
  | .null, .null, _, _ => by simp [merge]
  | .null, .boolean, _, _ => by simp [merge]
  | .null, .integer, _, _ => by simp [merge]
  | .null, .float, _, _ => by simp [merge]
  | .null, .string, _, _ => by simp [merge]
  | .null, .array b, _, _ => by simp [merge]
  | .null, .object b, _, _ => by simp [merge]
  | .null, .optional b, _, _ => by simp [merge]
  | .boolean, .unknown, _, _ => by simp [merge]
  | .boolean, .null, _, _ => by simp [merge]
  | .boolean, .boolean, _, _ => by simp [merge]
  | .boolean, .integer, _, _ => by simp [merge]
  | .boolean, .float, _, _ => by simp [merge]
  | .boolean, .string, _, _ => by simp [merge]
  | .boolean, .array b, _, _ => by simp [merge]
  | .boolean, .object b, _, _ => by simp [merge]
  | .boolean, .optional b, _, _ => by simp [merge]
  | .integer, .unknown, _, _ => by simp [merge]
  | .integer, .null, _, _ => by simp [merge]
  | .integer, .boolean, _, _ => by simp [merge]
  | .integer, .integer, _, _ => by simp [merge]
  | .integer, .float, _, _ => by simp [merge]
  | .integer, .string, _, _ => by simp [merge]
  | .integer, .array b, _, _ => by simp [merge]
  | .integer, .object b, _, _ => by simp [merge]
  | .integer, .optional b, _, _ => by simp [merge]
  | .float, .unknown, _, _ => by simp [merge]
  | .float, .null, _, _ => by simp [merge]
  | .float, .boolean, _, _ => by simp [merge]
  | .float, .integer, _, _ => by simp [merge]
  | .float, .float, _, _ => by simp [merge]
  | .float, .string, _, _ => by simp [merge]
  | .float, .array b, _, _ => by simp [merge]
  | .float, .object b, _, _ => by simp [merge]
  | .float, .optional b, _, _ => by simp [merge]
  | .string, .unknown, _, _ => by simp [merge]
  | .string, .null, _, _ => by simp [merge]
  | .string, .boolean, _, _ => by simp [merge]
  | .string, .integer, _, _ => by simp [merge]
  | .string, .float, _, _ => by simp [merge]
  | .string, .string, _, _ => by simp [merge]
  | .string, .array b, _, _ => by simp [merge]
  | .string, .object b, _, _ => by simp [merge]
  | .string, .optional b, _, _ => by simp [merge]
  | .array a, .unknown, _, _ => by simp [merge]
  | .array a, .null, _, _ => by simp [merge]
  | .array a, .boolean, _, _ => by simp [merge]
  | .array a, .integer, _, _ => by simp [merge]
  | .array a, .float, _, _ => by simp [merge]
  | .array a, .string, _, _ => by simp [merge]
  | .array a, .array b, h1, h2 => by
    have := mergeComm a b (by simpa [ufWF] using h1) (by simpa [ufWF] using h2)
    simp [merge, sortFieldType, this]
  | .array a, .object b, _, _ => by simp [merge]
  | .array a, .optional b, _, _ => by simp [merge]
  | .object a, .unknown, _, _ => by simp [merge]
  | .object a, .null, _, _ => by simp [merge]
  | .object a, .boolean, _, _ => by simp [merge]
  | .object a, .integer, _, _ => by simp [merge]
  | .object a, .float, _, _ => by simp [merge]
  | .object a, .string, _, _ => by simp [merge]
  | .object a, .array b, _, _ => by simp [merge]
  | .object ef, .object nf, h1, h2 => by
    rw [ufWF] at h1 h2
    simp only [Bool.and_eq_true] at h1 h2
    have := mergeObjComm ef nf h1.1 h2.1 h1.2 h2.2
    simp [merge, sortFieldType, this]
  | .object a, .optional b, _, _ => by simp [merge]
  | .optional a, .unknown, _, _ => by simp [merge]
  | .optional a, .null, _, _ => by simp [merge]
  | .optional a, .boolean, _, _ => by simp [merge]
  | .optional a, .integer, _, _ => by simp [merge]
  | .optional a, .float, _, _ => by simp [merge]
  | .optional a, .string, _, _ => by simp [merge]
  | .optional a, .array b, _, _ => by simp [merge]
  | .optional a, .object b, _, _ => by simp [merge]
  | .optional a, .optional b, h1, h2 => by
    have := mergeComm a b (by simpa [ufWF] using h1) (by simpa [ufWF] using h2)
    simp [merge, sortFieldType, this]
termination_by a b h1 h2 => sizeOf a + sizeOf b
decreasing_by all_goals simp_wf <;> omega

/-- Object-field merging is commutative up to by-name sorting: both orders
carry the same name-indexed lookups, so the sorted nodup lists coincide. -/
theorem mergeObjComm : ∀ (ef nf : List (String × FieldType)),
    namesNodupB ef = true → namesNodupB nf = true →
    ufWFFields ef = true → ufWFFields nf = true →
    (sortFieldsRec (mergeObjFields ef nf)).insertionSort nameLe
      = (sortFieldsRec (mergeObjFields nf ef)).insertionSort nameLe
  | ef, nf, hne, hnn, hwe, hwn => by
    have hlook : ∀ n, findByName (sortFieldsRec (mergeObjFields ef nf)) n
        = findByName (sortFieldsRec (mergeObjFields nf ef)) n := by
      intro n
      rw [findByName_sortFieldsRec, findByName_sortFieldsRec,
        findByName_mergeObjFields, findByName_mergeObjFields]
      cases hfe : findByName ef n with
      | none =>
        cases hfn : findByName nf n with
        | none => rfl
        | some g => rfl
      | some f =>
        cases hfn : findByName nf n with
        | none => rfl
        | some g =>
          dsimp only
          rw [findByName_name_eq hfe, findByName_name_eq hfn]
          simp only [Option.map]
          rw [mergeComm f.2 g.2 (findByName_ufWF ef n f hwe hfe)
              (findByName_ufWF nf n g hwn hfn)]
    have hperm := perm_of_findByName_eq _ _
      (by rw [namesNodupB_sortFieldsRec]
          exact namesNodupB_mergeObjFields ef nf hne hnn)
      (by rw [namesNodupB_sortFieldsRec]
          exact namesNodupB_mergeObjFields nf ef hnn hne)
      hlook
    refine eq_of_perm_sorted_uniqNames _ _ ?_ ?_ ?_ ?_
    · exact ((List.perm_insertionSort _ _).trans hperm).trans
        (List.perm_insertionSort _ _).symm
    · exact List.sorted_insertionSort _ _
    · exact List.sorted_insertionSort _ _
    · exact namesNodupB_of_perm (List.perm_insertionSort _ _).symm
        (by rw [namesNodupB_sortFieldsRec]
            exact namesNodupB_mergeObjFields ef nf hne hnn)
termination_by ef nf h1 h2 h3 h4 => sizeOf ef + sizeOf nf
decreasing_by
  all_goals simp_wf
  all_goals try omega
  all_goals
    (have hg1 := sizeOf_snd_lt_of_findByName hfe
     have hg2 := sizeOf_snd_lt_of_findByName hfn
     omega)
end

/-- C6 counterexample: up-to-canonicalization commutativity fails on unions
(the two object members keep their arrival order under the stable
rank sort), and associativity fails even without unions (an absent field is
optionalized in one association order only). -/
theorem c6_counterexample_comm_assoc :
    sortFieldType (merge (.union [.integer, .object [("x", .integer)]])
        (.union [.integer, .object [("y", .string)]]))
      ≠ sortFieldType (merge (.union [.integer, .object [("y", .string)]])
        (.union [.integer, .object [("x", .integer)]])) ∧
    sortFieldType (merge (merge (.object [("k0", .integer)]) (.object []))
        (.object [("k0", .unknown)]))
      ≠ sortFieldType (merge (.object [("k0", .integer)])
        (merge (.object []) (.object [("k0", .unknown)]))) := by
  constructor
  · have e1 : sortFieldType (merge (.union [.integer, .object [("x", .integer)]])
        (.union [.integer, .object [("y", .string)]]))
        = .union [.integer, .object [("x", .integer)], .object [("y", .string)]] := by
      simp [merge, unionExtend, pushIfAbsent, sortFieldType, sortFieldTypesRec,
        sortFieldsRec, sortKey, nameLe, strLe, charListLe]
    have e2 : sortFieldType (merge (.union [.integer, .object [("y", .string)]])
        (.union [.integer, .object [("x", .integer)]]))
        = .union [.integer, .object [("y", .string)], .object [("x", .integer)]] := by
      simp [merge, unionExtend, pushIfAbsent, sortFieldType, sortFieldTypesRec,
        sortFieldsRec, sortKey, nameLe, strLe, charListLe]
    rw [e1, e2]
    decide
  · have e1 : sortFieldType (merge (merge (.object [("k0", .integer)]) (.object []))
        (.object [("k0", .unknown)]))
        = .object [("k0", .optional .integer)] := by
      simp [merge, mergeObjFields, mergeMatched, findByName, hasName, optionalizeField,
        sortFieldType, sortFieldsRec, nameLe, strLe, charListLe]
    have e2 : sortFieldType (merge (.object [("k0", .integer)])
        (merge (.object []) (.object [("k0", .unknown)])))
        = .object [("k0", .integer)] := by
      simp [merge, mergeObjFields, mergeMatched, findByName, hasName, optionalizeField,
        sortFieldType, sortFieldsRec, nameLe, strLe, charListLe]
    rw [e1, e2]
    decide

/-- C6 (amended): on union-free field types whose objects have pairwise
distinct field names — the only shapes inference produces below unions —
`merge` is commutative up to canonicalization.  The original claim fails:
union member order depends on argument order (and associativity fails even
union-free), see the counterexample. -/
theorem c6_merge_commutative_union_free (a b : FieldType)
    (ha : ufWF a = true) (hb : ufWF b = true) :
    sortFieldType (merge a b) = sortFieldType (merge b a) :=
  mergeComm a b ha hb

/-- Witness for the amended C6 at two objects with disjoint field names. -/
theorem c6_merge_commutative_union_free_witness :
    ufWF (.object [("a", .integer)]) = true ∧
    ufWF (.object [("b", .string)]) = true ∧
    sortFieldType (merge (.object [("a", .integer)]) (.object [("b", .string)]))
      = sortFieldType (merge (.object [("b", .string)]) (.object [("a", .integer)])) :=
  ⟨by simp [ufWF, ufWFFields, namesNodupB, hasName],
   by simp [ufWF, ufWFFields, namesNodupB, hasName],
   c6_merge_commutative_union_free _ _
     (by simp [ufWF, ufWFFields, namesNodupB, hasName])
     (by simp [ufWF, ufWFFields, namesNodupB, hasName])⟩

end JCG
